import Mathlib

/-!
Verification development for `weighted_graph.h`.

A shallow embedding of the `WeightedGraph` class (cycle detection, Dijkstra
shortest paths with path reconstruction, Prim spanning tree, graph loading,
symmetrisation)
together with theorems about it.

Modelling conventions.

* Node numbers are C++ `int`s and are embedded as `Int`; nothing here comes close
  to the 32-bit range, so no wrap-around is modelled.
* Edge weights are `float`s.  They are embedded as elements of an arbitrary
  linearly ordered additive commutative group `W` (exact arithmetic: `ℤ`, `ℚ`, ...);
  rounding, NaN and infinite input weights are not modelled.
* The fixed-size member arrays (`adj`, `colour`, `visited`, `dist`) are total maps
  `Int → α`; every access is guarded by `InBounds` and an access outside
  `[0, MAX_SIZE)` (undefined behaviour in C++) makes the embedded function
  return `none`.
* Loops and recursion whose termination is not structural take a `fuel`
  argument and return `none` when it runs out.
-/

/-- The data members of `class WeightedGraph`: `numNodes` and the array `adj` of
adjacency vectors (`adj i` is the vector stored at `adj[i]`). -/
structure WeightedGraph (W : Type) where
  numNodes : Int
  adj : Int → List (Int × W)

namespace WeightedGraph

variable {W : Type}

/-! ## Constants and construction -/

/-- The constant `static const int MAX_SIZE = 100`. -/
def MAX_SIZE : Int := 100

/-- The constant `static const int WHITE = 0`. -/
def WHITE : Int := 0

/-- The constant `static const int GREY = 1`. -/
def GREY : Int := 1

/-- The constant `static const int BLACK = 2`. -/
def BLACK : Int := 2

/-- A valid index into one of the arrays of length `MAX_SIZE`. -/
def InBounds (i : Int) : Prop := 0 ≤ i ∧ i < MAX_SIZE

instance (i : Int) : Decidable (InBounds i) := by
  unfold InBounds
  infer_instance

/-- The constructor `WeightedGraph()`: `numNodes = 0` and every adjacency vector
is default-constructed (empty). -/
def fresh : WeightedGraph W := ⟨0, fun _ => []⟩

/-- The method `getNumNodes()`. -/
def getNumNodes (g : WeightedGraph W) : Int := g.numNodes

/-! ## Cycle detection -/

/-- The `for (pair<int,float> p : adj[s])` loop of `cycleDfs`, followed by the
code after the loop.  `call` is the recursive invocation of `cycleDfs`.
The result is the returned boolean together with the final `colour` array. -/
def cycleFor (call : Int → (Int → Int) → Option (Bool × (Int → Int))) (s : Int) :
    List (Int × W) → (Int → Int) → Option (Bool × (Int → Int))
  | [], colour => some (false, Function.update colour s BLACK)
  | p :: rest, colour =>
    if InBounds p.1 then
      if colour p.1 = WHITE then call p.1 colour
      else if colour p.1 = GREY then some (true, colour)
      else cycleFor call s rest colour
    else none

/-- The recursive function `cycleDfs(s, colour)`; `fuel` bounds the recursion depth. -/
def cycleDfs (g : WeightedGraph W) : Nat → Int → (Int → Int) → Option (Bool × (Int → Int))
  | 0, _, _ => none
  | fuel + 1, s, colour =>
    if InBounds s then
      cycleFor (cycleDfs g fuel) s (g.adj s) (Function.update colour s GREY)
    else none

/-- The method `hasCycle(s)`: `colour` is set to `WHITE` everywhere by `memset`, then
`cycleDfs` is called. -/
def hasCycle (g : WeightedGraph W) (fuel : Nat) (s : Int) : Option Bool :=
  (cycleDfs g fuel s (fun _ => WHITE)).map Prod.fst

/-! ### Instrumented cycle detection -/

/-- The loop of `cycleDfs` as in `cycleFor`, instrumented: the result also carries the list
of calls of `cycleDfs` made from here on (node and `colour` array at entry, in call order)
and the list of the colour values read from `colour[p.first]`. -/
def cycleForT
    (call : Int → (Int → Int) → Option (Bool × (Int → Int) × List (Int × (Int → Int)) × List Int))
    (s : Int) :
    List (Int × W) → (Int → Int) →
      Option (Bool × (Int → Int) × List (Int × (Int → Int)) × List Int)
  | [], colour => some (false, Function.update colour s BLACK, [], [])
  | p :: rest, colour =>
    if InBounds p.1 then
      if colour p.1 = WHITE then
        (call p.1 colour).map (fun r => (r.1, r.2.1, r.2.2.1, colour p.1 :: r.2.2.2))
      else if colour p.1 = GREY then some (true, colour, [], [colour p.1])
      else (cycleForT call s rest colour).map
        (fun r => (r.1, r.2.1, r.2.2.1, colour p.1 :: r.2.2.2))
    else none

/-- The function `cycleDfs`, instrumented as described for `cycleForT`. -/
def cycleDfsT (g : WeightedGraph W) :
    Nat → Int → (Int → Int) → Option (Bool × (Int → Int) × List (Int × (Int → Int)) × List Int)
  | 0, _, _ => none
  | fuel + 1, s, colour =>
    if InBounds s then
      (cycleForT (cycleDfsT g fuel) s (g.adj s) (Function.update colour s GREY)).map
        (fun r => (r.1, r.2.1, (s, colour) :: r.2.2.1, r.2.2.2))
    else none

/-- The calls listed in a trace fit together: each call is made on a node of the graph
that is WHITE in the `colour` array it receives, and the next call receives that array
with the node coloured GREY. -/
def CallChain (g : WeightedGraph W) : (Int → Int) → List (Int × (Int → Int)) → Prop
  | _, [] => True
  | colour, c :: rest =>
    c.2 = colour ∧ colour c.1 = WHITE ∧ 0 ≤ c.1 ∧ c.1 < g.numNodes ∧
      CallChain g (Function.update colour c.1 GREY) rest

/-- The number of nodes of the graph that are WHITE in `colour`. -/
def whiteCount (g : WeightedGraph W) (colour : Int → Int) : Nat :=
  ((Finset.Ico (0 : Int) g.numNodes).filter (fun i => colour i = WHITE)).card

/-- The walk of the specification's reading of `hasCycle`: from `n`, move to the
destination of the first stored edge; report `true` on arriving at a node already in
`seen`, `false` at a node without edges. -/
def firstEdgeWalk (g : WeightedGraph W) : Nat → Int → List Int → Option Bool
  | 0, _, _ => none
  | fuel + 1, n, seen =>
    match g.adj n with
    | [] => some false
    | p :: _ => if p.1 ∈ seen then some true else firstEdgeWalk g fuel p.1 (p.1 :: seen)

/-! ## The priority queue -/

/-- The nested `struct QueueElem`: a cost, the node, and the parent used to
reconstruct the path later. -/
structure QueueElem (W : Type) where
  cost : W
  node : Int
  parent : Int
  deriving DecidableEq

/-- The interface of `priority_queue<QueueElem, vector<QueueElem>, QueueElemCompare>`.
The container is library code; `QueueElemCompare` (`q1.cost > q2.cost`) makes `top()`
an element of least cost, and which of several least-cost elements is returned is
left to the library.  A `MinQueue` is any implementation of that interface:
`pop` stands for `top()` followed by `pop()` and is `none` exactly when `empty()`
holds; `elems` lists the elements currently held. -/
structure MinQueue (W : Type) [LinearOrder W] where
  Q : Type
  empty : Q
  push : Q → QueueElem W → Q
  pop : Q → Option (QueueElem W × Q)
  elems : Q → List (QueueElem W)
  elems_empty : elems empty = []
  elems_push : ∀ q e, (elems (push q e)).Perm (e :: elems q)
  pop_none : ∀ q, pop q = none ↔ elems q = []
  pop_some : ∀ q e q', pop q = some (e, q') →
    (elems q).Perm (e :: elems q') ∧ ∀ x ∈ elems q, e.cost ≤ x.cost

/-- Removes the first element of least cost from a list: the element and the rest. -/
def extractMin [LinearOrder W] : List (QueueElem W) → Option (QueueElem W × List (QueueElem W))
  | [] => none
  | x :: xs =>
    match extractMin xs with
    | none => some (x, [])
    | some (m, rest) => if x.cost ≤ m.cost then some (x, xs) else some (m, x :: rest)

/-- A reference implementation of the queue interface: a list in insertion order whose
`pop` takes out the first element of least cost. -/
def listQueue (W : Type) [LinearOrder W] : MinQueue W where
  Q := List (QueueElem W)
  empty := []
  push q e := q ++ [e]
  pop q := extractMin q
  elems q := q
  elems_empty := rfl
  elems_push _ _ := List.perm_append_comm
  pop_none := by
    intro l
    cases l with
    | nil => simp [extractMin]
    | cons x xs =>
      simp only [extractMin]
      cases extractMin xs with
      | none => simp
      | some mr =>
        obtain ⟨m, rest⟩ := mr
        by_cases h : x.cost ≤ m.cost <;> simp [h]
  pop_some := by
    intro l
    induction l with
    | nil => intro e r h; simp [extractMin] at h
    | cons x xs ih =>
      intro e r h
      simp only [extractMin] at h
      cases hxs : extractMin xs with
      | none =>
        rw [hxs] at h
        have hnil : xs = [] := by
          cases xs with
          | nil => rfl
          | cons y ys =>
            simp only [extractMin] at hxs
            cases hys : extractMin ys with
            | none => rw [hys] at hxs; simp at hxs
            | some mr =>
              rw [hys] at hxs
              obtain ⟨m, rest⟩ := mr
              by_cases hle : y.cost ≤ m.cost <;> simp [hle] at hxs
        simp only [Option.some.injEq, Prod.mk.injEq] at h
        obtain ⟨rfl, rfl⟩ := h
        subst hnil
        simp
      | some mr =>
        obtain ⟨m, rest⟩ := mr
        rw [hxs] at h
        obtain ⟨hperm, hmin⟩ := ih m rest hxs
        by_cases hle : x.cost ≤ m.cost
        · simp only [hle, if_true, Option.some.injEq, Prod.mk.injEq] at h
          obtain ⟨rfl, rfl⟩ := h
          refine ⟨List.Perm.refl _, ?_⟩
          intro y hy
          rcases List.mem_cons.1 hy with rfl | hy
          · exact le_refl _
          · exact le_trans hle (hmin y hy)
        · simp only [hle, if_false, Option.some.injEq, Prod.mk.injEq] at h
          obtain ⟨rfl, rfl⟩ := h
          refine ⟨(List.Perm.cons x hperm).trans (List.Perm.swap _ _ _), ?_⟩
          intro y hy
          rcases List.mem_cons.1 hy with rfl | hy
          · exact le_of_lt (not_le.1 hle)
          · exact hmin y hy

/-! ## Shortest paths -/

/-- A `float` cost as stored in `dist`: a finite number or `+infinity`. -/
inductive Cost (W : Type) where
  | fin : W → Cost W
  | inf : Cost W
  deriving DecidableEq

/-- The call `isinf(cost)`. -/
def Cost.isInf : Cost W → Bool
  | Cost.fin _ => false
  | Cost.inf => true

section Definitions

variable [LinearOrderedAddCommGroup W] (P : MinQueue W)

/-- The inner loop of `dijkstra`: `for (p : adj[curr.node]) pq.push(QueueElem(curr.cost +
p.second, p.first, curr.node))`. -/
def relaxAll (curr : QueueElem W) : List (Int × W) → P.Q → P.Q
  | [], pq => pq
  | p :: rest, pq => relaxAll curr rest (P.push pq ⟨curr.cost + p.2, p.1, curr.node⟩)

/-- The `while (!pq.empty())` loop of `dijkstra`, on the state `(pq, visited, dist)`.
Each unit of `fuel` pays for one evaluation of the loop condition. -/
def dijkstraLoop (g : WeightedGraph W) :
    Nat → P.Q → (Int → Bool) → (Int → Int × Cost W) → Option (Int → Int × Cost W)
  | 0, _, _, _ => none
  | fuel + 1, pq, visited, dist =>
    match P.pop pq with
    | none => some dist
    | some (curr, pq1) =>
      if InBounds curr.node then
        if visited curr.node then dijkstraLoop g fuel pq1 visited dist
        else
          dijkstraLoop g fuel (relaxAll P curr (g.adj curr.node) pq1)
            (Function.update visited curr.node true)
            (Function.update dist curr.node (curr.parent, Cost.fin curr.cost))
      else none

/-- The method `dijkstra(s, dist)`.  The argument `dist` is the caller's array; the first
loop overwrites the cost of each of its `MAX_SIZE` entries with infinity and leaves the
parents alone, then `QueueElem(0.0, s, -1)` is pushed and the main loop runs.  The
result is the final contents of `dist`. -/
def dijkstra (g : WeightedGraph W) (fuel : Nat) (s : Int) (dist : Int → Int × Cost W) :
    Option (Int → Int × Cost W) :=
  dijkstraLoop P g fuel (P.push P.empty ⟨0, s, -1⟩) (fun _ => false)
    (fun i => if InBounds i then ((dist i).1, Cost.inf) else dist i)

/-- The first `while (n != s)` loop of `shortestPath`, which counts the path length. -/
def countLoop (dist : Int → Int × Cost W) (s : Int) : Nat → Int → Int → Option Int
  | 0, _, _ => none
  | fuel + 1, n, pathLength =>
    if n = s then some pathLength
    else if InBounds n then countLoop dist s fuel (dist n).1 (pathLength + 1)
    else none

/-- The second `while (n != s)` loop of `shortestPath`, which stores the nodes.  The
state is `(n, index, path)`; `path` is the caller's memory, addressed relative to the
pointer `path` (so `path (-1)` is the cell just before the buffer). -/
def fillLoop (dist : Int → Int × Cost W) (s : Int) :
    Nat → Int → Int → (Int → Int) → Option (Int × Int × (Int → Int))
  | 0, _, _, _ => none
  | fuel + 1, n, index, path =>
    if n = s then some (n, index, path)
    else if InBounds n then
      fillLoop dist s fuel (dist n).1 (index - 1) (Function.update path (index - 1) (dist n).1)
    else none

/-- What `shortestPath` leaves behind: the returned cost and the caller's `path`
memory and `pathLength` variable after the call. -/
structure PathResult (W : Type) where
  cost : Cost W
  path : Int → Int
  pathLength : Int

/-- The method `shortestPath(s, t, path, pathLength)`.  The local array `dist` is
default-constructed, i.e. every pair is `(0, 0.0)`, before `dijkstra` fills it. -/
def shortestPath (g : WeightedGraph W) (fuel : Nat) (s t : Int) (path : Int → Int)
    (pathLength : Int) : Option (PathResult W) :=
  match dijkstra P g fuel s (fun _ => (0, Cost.fin 0)) with
  | none => none
  | some dist =>
    if InBounds t then
      let cost := (dist t).2
      if cost.isInf then some ⟨cost, path, pathLength⟩
      else
        match countLoop dist s fuel t 0 with
        | none => none
        | some len =>
          match fillLoop dist s fuel t len (Function.update path len t) with
          | none => none
          | some (n, index, path1) => some ⟨cost, Function.update path1 (index - 1) n, len⟩
    else none

/-! ## Spanning tree -/

/-- The inner loop of `getMst`: `for (p : adj[curr.node]) pq.push(QueueElem(p.second,
p.first, curr.node))`. -/
def pushAll (curr : QueueElem W) : List (Int × W) → P.Q → P.Q
  | [], pq => pq
  | p :: rest, pq => pushAll curr rest (P.push pq ⟨p.2, p.1, curr.node⟩)

/-- The `while (!pq.empty())` loop of `getMst`, on the state `(pq, visited, mst)`. -/
def mstLoop (g : WeightedGraph W) (s : Int) :
    Nat → P.Q → (Int → Bool) → List (Int × Int) → Option (List (Int × Int))
  | 0, _, _, _ => none
  | fuel + 1, pq, visited, mst =>
    match P.pop pq with
    | none => some mst
    | some (curr, pq1) =>
      if InBounds curr.node then
        if visited curr.node then mstLoop g s fuel pq1 visited mst
        else
          mstLoop g s fuel (pushAll P curr (g.adj curr.node) pq1)
            (Function.update visited curr.node true)
            (if curr.node ≠ s then mst ++ [(curr.parent, curr.node)] else mst)
      else none

/-- The method `getMst(s)`. -/
def getMst (g : WeightedGraph W) (fuel : Nat) (s : Int) : Option (List (Int × Int)) :=
  mstLoop P g s fuel (P.push P.empty ⟨0, s, -1⟩) (fun _ => false) []

/-! ## Loading -/

/-- One record of the input file as the extraction operators deliver it: the node
number `node1` and the `(node2, wgt)` pairs read by the inner `while` loop. -/
abbrev Record (W : Type) := Int × List (Int × W)

/-- The first pass of `loadGraph` over the records, started with the current value of
`numNodes`: the boolean is `false` when the pass hit `return false` ("invalid file
format"), the integer is the value of `numNodes` afterwards. -/
def countNodes : List (Record W) → Int → Bool × Int
  | [], numNodes => (true, numNodes)
  | r :: rest, numNodes =>
    if r.1 ≠ numNodes then (false, numNodes) else countNodes rest (numNodes + 1)

/-- The inner `while` loop of the second pass of `loadGraph` for one record. -/
def storeRecord (numNodes node1 : Int) :
    List (Int × W) → (Int → List (Int × W)) → Option (Int → List (Int × W))
  | [], adj => some adj
  | p :: rest, adj =>
    if p.1 ≥ numNodes then storeRecord numNodes node1 rest adj
    else if InBounds node1 then
      storeRecord numNodes node1 rest (Function.update adj node1 (adj node1 ++ [p]))
    else none

/-- The second pass of `loadGraph` over the records. -/
def storeAll (numNodes : Int) :
    List (Record W) → (Int → List (Int × W)) → Option (Int → List (Int × W))
  | [], adj => some adj
  | r :: rest, adj =>
    match storeRecord numNodes r.1 r.2 adj with
    | none => none
    | some adj1 => storeAll numNodes rest adj1

/-- The method `loadGraph(fileName)`.  The file is given by what the stream delivers:
`none` when it cannot be opened, otherwise the sequence of records (both passes read
the same sequence, the stream being rewound in between).  The result is the returned
boolean and the object's state after the call. -/
def loadGraph (g : WeightedGraph W) (file : Option (List (Record W))) :
    Option (Bool × WeightedGraph W) :=
  match file with
  | none => some (false, g)
  | some recs =>
    match countNodes recs g.numNodes with
    | (false, n) => some (false, ⟨n, g.adj⟩)
    | (true, n) =>
      if n > MAX_SIZE then some (false, ⟨n, g.adj⟩)
      else
        match storeAll n recs g.adj with
        | none => none
        | some adj => some (true, ⟨n, adj⟩)

/-! ## Symmetrisation -/

/-- The loop `for (pair<int,float> p : adj[node1])` of `makeUndirected`, run over the
elements of `adj[node1]`: for each `p` the inner scan of `adj[node2]` sets `found` when
some `p2.first == node1`, and `(node1, wgt)` is appended to `adj[node2]` when nothing was
found.  The vector being iterated is never the one appended to (for `node2 == node1`
the scan finds `p` itself), so the loop runs over the elements present at its start.
The warning printed on unequal weights is not part of the state. -/
def undirectRow (node1 : Int) :
    List (Int × W) → (Int → List (Int × W)) → Option (Int → List (Int × W))
  | [], adj => some adj
  | p :: rest, adj =>
    if InBounds p.1 then
      if (adj p.1).any (fun p2 => decide (p2.1 = node1)) then undirectRow node1 rest adj
      else undirectRow node1 rest (Function.update adj p.1 (adj p.1 ++ [(node1, p.2)]))
    else none

/-- The loop `for (node1 = ...; node1 < numNodes; node1++)` of `makeUndirected` with
`k` iterations left. -/
def undirectFrom : Nat → Int → (Int → List (Int × W)) → Option (Int → List (Int × W))
  | 0, _, adj => some adj
  | k + 1, node1, adj =>
    if InBounds node1 then
      match undirectRow node1 (adj node1) adj with
      | none => none
      | some adj1 => undirectFrom k (node1 + 1) adj1
    else none

/-- The method `makeUndirected()`: the outer loop runs for `node1 = 0, ..., numNodes - 1`.
The result is the object's state after the call. -/
def makeUndirected (g : WeightedGraph W) : Option (WeightedGraph W) :=
  (undirectFrom g.numNodes.toNat 0 g.adj).map (fun adj => ⟨g.numNodes, adj⟩)

/-! ## Specification vocabulary -/

/-- There is a stored edge `u → v`. -/
def Edge (g : WeightedGraph W) (u v : Int) : Prop := ∃ w, (v, w) ∈ g.adj u

/-- The node `v` is reachable from `u` along stored edges (in zero or more steps). -/
def Reach (g : WeightedGraph W) (u v : Int) : Prop := Relation.ReflTransGen g.Edge u v

/-- Some directed cycle is reachable from `s`. -/
def CycleReachable (g : WeightedGraph W) (s : Int) : Prop :=
  ∃ v, g.Reach s v ∧ Relation.TransGen g.Edge v v

/-- The graph-store invariant of the data model: the node count is within the
capacity bound and every stored destination is a node. -/
def WF (g : WeightedGraph W) : Prop :=
  0 ≤ g.numNodes ∧ g.numNodes ≤ MAX_SIZE ∧
    ∀ u, 0 ≤ u → u < g.numNodes → ∀ p ∈ g.adj u, 0 ≤ p.1 ∧ p.1 < g.numNodes

/-- All weights stored at nodes of the graph are non-negative. -/
def NonNeg (g : WeightedGraph W) : Prop :=
  ∀ u, 0 ≤ u → u < g.numNodes → ∀ p ∈ g.adj u, 0 ≤ p.2

/-- The proposition `Walk g u v l c` says that `l` is the node sequence of a directed walk
from `u` to `v` along stored edges and that `c` is the sum of the weights of the edges
taken. -/
inductive Walk (g : WeightedGraph W) : Int → Int → List Int → W → Prop
  | nil (u : Int) : Walk g u u [u] 0
  | snoc {u v x : Int} {l : List Int} {c w : W} :
      Walk g u v l c → (x, w) ∈ g.adj v → Walk g u x (l ++ [x]) (c + w)

/-- Every stored edge `u → v` of weight `w` has a stored reverse edge `v → u` of the same
weight. -/
def Undirected (g : WeightedGraph W) : Prop :=
  ∀ u, ∀ p ∈ g.adj u, (u, p.2) ∈ g.adj p.1

/-- The proposition `IsSpanningTreeFrom g s T` says that the list `T` of
`(parent, child, weight)` triples is a set of stored directed edges forming a tree rooted
at `s` that spans exactly the nodes reachable from `s`: every triple is a stored edge
with that weight, the children are pairwise distinct and are the reachable nodes other
than `s`, and every child is reached from `s` through edges of `T`. -/
def IsSpanningTreeFrom (g : WeightedGraph W) (s : Int) (T : List (Int × Int × W)) : Prop :=
  (∀ x ∈ T, (x.2.1, x.2.2) ∈ g.adj x.1) ∧
  (T.map (fun x => x.2.1)).Nodup ∧
  (∀ v, v ∈ T.map (fun x => x.2.1) ↔ g.Reach s v ∧ v ≠ s) ∧
  ∀ x ∈ T, Relation.ReflTransGen (fun u v => ∃ w, (u, v, w) ∈ T) s x.2.1

/-- The total weight of a list of weighted edges. -/
def treeWeight (T : List (Int × Int × W)) : W := (T.map (fun x => x.2.2)).sum

/-- The nodes `a` and `b` are joined by a triple of `T`, in either direction. -/
def UEdge (T : List (Int × Int × W)) (a b : Int) : Prop :=
  ∃ w, (a, b, w) ∈ T ∨ (b, a, w) ∈ T

/-- The proposition `IsUndirectedSpanningTree g s T` says that the triples of `T` are
stored edges (in one direction or the other), that they connect `s` with every node
reachable from `s`, and that there is one triple fewer than there are reachable nodes. -/
def IsUndirectedSpanningTree (g : WeightedGraph W) (s : Int) (T : List (Int × Int × W)) :
    Prop :=
  (∀ x ∈ T, (x.2.1, x.2.2) ∈ g.adj x.1 ∨ (x.1, x.2.2) ∈ g.adj x.2.1) ∧
  (∀ v, g.Reach s v → Relation.ReflTransGen (UEdge T) s v) ∧
  T.length + 1 = Set.ncard {v | g.Reach s v}

/-- The pairs of `mst` are listed in growth order from `s`: each parent is `s` or an
earlier child, and each child is new. -/
def GrowthOrder (s : Int) (mst : List (Int × Int)) : Prop :=
  ∀ a x b, mst = a ++ x :: b →
    (x.1 = s ∨ x.1 ∈ a.map Prod.snd) ∧ x.2 ≠ s ∧ x.2 ∉ a.map Prod.snd

/-! ## Instrumented loop and invariants -/

/-- The edge-pushing loop shared by `dijkstra` and `getMst`; `key curr p` is the cost
given to the element pushed for the edge `p` out of `curr.node` (`curr.cost + p.second`
in `dijkstra`, `p.second` in `getMst`). -/
def pushEdges (key : QueueElem W → Int × W → W) (curr : QueueElem W) :
    List (Int × W) → P.Q → P.Q
  | [], pq => pq
  | p :: rest, pq => pushEdges key curr rest (P.push pq ⟨key curr p, p.1, curr.node⟩)

/-- The frontier loop shared by `dijkstra` and `getMst`, instrumented: instead of `dist`
or `mst` it accumulates the queue elements at which a node was finalized, in order.
`dijkstraLoop` and `mstLoop` are recovered from it by `dijkstraLoop_eq` and
`mstLoop_eq`. -/
def searchLoop (key : QueueElem W → Int × W → W) (g : WeightedGraph W) :
    Nat → P.Q → (Int → Bool) → List (QueueElem W) → Option (List (QueueElem W))
  | 0, _, _, _ => none
  | fuel + 1, pq, visited, acc =>
    match P.pop pq with
    | none => some acc
    | some (curr, pq1) =>
      if InBounds curr.node then
        if visited curr.node then searchLoop key g fuel pq1 visited acc
        else
          searchLoop key g fuel (pushEdges P key curr (g.adj curr.node) pq1)
            (Function.update visited curr.node true) (acc ++ [curr])
      else none

/-- The cost `dijkstra` gives to a pushed element. -/
def keyD : QueueElem W → Int × W → W := fun c p => c.cost + p.2

/-- The cost `getMst` gives to a pushed element. -/
def keyP : QueueElem W → Int × W → W := fun _ p => p.2

/-- The element `QueueElem(0.0, s, -1)` pushed before the loop. -/
def startElem (s : Int) : QueueElem W := ⟨0, s, -1⟩

/-- The array `dist` obtained from `d0` by the assignments `dist[curr.node] =
make_pair(curr.parent, curr.cost)` made for the finalized elements `acc`, in order. -/
def distOf (acc : List (QueueElem W)) (d0 : Int → Int × Cost W) : Int → Int × Cost W :=
  acc.foldl (fun d e => Function.update d e.node (e.parent, Cost.fin e.cost)) d0

/-- The contents of `dist` after the initialisation loop of `dijkstra`. -/
def initDist (d : Int → Int × Cost W) : Int → Int × Cost W :=
  fun i => if InBounds i then ((d i).1, Cost.inf) else d i

/-- The vector `mst` built by the `push_back` calls made for the finalized elements
`acc`, in order. -/
def mstOf (s : Int) (acc : List (QueueElem W)) : List (Int × Int) :=
  (acc.filter (fun e => decide (e.node ≠ s))).map (fun e => (e.parent, e.node))

/-- The triple recorded for a finalized queue element. -/
def tri (e : QueueElem W) : Int × Int × W := (e.parent, e.node, e.cost)

/-- The number of in-bounds nodes not yet marked in `visited`. -/
def unvisited (vis : Int → Bool) : Nat :=
  ((Finset.Ico (0 : Int) MAX_SIZE).filter (fun i => vis i = false)).card

/-- The proposition `Chain dist s v l` says that following the parents recorded in `dist`
from `v` arrives at `s`, and that `l` is the sequence of nodes met, listed from `s` to
`v`. -/
inductive Chain (dist : Int → Int × Cost W) (s : Int) : Int → List Int → Prop
  | base : Chain dist s s [s]
  | step {v : Int} {l : List Int} :
      v ≠ s → InBounds v → Chain dist s (dist v).1 l → Chain dist s v (l ++ [v])

/-- The loop invariant shared by `dijkstra` and `getMst`, on the queue `pq`, the array
`vis` and the finalized elements `acc`. -/
structure SearchInv (key : QueueElem W → Int × W → W) (g : WeightedGraph W) (s : Int)
    (pq : P.Q) (vis : Int → Bool) (acc : List (QueueElem W)) : Prop where
  vis_iff : ∀ v, vis v = true ↔ ∃ e ∈ acc, e.node = v
  nodup : (acc.map QueueElem.node).Nodup
  acc_range : ∀ e ∈ acc, 0 ≤ e.node ∧ e.node < g.numNodes
  pq_range : ∀ e ∈ P.elems pq, 0 ≤ e.node ∧ e.node < g.numNodes
  start : (acc = [] ∧ P.elems pq = [startElem s]) ∨ ∃ rest, acc = startElem s :: rest
  pq_src : ∀ e ∈ P.elems pq, e = startElem s ∨
    ∃ u ∈ acc, ∃ w, (e.node, w) ∈ g.adj u.node ∧ e.parent = u.node ∧ e.cost = key u (e.node, w)
  acc_src : ∀ a e b, acc = a ++ e :: b → a ≠ [] →
    ∃ u ∈ a, ∃ w, (e.node, w) ∈ g.adj u.node ∧ e.parent = u.node ∧ e.cost = key u (e.node, w)
  closure : ∀ u ∈ acc, ∀ p ∈ g.adj u.node,
    vis p.1 = true ∨ (⟨key u p, p.1, u.node⟩ : QueueElem W) ∈ P.elems pq

/-- The part of the loop invariant that is specific to `dijkstra`: finalized costs are
lower bounds for the cost of every walk from the source. -/
def DijkstraInv (g : WeightedGraph W) (s : Int) (pq : P.Q) (vis : Int → Bool)
    (acc : List (QueueElem W)) : Prop :=
  SearchInv P keyD g s pq vis acc ∧
    ∀ e ∈ acc, ∀ l c, Walk g s e.node l c → e.cost ≤ c

/-- The part of the loop invariant specific to `getMst`: every finalized element was
selected at a cost that is least among the stored edges leading from the nodes finalized
before it to a node not finalized before it. -/
def PrimInv (g : WeightedGraph W) (s : Int) (pq : P.Q) (vis : Int → Bool)
    (acc : List (QueueElem W)) : Prop :=
  SearchInv P keyP g s pq vis acc ∧
    ∀ a e b, acc = a ++ e :: b → ∀ u ∈ a, ∀ p ∈ g.adj u.node,
      p.1 ∉ a.map QueueElem.node → e.cost ≤ p.2

/-- The frontier loop `searchLoop`, instrumented further: the state also carries the
number of `pq.push` calls made so far, and the result is the whole final state (queue,
`visited`, finalized elements, number of pushes). -/
def countedLoop (key : QueueElem W → Int × W → W) (g : WeightedGraph W) :
    Nat → P.Q → (Int → Bool) → List (QueueElem W) → Nat →
      Option (P.Q × (Int → Bool) × List (QueueElem W) × Nat)
  | 0, _, _, _, _ => none
  | fuel + 1, pq, visited, acc, pushes =>
    match P.pop pq with
    | none => some (pq, visited, acc, pushes)
    | some (curr, pq1) =>
      if InBounds curr.node then
        if visited curr.node then countedLoop key g fuel pq1 visited acc pushes
        else
          countedLoop key g fuel (pushEdges P key curr (g.adj curr.node) pq1)
            (Function.update visited curr.node true) (acc ++ [curr])
            (pushes + (g.adj curr.node).length)
      else none

/-- The proposition `PredWalk g dist s v l` says that following the parents recorded in
`dist` from `v` arrives at `s` through the nodes `l` (listed from `s` to `v`), that
`dist[s]` is `(-1, 0)`, and that each node after `s` records its predecessor in `l` as
parent and, as cost, the predecessor's recorded cost plus the weight of a stored edge
from the predecessor. -/
inductive PredWalk (g : WeightedGraph W) (dist : Int → Int × Cost W) (s : Int) :
    Int → List Int → Prop
  | base : dist s = (-1, Cost.fin 0) → PredWalk g dist s s [s]
  | step {v p : Int} {l : List Int} {c w : W} :
      v ≠ s → InBounds v → PredWalk g dist s p l → (dist p).2 = Cost.fin c →
      (v, w) ∈ g.adj p → dist v = (p, Cost.fin (c + w)) → 0 ≤ p ∧ p < g.numNodes →
      PredWalk g dist s v (l ++ [v])

end Definitions

/-- The state of `makeUndirected` before the iteration for `node1`: every list is the
original one followed by appended reverse edges, at most one per destination, each the
reverse of an original edge leaving an already treated node towards a node the list did
not lead to; and the original edges of the treated nodes have a reverse. -/
structure UndirectInv (g : WeightedGraph W) (node1 : Int) (adj : Int → List (Int × W)) :
    Prop where
  grown : ∀ u, ∃ app, adj u = g.adj u ++ app ∧ (app.map Prod.fst).Nodup ∧
    ∀ q ∈ app, (∀ p ∈ g.adj u, p.1 ≠ q.1) ∧ (u, q.2) ∈ g.adj q.1 ∧ 0 ≤ q.1 ∧ q.1 < node1
  back : ∀ u, 0 ≤ u → u < node1 → ∀ p ∈ g.adj u, ∃ p2 ∈ adj p.1, p2.1 = u

/-! ## Concrete inputs -/

/-- The fixture of the specification (`1→0` weight 5, `1→2` weight 3, `2→0` weight 1)
with the back edge `2→1` of weight 1 adjoined at the end of node 2's list. -/
def backEdgeGraph : WeightedGraph ℤ :=
  ⟨3, fun i => if i = 1 then [(0, 5), (2, 3)] else if i = 2 then [(0, 1), (1, 1)] else []⟩

/-- The fixture of the specification: nodes `{0,1,2}` and the edges `1→0` weight 5,
`1→2` weight 3, `2→0` weight 1. -/
def fixture : WeightedGraph ℤ :=
  ⟨3, fun i => if i = 1 then [(0, 5), (2, 3)] else if i = 2 then [(0, 1)] else []⟩

/-- A graph with the single edge `0→0` of weight 2 (second scenario of the
specification). -/
def selfLoopGraph : WeightedGraph ℤ :=
  ⟨1, fun i => if i = 0 then [(0, 2)] else []⟩

/-- The directed graph `0→1` weight 2, `0→2` weight 3, `2→1` weight 1. -/
def directedCex : WeightedGraph ℤ :=
  ⟨3, fun i => if i = 0 then [(1, 2), (2, 3)] else if i = 2 then [(1, 1)] else []⟩

/-- The undirected triangle `0–1` (2), `0–2` (3), `1–2` (1), every edge stored in both
directions. -/
def triangle : WeightedGraph ℤ :=
  ⟨3, fun i => if i = 0 then [(1, 2), (2, 3)] else if i = 1 then [(0, 2), (2, 1)]
    else if i = 2 then [(0, 3), (1, 1)] else []⟩

/-- Input file `0, -1 5;`: one record for node 0 listing the destination `-1`. -/
def negativeDestFile : List (Record ℤ) := [(0, [(-1, 5)])]

/-- An input file with three records: node 0 lists a forward edge, two parallel edges, a
self-loop and a destination that is out of range; node 2 lists an out-of-range
destination only. -/
def sampleFile : List (Record ℤ) :=
  [(0, [(1, 5), (1, 7), (0, 2), (3, 1), (2, 4)]), (1, []), (2, [(7, 1)])]

/-- The directed graph `0→1` weight 2, `0→1` weight 9, `1→0` weight 4, `2→0` weight 3,
`2→2` weight 1. -/
def oneWayGraph : WeightedGraph ℤ :=
  ⟨3, fun i => if i = 0 then [(1, 2), (1, 9)] else if i = 1 then [(0, 4)]
    else if i = 2 then [(0, 3), (2, 1)] else []⟩

/-- The graph `0→1` weight -2, `0→2` weight 1, `1→2` weight -5. -/
def negWeightGraph : WeightedGraph ℤ :=
  ⟨3, fun i => if i = 0 then [(1, -2), (2, 1)] else if i = 1 then [(2, -5)] else []⟩

/-! ## Theorems -/

theorem backEdgeGraph_wf : backEdgeGraph.WF := by
  refine ⟨by decide, by decide, ?_⟩
  intro u h0 h3 p hp
  have h3' : u < 3 := h3
  interval_cases u <;> simp [backEdgeGraph] at hp <;> rcases hp with rfl | rfl <;> decide

/-- C1 (fails on the code): on the specification's fixture with the back edge `2→1`
adjoined, the cycle `1→2→1` is reachable from node 1, yet `hasCycle(1)` returns `false`,
because `cycleDfs` returns the result of its first WHITE neighbour (node 0, a sink)
and never looks at the later edge `1→2`. -/
theorem hasCycle_misses_later_edge :
    backEdgeGraph.WF ∧ backEdgeGraph.CycleReachable 1 ∧
      ∀ fuel, backEdgeGraph.hasCycle (fuel + 2) 1 = some false := by
  refine ⟨backEdgeGraph_wf, ⟨1, Relation.ReflTransGen.refl, ?_⟩, ?_⟩
  · have h12 : backEdgeGraph.Edge 1 2 := ⟨3, by simp [backEdgeGraph]⟩
    have h21 : backEdgeGraph.Edge 2 1 := ⟨1, by simp [backEdgeGraph]⟩
    exact Relation.TransGen.tail (Relation.TransGen.single h12) h21
  · intro fuel
    simp [hasCycle, cycleDfs, cycleFor, backEdgeGraph, InBounds, MAX_SIZE, WHITE, GREY, BLACK,
      Function.update]

section

variable [LinearOrderedAddCommGroup W] (P : MinQueue W)

theorem relaxAll_eq (curr : QueueElem W) (l : List (Int × W)) (pq : P.Q) :
    relaxAll P curr l pq = pushEdges P keyD curr l pq := by
  induction l generalizing pq with
  | nil => rfl
  | cons p rest ih => simp only [relaxAll, pushEdges, ih, keyD]

theorem pushAll_eq (curr : QueueElem W) (l : List (Int × W)) (pq : P.Q) :
    pushAll P curr l pq = pushEdges P keyP curr l pq := by
  induction l generalizing pq with
  | nil => rfl
  | cons p rest ih => simp only [pushAll, pushEdges, ih, keyP]

theorem dijkstraLoop_eq (g : WeightedGraph W) (d0 : Int → Int × Cost W) (fuel : Nat) :
    ∀ (pq : P.Q) (vis : Int → Bool) (acc : List (QueueElem W)),
      dijkstraLoop P g fuel pq vis (distOf acc d0) =
        (searchLoop P keyD g fuel pq vis acc).map (fun l => distOf l d0) := by
  induction fuel with
  | zero => intro pq vis acc; rfl
  | succ n ih =>
    intro pq vis acc
    simp only [dijkstraLoop, searchLoop]
    cases hpop : P.pop pq with
    | none => rfl
    | some ep =>
      obtain ⟨e, pq1⟩ := ep
      simp only []
      by_cases hb : InBounds e.node
      · by_cases hv : vis e.node = true
        · simp only [hb, hv, if_true]
          exact ih pq1 vis acc
        · have hv' : vis e.node = false := by simpa using hv
          simp only [hb, hv', if_true, Bool.false_eq_true, if_false]
          rw [relaxAll_eq, ← ih]
          simp [distOf, List.foldl_append]
      · simp [hb]

theorem mstLoop_eq (g : WeightedGraph W) (s : Int) (fuel : Nat) :
    ∀ (pq : P.Q) (vis : Int → Bool) (acc : List (QueueElem W)),
      mstLoop P g s fuel pq vis (mstOf s acc) =
        (searchLoop P keyP g fuel pq vis acc).map (mstOf s) := by
  induction fuel with
  | zero => intro pq vis acc; rfl
  | succ n ih =>
    intro pq vis acc
    simp only [mstLoop, searchLoop]
    cases hpop : P.pop pq with
    | none => rfl
    | some ep =>
      obtain ⟨e, pq1⟩ := ep
      simp only []
      by_cases hb : InBounds e.node
      · by_cases hv : vis e.node = true
        · simp only [hb, hv, if_true]
          exact ih pq1 vis acc
        · have hv' : vis e.node = false := by simpa using hv
          simp only [hb, hv', if_true, Bool.false_eq_true, if_false]
          rw [pushAll_eq, ← ih]
          congr 1
          by_cases hs : e.node = s <;> simp [mstOf, List.filter_append, hs]
      · simp [hb]

end

theorem unvisited_update (vis : Int → Bool) (v : Int) (hb : InBounds v) (hv : vis v = false) :
    unvisited (Function.update vis v true) < unvisited vis := by
  unfold unvisited
  apply Finset.card_lt_card
  rw [Finset.ssubset_iff_of_subset]
  · refine ⟨v, ?_, ?_⟩
    · simp only [Finset.mem_filter, Finset.mem_Ico]
      exact ⟨hb, hv⟩
    · simp
  · intro i hi
    simp only [Finset.mem_filter, Finset.mem_Ico] at hi ⊢
    refine ⟨hi.1, ?_⟩
    by_cases h : i = v
    · subst h; simp at hi
    · simpa [Function.update_noteq h] using hi.2

section

variable [LinearOrderedAddCommGroup W] (P : MinQueue W)

theorem searchLoop_rule (key : QueueElem W → Int × W → W) (g : WeightedGraph W)
    (Inv : P.Q → (Int → Bool) → List (QueueElem W) → Prop)
    (h_inb : ∀ pq vis acc e pq1, Inv pq vis acc → P.pop pq = some (e, pq1) → InBounds e.node)
    (h_skip : ∀ pq vis acc e pq1, Inv pq vis acc → P.pop pq = some (e, pq1) →
      vis e.node = true → Inv pq1 vis acc)
    (h_visit : ∀ pq vis acc e pq1, Inv pq vis acc → P.pop pq = some (e, pq1) →
      vis e.node = false →
      Inv (pushEdges P key e (g.adj e.node) pq1) (Function.update vis e.node true) (acc ++ [e])) :
    ∀ pq vis acc, Inv pq vis acc →
      ∃ N pq1 vis1 acc1, Inv pq1 vis1 acc1 ∧ P.elems pq1 = [] ∧
        ∀ fuel, N ≤ fuel → searchLoop P key g fuel pq vis acc = some acc1 := by
  have main : ∀ n m, ∀ pq vis acc, unvisited vis = n → (P.elems pq).length = m →
      Inv pq vis acc →
      ∃ N pq1 vis1 acc1, Inv pq1 vis1 acc1 ∧ P.elems pq1 = [] ∧
        ∀ fuel, N ≤ fuel → searchLoop P key g fuel pq vis acc = some acc1 := by
    intro n
    induction n using Nat.strong_induction_on with
    | _ n ihn =>
      intro m
      induction m using Nat.strong_induction_on with
      | _ m ihm =>
        intro pq vis acc hn hm hinv
        cases hpop : P.pop pq with
        | none =>
          refine ⟨1, pq, vis, acc, hinv, (P.pop_none pq).1 hpop, ?_⟩
          intro fuel hf
          obtain ⟨k, rfl⟩ : ∃ k, fuel = k + 1 := ⟨fuel - 1, by omega⟩
          simp [searchLoop, hpop]
        | some ep =>
          obtain ⟨e, pq1⟩ := ep
          have hb : InBounds e.node := h_inb pq vis acc e pq1 hinv hpop
          have hperm := (P.pop_some pq e pq1 hpop).1
          by_cases hv : vis e.node = true
          · have hlt : (P.elems pq1).length < m := by
              rw [← hm, hperm.length_eq]; simp
            obtain ⟨N, pq2, vis2, acc2, hinv2, hemp, hN⟩ := ihm _ hlt pq1 vis acc hn rfl
              (h_skip pq vis acc e pq1 hinv hpop hv)
            refine ⟨N + 1, pq2, vis2, acc2, hinv2, hemp, ?_⟩
            intro fuel hf
            obtain ⟨k, rfl⟩ : ∃ k, fuel = k + 1 := ⟨fuel - 1, by omega⟩
            simp only [searchLoop, hpop, hb, hv, if_true]
            exact hN k (by omega)
          · have hv' : vis e.node = false := by simpa using hv
            have hlt := unvisited_update vis e.node hb hv'
            rw [hn] at hlt
            obtain ⟨N, pq2, vis2, acc2, hinv2, hemp, hN⟩ := ihn _ hlt _ _ _ _ rfl rfl
              (h_visit pq vis acc e pq1 hinv hpop hv')
            refine ⟨N + 1, pq2, vis2, acc2, hinv2, hemp, ?_⟩
            intro fuel hf
            obtain ⟨k, rfl⟩ : ∃ k, fuel = k + 1 := ⟨fuel - 1, by omega⟩
            simp only [searchLoop, hpop, hb, hv', if_true, Bool.false_eq_true, if_false]
            exact hN k (by omega)
  intro pq vis acc hinv
  exact main _ _ pq vis acc rfl rfl hinv

theorem elems_pushEdges (key : QueueElem W → Int × W → W) (curr : QueueElem W)
    (l : List (Int × W)) (pq : P.Q) :
    (P.elems (pushEdges P key curr l pq)).Perm
      (l.map (fun p => (⟨key curr p, p.1, curr.node⟩ : QueueElem W)) ++ P.elems pq) := by
  induction l generalizing pq with
  | nil => simp [pushEdges]
  | cons p rest ih =>
    simp only [pushEdges, List.map_cons, List.cons_append]
    refine (ih _).trans ?_
    refine (List.Perm.append_left _ (P.elems_push pq _)).trans ?_
    exact List.perm_middle

theorem mem_elems_pushEdges (key : QueueElem W → Int × W → W) (curr : QueueElem W)
    (l : List (Int × W)) (pq : P.Q) (x : QueueElem W) :
    x ∈ P.elems (pushEdges P key curr l pq) ↔
      (∃ p ∈ l, x = ⟨key curr p, p.1, curr.node⟩) ∨ x ∈ P.elems pq := by
  rw [(elems_pushEdges P key curr l pq).mem_iff, List.mem_append, List.mem_map]
  constructor
  · rintro (⟨p, hp, rfl⟩ | h)
    · exact Or.inl ⟨p, hp, rfl⟩
    · exact Or.inr h
  · rintro (⟨p, hp, rfl⟩ | h)
    · exact Or.inl ⟨p, hp, rfl⟩
    · exact Or.inr h

theorem mem_elems_pop {pq pq1 : P.Q} {e : QueueElem W} (h : P.pop pq = some (e, pq1))
    (x : QueueElem W) : x ∈ P.elems pq ↔ x = e ∨ x ∈ P.elems pq1 := by
  rw [(P.pop_some pq e pq1 h).1.mem_iff, List.mem_cons]

theorem SearchInv.init (key : QueueElem W → Int × W → W) (g : WeightedGraph W) (s : Int)
    (hs0 : 0 ≤ s) (hs1 : s < g.numNodes) :
    SearchInv P key g s (P.push P.empty (startElem s)) (fun _ => false) [] := by
  have hel : P.elems (P.push P.empty (startElem s)) = [startElem s] := by
    have h := P.elems_push P.empty (startElem s)
    rw [P.elems_empty] at h
    exact List.perm_singleton.1 h
  refine ⟨?_, ?_, ?_, ?_, ?_, ?_, ?_, ?_⟩
  · intro v; simp
  · simp
  · intro e he; simp at he
  · intro e he
    rw [hel, List.mem_singleton] at he
    subst he
    exact ⟨hs0, hs1⟩
  · exact Or.inl ⟨rfl, hel⟩
  · intro e he
    rw [hel, List.mem_singleton] at he
    exact Or.inl he
  · intro a e b h; simp at h
  · intro u hu; simp at hu

theorem SearchInv.skip {key : QueueElem W → Int × W → W} {g : WeightedGraph W} {s : Int}
    {pq pq1 : P.Q} {vis : Int → Bool} {acc : List (QueueElem W)} {e : QueueElem W}
    (hinv : SearchInv P key g s pq vis acc) (hpop : P.pop pq = some (e, pq1))
    (hv : vis e.node = true) : SearchInv P key g s pq1 vis acc := by
  have hsub : ∀ x, x ∈ P.elems pq1 → x ∈ P.elems pq := fun x hx =>
    (mem_elems_pop P hpop x).2 (Or.inr hx)
  refine ⟨hinv.vis_iff, hinv.nodup, hinv.acc_range, fun x hx => hinv.pq_range x (hsub x hx),
    ?_, fun x hx => hinv.pq_src x (hsub x hx), hinv.acc_src, ?_⟩
  · rcases hinv.start with ⟨hnil, _⟩ | h
    · obtain ⟨x, hx, _⟩ := (hinv.vis_iff e.node).1 hv
      rw [hnil] at hx
      simp at hx
    · exact Or.inr h
  · intro u hu p hp
    rcases hinv.closure u hu p hp with h | h
    · exact Or.inl h
    · rcases (mem_elems_pop P hpop _).1 h with h | h
      · left
        rw [← h] at hv
        exact hv
      · exact Or.inr h

theorem SearchInv.visit {key : QueueElem W → Int × W → W} {g : WeightedGraph W} {s : Int}
    {pq pq1 : P.Q} {vis : Int → Bool} {acc : List (QueueElem W)} {e : QueueElem W}
    (hwf : g.WF) (hinv : SearchInv P key g s pq vis acc) (hpop : P.pop pq = some (e, pq1))
    (hv : vis e.node = false) :
    SearchInv P key g s (pushEdges P key e (g.adj e.node) pq1)
      (Function.update vis e.node true) (acc ++ [e]) := by
  have he : e ∈ P.elems pq := (mem_elems_pop P hpop e).2 (Or.inl rfl)
  have hsub : ∀ x, x ∈ P.elems pq1 → x ∈ P.elems pq := fun x hx =>
    (mem_elems_pop P hpop x).2 (Or.inr hx)
  have her := hinv.pq_range e he
  have hnotin : ∀ x ∈ acc, x.node ≠ e.node := by
    intro x hx hxe
    have := (hinv.vis_iff e.node).2 ⟨x, hx, hxe⟩
    rw [hv] at this
    exact Bool.noConfusion this
  refine ⟨?_, ?_, ?_, ?_, ?_, ?_, ?_, ?_⟩
  · intro v
    by_cases hve : v = e.node
    · subst hve
      simp only [Function.update_same, true_iff]
      exact ⟨e, List.mem_append_right _ (List.mem_singleton.2 rfl), rfl⟩
    · rw [Function.update_noteq hve, hinv.vis_iff]
      constructor
      · rintro ⟨x, hx, rfl⟩
        exact ⟨x, List.mem_append_left _ hx, rfl⟩
      · rintro ⟨x, hx, rfl⟩
        rcases List.mem_append.1 hx with hx | hx
        · exact ⟨x, hx, rfl⟩
        · rw [List.mem_singleton] at hx
          subst hx
          exact absurd rfl hve
  · rw [List.map_append, List.nodup_append]
    refine ⟨hinv.nodup, by simp, ?_⟩
    intro a ha hb
    simp only [List.map_cons, List.map_nil, List.mem_singleton] at hb
    obtain ⟨x, hx, rfl⟩ := List.mem_map.1 ha
    exact hnotin x hx hb
  · intro x hx
    rcases List.mem_append.1 hx with hx | hx
    · exact hinv.acc_range x hx
    · rw [List.mem_singleton] at hx
      subst hx
      exact her
  · intro x hx
    rcases (mem_elems_pushEdges P key e _ pq1 x).1 hx with ⟨p, hp, rfl⟩ | hx
    · exact hwf.2.2 e.node her.1 her.2 p hp
    · exact hinv.pq_range x (hsub x hx)
  · right
    rcases hinv.start with ⟨hnil, hel⟩ | ⟨rest, hrest⟩
    · rw [hel, List.mem_singleton] at he
      exact ⟨[], by rw [hnil, he]; rfl⟩
    · exact ⟨rest ++ [e], by rw [hrest]; rfl⟩
  · intro x hx
    rcases (mem_elems_pushEdges P key e _ pq1 x).1 hx with ⟨p, hp, rfl⟩ | hx
    · exact Or.inr ⟨e, List.mem_append_right _ (List.mem_singleton.2 rfl), p.2, hp, rfl, rfl⟩
    · rcases hinv.pq_src x (hsub x hx) with h | ⟨u, hu, h⟩
      · exact Or.inl h
      · exact Or.inr ⟨u, List.mem_append_left _ hu, h⟩
  · intro a x b hab hane
    rcases List.eq_nil_or_concat b with hb | ⟨b1, y, hb⟩
    · subst hb
      obtain ⟨h1, h2⟩ := List.append_inj' hab rfl
      subst h1
      simp only [List.cons.injEq, and_true] at h2
      subst h2
      rcases hinv.pq_src e he with h | h
      · exfalso
        rcases hinv.start with ⟨hnil, _⟩ | ⟨rest, hrest⟩
        · exact hane hnil
        · refine hnotin (startElem s) (by rw [hrest]; exact List.mem_cons_self _ _) ?_
          rw [h]
      · exact h
    · subst hb
      have hab' : acc ++ [e] = (a ++ x :: b1) ++ [y] := by simpa using hab
      obtain ⟨h1, _⟩ := List.append_inj' hab' rfl
      exact hinv.acc_src a x b1 h1 hane
  · intro u hu p hp
    rcases List.mem_append.1 hu with hu | hu
    · rcases hinv.closure u hu p hp with h | h
      · left
        by_cases hpe : p.1 = e.node
        · rw [hpe]; simp
        · rw [Function.update_noteq hpe]; exact h
      · rcases (mem_elems_pop P hpop _).1 h with h | h
        · left
          have : p.1 = e.node := by rw [← h]
          rw [this]; simp
        · exact Or.inr ((mem_elems_pushEdges P key e _ pq1 _).2 (Or.inr h))
    · rw [List.mem_singleton] at hu
      subst hu
      exact Or.inr ((mem_elems_pushEdges P key u _ pq1 _).2 (Or.inl ⟨p, hp, rfl⟩))

theorem Walk.range {g : WeightedGraph W} (hwf : g.WF) {u v : Int} {l : List Int} {c : W}
    (h : Walk g u v l c) (hu : 0 ≤ u ∧ u < g.numNodes) : 0 ≤ v ∧ v < g.numNodes := by
  induction h with
  | nil => exact hu
  | snoc _ hx ih => exact hwf.2.2 _ ih.1 ih.2 _ hx

theorem Walk.cost_nonneg {g : WeightedGraph W} (hwf : g.WF) (hnn : g.NonNeg) {u v : Int}
    {l : List Int} {c : W} (h : Walk g u v l c) (hu : 0 ≤ u ∧ u < g.numNodes) : 0 ≤ c := by
  induction h with
  | nil => exact le_refl _
  | snoc hw hx ih =>
    have hv := hw.range hwf hu
    exact add_nonneg ih (hnn _ hv.1 hv.2 _ hx)

theorem Walk.reach {g : WeightedGraph W} {u v : Int} {l : List Int} {c : W}
    (h : Walk g u v l c) : g.Reach u v := by
  induction h with
  | nil => exact Relation.ReflTransGen.refl
  | snoc _ hx ih => exact Relation.ReflTransGen.tail ih ⟨_, hx⟩

theorem Reach.walk {g : WeightedGraph W} {u v : Int} (h : g.Reach u v) :
    ∃ l c, Walk g u v l c := by
  induction h with
  | refl => exact ⟨_, _, Walk.nil u⟩
  | tail _ hx ih =>
    obtain ⟨l, c, hw⟩ := ih
    obtain ⟨w, hw'⟩ := hx
    exact ⟨_, _, Walk.snoc hw hw'⟩

theorem SearchInv.head_node {key : QueueElem W → Int × W → W} {g : WeightedGraph W} {s : Int}
    {pq : P.Q} {vis : Int → Bool} {acc : List (QueueElem W)}
    (hinv : SearchInv P key g s pq vis acc) (a b : List (QueueElem W)) (e : QueueElem W)
    (h : acc = a ++ e :: b) (ha : a = []) : e = startElem s := by
  subst ha
  rcases hinv.start with ⟨hnil, _⟩ | ⟨rest, hrest⟩
  · rw [hnil] at h; simp at h
  · rw [hrest] at h
    simp only [List.nil_append, List.cons.injEq] at h
    exact h.1.symm

theorem SearchInv.reach_of_mem {key : QueueElem W → Int × W → W} {g : WeightedGraph W}
    {s : Int} {pq : P.Q} {vis : Int → Bool} {acc : List (QueueElem W)}
    (hinv : SearchInv P key g s pq vis acc) :
    ∀ e ∈ acc, g.Reach s e.node := by
  have main : ∀ n, ∀ a e b, a.length = n → acc = a ++ e :: b → g.Reach s e.node := by
    intro n
    induction n using Nat.strong_induction_on with
    | _ n ih =>
      intro a e b hlen hacc
      by_cases ha : a = []
      · rw [hinv.head_node P a b e hacc ha]
        exact Relation.ReflTransGen.refl
      · obtain ⟨u, hu, w, hw, _, _⟩ := hinv.acc_src a e b hacc ha
        obtain ⟨a1, a2, ha12⟩ := List.append_of_mem hu
        have hlt : a1.length < n := by
          rw [← hlen, ha12]; simp
        have hacc' : acc = a1 ++ u :: (a2 ++ e :: b) := by
          rw [hacc, ha12]; simp
        exact Relation.ReflTransGen.tail (ih _ hlt a1 u _ rfl hacc') ⟨w, hw⟩
  intro e he
  obtain ⟨a, b, hab⟩ := List.append_of_mem he
  exact main _ a e b rfl hab

theorem SearchInv.source_visited {key : QueueElem W → Int × W → W} {g : WeightedGraph W}
    {s : Int} {pq : P.Q} {vis : Int → Bool} {acc : List (QueueElem W)}
    (hinv : SearchInv P key g s pq vis acc) (hempty : P.elems pq = []) :
    ∃ rest, acc = startElem s :: rest := by
  rcases hinv.start with ⟨_, hel⟩ | h
  · rw [hempty] at hel; simp at hel
  · exact h

theorem SearchInv.mem_of_reach {key : QueueElem W → Int × W → W} {g : WeightedGraph W}
    {s : Int} {pq : P.Q} {vis : Int → Bool} {acc : List (QueueElem W)}
    (hinv : SearchInv P key g s pq vis acc) (hempty : P.elems pq = []) {v : Int}
    (h : g.Reach s v) : ∃ e ∈ acc, e.node = v := by
  induction h with
  | refl =>
    obtain ⟨rest, hrest⟩ := hinv.source_visited P hempty
    exact ⟨startElem s, by rw [hrest]; exact List.mem_cons_self _ _, rfl⟩
  | tail _ hx ih =>
    obtain ⟨u, hu, hun⟩ := ih
    obtain ⟨w, hw⟩ := hx
    rw [← hun] at hw
    rcases hinv.closure u hu _ hw with h | h
    · exact (hinv.vis_iff _).1 h
    · rw [hempty] at h; simp at h

theorem DijkstraInv.frontier {g : WeightedGraph W} {s : Int} {pq : P.Q} {vis : Int → Bool}
    {acc : List (QueueElem W)} (hwf : g.WF) (hnn : g.NonNeg) (hs : 0 ≤ s ∧ s < g.numNodes)
    (hinv : DijkstraInv P g s pq vis acc) {y : Int} {l : List Int} {c : W}
    (hw : Walk g s y l c) (hy : vis y = false) : ∃ e ∈ P.elems pq, e.cost ≤ c := by
  induction hw with
  | nil =>
    rcases hinv.1.start with ⟨_, hel⟩ | ⟨rest, hrest⟩
    · exact ⟨startElem s, by rw [hel]; exact List.mem_singleton.2 rfl, le_refl _⟩
    · have : vis s = true := (hinv.1.vis_iff s).2
        ⟨startElem s, by rw [hrest]; exact List.mem_cons_self _ _, rfl⟩
      rw [hy] at this
      exact Bool.noConfusion this
  | @snoc v x l c w hw hx ih =>
    by_cases hv : vis v = true
    · obtain ⟨u, hu, hun⟩ := (hinv.1.vis_iff v).1 hv
      rw [← hun] at hx
      rcases hinv.1.closure u hu _ hx with h | h
      · rw [hy] at h
        exact Bool.noConfusion h
      · refine ⟨_, h, ?_⟩
        have := hinv.2 u hu l c (by rw [hun]; exact hw)
        simpa [keyD] using this
    · have hv' : vis v = false := by simpa using hv
      obtain ⟨e, he, hle⟩ := ih hv'
      have hvr := hw.range hwf hs
      exact ⟨e, he, le_trans hle (le_add_of_nonneg_right (hnn _ hvr.1 hvr.2 _ hx))⟩

theorem DijkstraInv.dijkstra_rule {g : WeightedGraph W} {s : Int} (hwf : g.WF) (hnn : g.NonNeg)
    (hs : 0 ≤ s ∧ s < g.numNodes) :
    ∃ N pq1 vis1 acc1, DijkstraInv P g s pq1 vis1 acc1 ∧ P.elems pq1 = [] ∧
      ∀ fuel, N ≤ fuel →
        searchLoop P keyD g fuel (P.push P.empty (startElem s)) (fun _ => false) [] =
          some acc1 := by
  apply searchLoop_rule P keyD g (DijkstraInv P g s)
  · intro pq vis acc e pq1 hinv hpop
    have := hinv.1.pq_range e ((mem_elems_pop P hpop e).2 (Or.inl rfl))
    exact ⟨this.1, lt_of_lt_of_le this.2 hwf.2.1⟩
  · intro pq vis acc e pq1 hinv hpop hv
    exact ⟨hinv.1.skip P hpop hv, hinv.2⟩
  · intro pq vis acc e pq1 hinv hpop hv
    refine ⟨hinv.1.visit P hwf hpop hv, ?_⟩
    intro x hx l c hw
    rcases List.mem_append.1 hx with hx | hx
    · exact hinv.2 x hx l c hw
    · rw [List.mem_singleton] at hx
      subst hx
      obtain ⟨e', he', hle⟩ := hinv.frontier P hwf hnn hs hw hv
      exact le_trans ((P.pop_some pq x pq1 hpop).2 e' he') hle
  · exact ⟨SearchInv.init P keyD g s hs.1 hs.2, by intro e he; simp at he⟩

theorem SearchInv.rule (key : QueueElem W → Int × W → W) {g : WeightedGraph W} {s : Int}
    (hwf : g.WF) (hs : 0 ≤ s ∧ s < g.numNodes) :
    ∃ N pq1 vis1 acc1, SearchInv P key g s pq1 vis1 acc1 ∧ P.elems pq1 = [] ∧
      ∀ fuel, N ≤ fuel →
        searchLoop P key g fuel (P.push P.empty (startElem s)) (fun _ => false) [] =
          some acc1 := by
  apply searchLoop_rule P key g (SearchInv P key g s)
  · intro pq vis acc e pq1 hinv hpop
    have := hinv.pq_range e ((mem_elems_pop P hpop e).2 (Or.inl rfl))
    exact ⟨this.1, lt_of_lt_of_le this.2 hwf.2.1⟩
  · intro pq vis acc e pq1 hinv hpop hv
    exact hinv.skip P hpop hv
  · intro pq vis acc e pq1 hinv hpop hv
    exact hinv.visit P hwf hpop hv
  · exact SearchInv.init P key g s hs.1 hs.2

end

theorem distOf_append (l : List (QueueElem W)) (x : QueueElem W) (d0 : Int → Int × Cost W) :
    distOf (l ++ [x]) d0 = Function.update (distOf l d0) x.node (x.parent, Cost.fin x.cost) := by
  simp [distOf, List.foldl_append]

theorem distOf_of_not_mem (acc : List (QueueElem W)) (d0 : Int → Int × Cost W) (v : Int)
    (h : ∀ e ∈ acc, e.node ≠ v) : distOf acc d0 v = d0 v := by
  induction acc using List.reverseRecOn with
  | nil => rfl
  | append_singleton l x ih =>
    rw [distOf_append]
    have hx : v ≠ x.node := fun hv => h x (by simp) hv.symm
    rw [Function.update_noteq hx]
    exact ih (fun e he => h e (List.mem_append_left _ he))

theorem distOf_of_mem (acc : List (QueueElem W)) (d0 : Int → Int × Cost W)
    (hnd : (acc.map QueueElem.node).Nodup) (e : QueueElem W) (he : e ∈ acc) :
    distOf acc d0 e.node = (e.parent, Cost.fin e.cost) := by
  induction acc using List.reverseRecOn with
  | nil => simp at he
  | append_singleton l x ih =>
    rw [distOf_append]
    rw [List.map_append, List.nodup_append] at hnd
    obtain ⟨hl, _, hdisj⟩ := hnd
    rcases List.mem_append.1 he with he | he
    · have hne : e.node ≠ x.node := by
        intro hex
        exact hdisj (List.mem_map.2 ⟨e, he, rfl⟩) (by simp [hex])
      rw [Function.update_noteq hne]
      exact ih hl he
    · rw [List.mem_singleton] at he
      subst he
      simp

theorem Chain.length_pos {dist : Int → Int × Cost W} {s v : Int} {l : List Int}
    (h : Chain dist s v l) : 0 < l.length := by
  cases h <;> simp

theorem Chain.chain_last {dist : Int → Int × Cost W} {s v : Int} {l : List Int}
    (h : Chain dist s v l) : l[l.length - 1]? = some v := by
  cases h <;> simp

theorem Chain.chain_first {dist : Int → Int × Cost W} {s v : Int} {l : List Int}
    (h : Chain dist s v l) : l[0]? = some s := by
  induction h with
  | base => rfl
  | step _ _ hc ih =>
    rw [List.getElem?_append_left hc.length_pos]
    exact ih

theorem countLoop_chain {dist : Int → Int × Cost W} {s v : Int} {l : List Int}
    (h : Chain dist s v l) :
    ∀ (k : Int) (fuel : Nat), l.length ≤ fuel →
      countLoop dist s fuel v k = some (k + ((l.length - 1 : Nat) : Int)) := by
  induction h with
  | base =>
    intro k fuel hf
    obtain ⟨n, rfl⟩ : ∃ n, fuel = n + 1 := ⟨fuel - 1, by simp at hf; omega⟩
    simp [countLoop]
  | @step v l hvs hb hc ih =>
    intro k fuel hf
    have hpos := hc.length_pos
    obtain ⟨n, rfl⟩ : ∃ n, fuel = n + 1 := ⟨fuel - 1, by simp at hf; omega⟩
    simp only [countLoop, hvs, if_false, hb, if_true]
    rw [ih (k + 1) n (by simp at hf; omega)]
    simp only [List.length_append, List.length_singleton, Nat.add_sub_cancel]
    congr 1
    omega

theorem fillLoop_chain {dist : Int → Int × Cost W} {s v : Int} {l : List Int}
    (h : Chain dist s v l) :
    ∀ (index : Int) (path : Int → Int) (fuel : Nat), l.length ≤ fuel →
      ∃ path1, fillLoop dist s fuel v index path =
          some (s, index - ((l.length - 1 : Nat) : Int), path1) ∧
        (∀ (j : Nat) (x : Int), j + 1 < l.length → l[j]? = some x →
          path1 (index - ((l.length - 1 : Nat) : Int) + j) = x) ∧
        (∀ i, i < index - ((l.length - 1 : Nat) : Int) ∨ index ≤ i → path1 i = path i) := by
  induction h with
  | base =>
    intro index path fuel hf
    obtain ⟨n, rfl⟩ : ∃ n, fuel = n + 1 := ⟨fuel - 1, by simp at hf; omega⟩
    refine ⟨path, by simp [fillLoop], ?_, fun _ _ => rfl⟩
    intro j x hj
    simp at hj
  | @step v l hvs hb hc ih =>
    intro index path fuel hf
    have hpos := hc.length_pos
    obtain ⟨n, rfl⟩ : ∃ n, fuel = n + 1 := ⟨fuel - 1, by simp at hf; omega⟩
    obtain ⟨path1, hrun, hin, hout⟩ := ih (index - 1)
      (Function.update path (index - 1) (dist v).1) n (by simp at hf; omega)
    have hlen : (((l ++ [v]).length - 1 : Nat) : Int) = ((l.length - 1 : Nat) : Int) + 1 := by
      simp only [List.length_append, List.length_singleton, Nat.add_sub_cancel]
      omega
    refine ⟨path1, ?_, ?_, ?_⟩
    · simp only [fillLoop, hvs, if_false, hb, if_true]
      rw [hrun, hlen]
      congr 3
      omega
    · intro j x hj hx
      rw [hlen]
      simp only [List.length_append, List.length_singleton] at hj
      by_cases hjl : j + 1 < l.length
      · rw [List.getElem?_append_left (by omega)] at hx
        have := hin j x hjl hx
        rw [← this]
        congr 1
        omega
      · have hje : j = l.length - 1 := by omega
        rw [List.getElem?_append_left (by omega), hje, hc.chain_last] at hx
        have h1 : path1 (index - 1) = (dist v).1 := by
          rw [hout (index - 1) (Or.inr (le_refl _))]
          simp
        rw [← Option.some.inj hx, ← h1]
        congr 1
        omega
    · intro i hi
      rw [hlen] at hi
      have hne : i ≠ index - 1 := by omega
      rw [hout i (by omega), Function.update_noteq hne]

section

variable [LinearOrderedAddCommGroup W] (P : MinQueue W)

theorem SearchInv.tree {g : WeightedGraph W} {s : Int} {pq : P.Q} {vis : Int → Bool}
    {acc : List (QueueElem W)} (hwf : g.WF) (hinv : SearchInv P keyD g s pq vis acc)
    (d0 : Int → Int × Cost W) :
    ∀ a e b, acc = a ++ e :: b →
      ∃ l, Chain (distOf acc d0) s e.node l ∧ Walk g s e.node l e.cost ∧
        l.Sublist ((a ++ [e]).map QueueElem.node) := by
  have main : ∀ n, ∀ a e b, a.length = n → acc = a ++ e :: b →
      ∃ l, Chain (distOf acc d0) s e.node l ∧ Walk g s e.node l e.cost ∧
        l.Sublist ((a ++ [e]).map QueueElem.node) := by
    intro n
    induction n using Nat.strong_induction_on with
    | _ n ih =>
      intro a e b hlen hacc
      by_cases ha : a = []
      · have he := hinv.head_node P a b e hacc ha
        subst ha
        subst he
        exact ⟨[s], Chain.base, Walk.nil s, by simp [startElem]⟩
      · obtain ⟨u, hu, w, hw, hpar, hcost⟩ := hinv.acc_src a e b hacc ha
        obtain ⟨a1, a2, ha12⟩ := List.append_of_mem hu
        have hlt : a1.length < n := by
          rw [← hlen, ha12]; simp
        have hacc' : acc = a1 ++ u :: (a2 ++ e :: b) := by
          rw [hacc, ha12]; simp
        obtain ⟨l, hch, hwalk, hsub⟩ := ih _ hlt a1 u _ rfl hacc'
        have hemem : e ∈ acc := by rw [hacc]; simp
        have hde := distOf_of_mem acc d0 hinv.nodup e hemem
        have hes : e.node ≠ s := by
          obtain ⟨x, a', hxa⟩ := List.exists_cons_of_ne_nil ha
          have hx : x = startElem s :=
            hinv.head_node P [] (a' ++ e :: b) x (by rw [hacc, hxa]; simp) rfl
          have hnd := hinv.nodup
          rw [hacc, hxa, hx] at hnd
          simp only [List.cons_append, List.map_cons, List.map_append, List.nodup_cons,
            List.mem_append, List.mem_cons, List.mem_map] at hnd
          intro hes
          exact hnd.1 (Or.inr (Or.inl (by rw [hes]; rfl)))
        have her := hinv.acc_range e hemem
        refine ⟨l ++ [e.node], Chain.step hes ⟨her.1, lt_of_lt_of_le her.2 hwf.2.1⟩ ?_, ?_, ?_⟩
        · rw [hde]
          simp only []
          rw [hpar]
          exact hch
        · have := Walk.snoc hwalk hw
          rw [hcost]
          exact this
        · rw [ha12]
          simp only [List.map_append, List.map_cons, List.map_nil, List.append_assoc,
            List.cons_append, List.nil_append] at hsub ⊢
          have h1 : (l ++ [e.node]).Sublist
              ((a1.map QueueElem.node ++ [u.node]) ++ [e.node]) :=
            List.Sublist.append hsub (List.Sublist.refl _)
          have h2 : ((a1.map QueueElem.node ++ [u.node]) ++ [e.node]).Sublist
              (a1.map QueueElem.node ++ u.node :: (a2.map QueueElem.node ++ [e.node])) := by
            simp only [List.append_assoc, List.cons_append, List.nil_append]
            refine List.Sublist.append (List.Sublist.refl _) ?_
            refine List.Sublist.cons₂ _ ?_
            exact List.sublist_append_right _ _
          exact h1.trans h2
  intro a e b hacc
  exact main _ a e b rfl hacc

theorem dijkstra_eq_search (g : WeightedGraph W) (fuel : Nat) (s : Int)
    (d : Int → Int × Cost W) :
    dijkstra P g fuel s d =
      (searchLoop P keyD g fuel (P.push P.empty (startElem s)) (fun _ => false) []).map
        (fun l => distOf l (initDist d)) :=
  dijkstraLoop_eq P g (initDist d) fuel _ _ []

theorem Walk.last {g : WeightedGraph W} {u v : Int} {l : List Int} {c : W}
    (h : Walk g u v l c) : l[l.length - 1]? = some v := by
  cases h <;> simp

theorem Walk.first {g : WeightedGraph W} {u v : Int} {l : List Int} {c : W}
    (h : Walk g u v l c) : l[0]? = some u := by
  induction h with
  | nil => rfl
  | @snoc v x l c w hw _ ih =>
    have hpos : 0 < l.length := by cases hw <;> simp
    rw [List.getElem?_append_left hpos]
    exact ih

theorem Walk.weights {g : WeightedGraph W} {u v : Int} {l : List Int} {c : W}
    (h : Walk g u v l c) :
    ∃ ws : List W, ws.length + 1 = l.length ∧ ws.sum = c ∧
      ∀ (i : Nat) (w : W) (x y : Int), ws[i]? = some w → l[i]? = some x →
        l[i + 1]? = some y → (y, w) ∈ g.adj x := by
  induction h with
  | nil => exact ⟨[], rfl, rfl, by intro i w x y hw; simp at hw⟩
  | @snoc v x l c w hw hx ih =>
    obtain ⟨ws, hlen, hsum, hedge⟩ := ih
    refine ⟨ws ++ [w], by simp [hlen], by simp [hsum], ?_⟩
    intro i w' a b hw' ha hb
    by_cases hi : i < ws.length
    · rw [List.getElem?_append_left hi] at hw'
      rw [List.getElem?_append_left (by omega)] at ha hb
      exact hedge i w' a b hw' ha hb
    · have hlt : i < (ws ++ [w]).length := by
        by_contra hcon
        rw [List.getElem?_eq_none (by omega)] at hw'
        exact Option.noConfusion hw'
      simp only [List.length_append, List.length_singleton] at hlt
      have hie : i = ws.length := by omega
      subst hie
      rw [List.getElem?_append_right (le_refl _)] at hw'
      simp only [Nat.sub_self, List.getElem?_cons_zero, Option.some.injEq] at hw'
      rw [List.getElem?_append_left (by omega)] at ha
      have hlast := hw.last
      rw [show l.length - 1 = ws.length by omega] at hlast
      rw [hlast] at ha
      rw [hlen, List.getElem?_append_right (le_refl _)] at hb
      simp only [Nat.sub_self, List.getElem?_cons_zero, Option.some.injEq] at hb
      rw [← hw', ← Option.some.inj ha, ← hb]
      exact hx

theorem shortestPath_of_inf {g : WeightedGraph W} {fuel : Nat} {s t : Int}
    {dist : Int → Int × Cost W} (path : Int → Int) (pathLength : Int)
    (hd : dijkstra P g fuel s (fun _ => (0, Cost.fin 0)) = some dist) (ht : InBounds t)
    (hinf : (dist t).2 = Cost.inf) :
    shortestPath P g fuel s t path pathLength = some ⟨Cost.inf, path, pathLength⟩ := by
  simp [shortestPath, hd, ht, hinf, Cost.isInf]

theorem shortestPath_of_chain {g : WeightedGraph W} {fuel : Nat} {s t : Int}
    {dist : Int → Int × Cost W} (path : Int → Int) (pathLength : Int)
    (hd : dijkstra P g fuel s (fun _ => (0, Cost.fin 0)) = some dist) (ht : InBounds t)
    {d : W} (hfin : (dist t).2 = Cost.fin d) {l : List Int} (hc : Chain dist s t l)
    (hf : l.length ≤ fuel) :
    ∃ r, shortestPath P g fuel s t path pathLength = some r ∧ r.cost = Cost.fin d ∧
      r.pathLength + 1 = l.length ∧ (∀ (j : Nat) (x : Int), l[j]? = some x → r.path j = x) ∧
      r.path (-1) = s ∧ ∀ i, i < -1 ∨ (l.length : Int) ≤ i → r.path i = path i := by
  have hpos := hc.length_pos
  have hcount := countLoop_chain hc 0 fuel hf
  obtain ⟨path1, hfill, hin, hout⟩ := fillLoop_chain hc ((l.length - 1 : Nat) : Int)
    (Function.update path ((l.length - 1 : Nat) : Int) t) fuel hf
  rw [zero_add] at hcount
  rw [sub_self] at hfill hin hout
  refine ⟨⟨Cost.fin d, Function.update path1 (0 - 1) s, ((l.length - 1 : Nat) : Int)⟩, ?_,
    rfl, ?_, ?_, ?_, ?_⟩
  · simp only [shortestPath, hd, ht, if_true, hfin, Cost.isInf, Bool.false_eq_true, if_false,
      hcount, hfill]
  · simp only []
    omega
  · intro j x hx
    have hj : j < l.length := by
      by_contra hcon
      rw [List.getElem?_eq_none (by omega)] at hx
      exact Option.noConfusion hx
    simp only []
    rw [Function.update_noteq (by omega)]
    by_cases hj1 : j + 1 < l.length
    · have := hin j x hj1 hx
      rwa [zero_add] at this
    · have hje : j = l.length - 1 := by omega
      rw [hje, hc.chain_last] at hx
      rw [hout _ (Or.inr (by rw [hje]))]
      rw [hje, Function.update_same]
      exact Option.some.inj hx
  · simp
  · intro i hi
    simp only []
    rw [Function.update_noteq (by omega), hout i (by omega), Function.update_noteq (by omega)]

theorem shortestPath_final {g : WeightedGraph W} {s t : Int} {pq1 : P.Q} {vis1 : Int → Bool}
    {acc1 : List (QueueElem W)} (hwf : g.WF) (ht : 0 ≤ t ∧ t < g.numNodes)
    (hinv : SearchInv P keyD g s pq1 vis1 acc1) (hemp : P.elems pq1 = []) {fuel : Nat}
    (hrun : searchLoop P keyD g fuel (P.push P.empty (startElem s)) (fun _ => false) [] =
      some acc1)
    (hlen : acc1.length ≤ fuel) (path : Int → Int) (pathLength : Int) :
    ∃ dist, dijkstra P g fuel s (fun _ => (0, Cost.fin 0)) = some dist ∧
      ((¬ g.Reach s t ∧ (dist t).2 = Cost.inf ∧
          shortestPath P g fuel s t path pathLength = some ⟨Cost.inf, path, pathLength⟩) ∨
        (g.Reach s t ∧ ∃ e ∈ acc1, e.node = t ∧ (dist t).2 = Cost.fin e.cost ∧
          ∃ l r, Walk g s t l e.cost ∧ l.Nodup ∧
            shortestPath P g fuel s t path pathLength = some r ∧ r.cost = Cost.fin e.cost ∧
            r.pathLength + 1 = l.length ∧
            (∀ (j : Nat) (x : Int), l[j]? = some x → r.path j = x) ∧
            r.path (-1) = s ∧ ∀ i, i < -1 ∨ (l.length : Int) ≤ i → r.path i = path i)) := by
  have htb : InBounds t := ⟨ht.1, lt_of_lt_of_le ht.2 hwf.2.1⟩
  have hd : dijkstra P g fuel s (fun _ => (0, Cost.fin 0)) =
      some (distOf acc1 (initDist (fun _ => (0, Cost.fin 0)))) := by
    rw [dijkstra_eq_search, hrun]; rfl
  refine ⟨_, hd, ?_⟩
  by_cases hreach : g.Reach s t
  · right
    obtain ⟨e, he, het⟩ := hinv.mem_of_reach P hemp hreach
    obtain ⟨a, b, hab⟩ := List.append_of_mem he
    obtain ⟨l, hch, hwalk, hsub⟩ := hinv.tree P hwf (initDist (fun _ => (0, Cost.fin 0))) a e b hab
    have hde := distOf_of_mem acc1 (initDist (fun _ => (0, Cost.fin 0))) hinv.nodup e he
    rw [het] at hde hch hwalk
    have hsub2 : l.Sublist (acc1.map QueueElem.node) := by
      refine hsub.trans ?_
      rw [hab]
      simp only [List.map_append, List.map_cons, List.map_nil]
      exact List.Sublist.append (List.Sublist.refl _)
        (List.Sublist.cons₂ _ (List.nil_sublist _))
    have hll : l.length ≤ fuel := by
      have := hsub2.length_le
      rw [List.length_map] at this
      omega
    have hfin : ((distOf acc1 (initDist (fun _ => (0, Cost.fin 0)))) t).2 = Cost.fin e.cost := by
      rw [hde]
    obtain ⟨r, hr⟩ := shortestPath_of_chain P path pathLength hd htb hfin hch hll
    exact ⟨hreach, e, he, het, hfin, l, r, hwalk, hsub2.nodup hinv.nodup, hr⟩
  · left
    have hne : ∀ e ∈ acc1, e.node ≠ t := by
      intro e he het
      exact hreach (het ▸ hinv.reach_of_mem P e he)
    have hdt := distOf_of_not_mem acc1 (initDist (fun _ => (0, Cost.fin 0))) t hne
    have hinf : ((distOf acc1 (initDist (fun _ => (0, Cost.fin 0)))) t).2 = Cost.inf := by
      rw [hdt]; simp [initDist, htb]
    exact ⟨hreach, hinf, shortestPath_of_inf P path pathLength hd htb hinf⟩

/-- C2: with non-negative weights, the cost returned by `shortestPath(s, t)` is
`dist[t].second` as computed by `dijkstra`; when `t` is reachable from `s` it is finite and
is the least total weight of a directed walk from `s` to `t` (attained by a walk without
repeated nodes, so parallel edges and detours are all taken into account), and when `t`
is not reachable it is `+infinity`. -/
theorem shortestPath_cost_is_minimum (g : WeightedGraph W) (s t : Int) (hwf : g.WF)
    (hnn : g.NonNeg) (hs : 0 ≤ s ∧ s < g.numNodes) (ht : 0 ≤ t ∧ t < g.numNodes)
    (path : Int → Int) (pathLength : Int) :
    ∃ N, ∀ fuel, N ≤ fuel → ∃ r dist,
      shortestPath P g fuel s t path pathLength = some r ∧
      dijkstra P g fuel s (fun _ => (0, Cost.fin 0)) = some dist ∧ r.cost = (dist t).2 ∧
      (g.Reach s t → ∃ d, r.cost = Cost.fin d ∧ (∃ l, Walk g s t l d ∧ l.Nodup) ∧
        ∀ l c, Walk g s t l c → d ≤ c) ∧
      (¬ g.Reach s t → r.cost = Cost.inf) := by
  obtain ⟨N, pq1, vis1, acc1, hinv, hemp, hrun⟩ := DijkstraInv.dijkstra_rule P hwf hnn hs
  refine ⟨N + acc1.length, ?_⟩
  intro fuel hf
  obtain ⟨dist, hd, h | h⟩ := shortestPath_final P hwf ht hinv.1 hemp (hrun fuel (by omega))
    (by omega) path pathLength
  · obtain ⟨hnr, hinf, hsp⟩ := h
    exact ⟨_, dist, hsp, hd, hinf.symm, fun hr => absurd hr hnr, fun _ => rfl⟩
  · obtain ⟨hr, e, he, het, hfin, l, r, hwalk, hnd, hsp, hcost, _⟩ := h
    refine ⟨r, dist, hsp, hd, by rw [hcost, hfin], ?_, fun hnr => absurd hr hnr⟩
    intro _
    refine ⟨e.cost, hcost, ⟨l, hwalk, hnd⟩, ?_⟩
    intro l' c hw
    exact hinv.2 e he l' c (by rw [het]; exact hw)

/-- C3: when `t` is reachable from `s`, `shortestPath(s, t, path, pathLength)` returns a
finite cost `d` and leaves in `path[0..pathLength]` the node sequence of a directed walk
from `s` to `t`: `path[0] = s`, `path[pathLength] = t`, and there are stored weights
`ws[i]` of edges `path[i] → path[i+1]` whose sum is `d`. -/
theorem shortestPath_path_is_walk (g : WeightedGraph W) (s t : Int) (hwf : g.WF)
    (hs : 0 ≤ s ∧ s < g.numNodes) (ht : 0 ≤ t ∧ t < g.numNodes) (hreach : g.Reach s t)
    (path : Int → Int) (pathLength : Int) :
    ∃ N, ∀ fuel, N ≤ fuel → ∃ r d,
      shortestPath P g fuel s t path pathLength = some r ∧ r.cost = Cost.fin d ∧
      0 ≤ r.pathLength ∧ r.path 0 = s ∧ r.path r.pathLength = t ∧
      (∃ l, Walk g s t l d ∧ (l.length : Int) = r.pathLength + 1 ∧
        ∀ (j : Nat) (x : Int), l[j]? = some x → r.path j = x) ∧
      ∃ ws : List W, (ws.length : Int) = r.pathLength ∧ ws.sum = d ∧
        ∀ (i : Nat) (w : W), ws[i]? = some w →
          (r.path (i + 1), w) ∈ g.adj (r.path i) := by
  obtain ⟨N, pq1, vis1, acc1, hinv, hemp, hrun⟩ := SearchInv.rule P keyD hwf hs
  refine ⟨N + acc1.length, ?_⟩
  intro fuel hf
  obtain ⟨dist, hd, h | h⟩ := shortestPath_final P hwf ht hinv hemp (hrun fuel (by omega))
    (by omega) path pathLength
  · exact absurd hreach h.1
  · obtain ⟨_, e, he, het, hfin, l, r, hwalk, hnd, hsp, hcost, hlen, hpath, _⟩ := h
    obtain ⟨ws, hwl, hsum, hedge⟩ := hwalk.weights
    have hlast := hwalk.last
    have hfirst := hwalk.first
    refine ⟨r, e.cost, hsp, hcost, by omega, ?_, ?_, ⟨l, hwalk, by omega, hpath⟩, ws, by omega,
      hsum, ?_⟩
    · have := hpath 0 s hfirst
      simpa using this
    · have := hpath (l.length - 1) t hlast
      rw [← this]
      congr 1
      omega
    · intro i w hw
      have hi : i < ws.length := by
        by_contra hcon
        rw [List.getElem?_eq_none (by omega)] at hw
        exact Option.noConfusion hw
      have hi1 : i < l.length := by omega
      have hi2 : i + 1 < l.length := by omega
      have h1 : l[i]? = some l[i] := List.getElem?_eq_getElem hi1
      have h2 : l[i + 1]? = some l[i + 1] := List.getElem?_eq_getElem hi2
      have := hedge i w _ _ hw h1 h2
      rw [← hpath i _ h1, ← hpath (i + 1) _ h2] at this
      simpa using this

/-- C4: `shortestPath(s, s)` returns cost `0` and the single-node path `[s]`
(`pathLength = 0`, `path[0] = s`), whatever the edges of the graph. -/
theorem shortestPath_self (g : WeightedGraph W) (s : Int) (hwf : g.WF)
    (hs : 0 ≤ s ∧ s < g.numNodes) (path : Int → Int) (pathLength : Int) :
    ∃ N, ∀ fuel, N ≤ fuel → ∃ r,
      shortestPath P g fuel s s path pathLength = some r ∧ r.cost = Cost.fin 0 ∧
      r.pathLength = 0 ∧ r.path 0 = s := by
  obtain ⟨N, pq1, vis1, acc1, hinv, hemp, hrun⟩ := SearchInv.rule P keyD hwf hs
  refine ⟨N + 1, ?_⟩
  intro fuel hf
  have hsb : InBounds s := ⟨hs.1, lt_of_lt_of_le hs.2 hwf.2.1⟩
  have hd : dijkstra P g fuel s (fun _ => (0, Cost.fin 0)) =
      some (distOf acc1 (initDist (fun _ => (0, Cost.fin 0)))) := by
    rw [dijkstra_eq_search, hrun fuel (by omega)]; rfl
  obtain ⟨rest, hrest⟩ := hinv.source_visited P hemp
  have hde := distOf_of_mem acc1 (initDist (fun _ => (0, Cost.fin 0))) hinv.nodup (startElem s)
    (by rw [hrest]; exact List.mem_cons_self _ _)
  have hfin : ((distOf acc1 (initDist (fun _ => (0, Cost.fin 0)))) s).2 = Cost.fin 0 := by
    have : (startElem s : QueueElem W).node = s := rfl
    rw [this] at hde
    rw [hde]; rfl
  obtain ⟨r, hsp, hcost, hlen, hpath, _⟩ := shortestPath_of_chain P path pathLength hd hsb hfin
    (Chain.base) (by simp; omega)
  refine ⟨r, hsp, hcost, ?_, ?_⟩
  · simp at hlen; exact hlen
  · simpa using hpath 0 s rfl

/-- C5: when `t` is not reachable from `s`, `shortestPath(s, t, path, pathLength)`
returns `+infinity` as an ordinary value and produces no path: nothing is stored in
`path` and `pathLength` is not assigned. -/
theorem shortestPath_unreachable (g : WeightedGraph W) (s t : Int) (hwf : g.WF)
    (hs : 0 ≤ s ∧ s < g.numNodes) (ht : 0 ≤ t ∧ t < g.numNodes) (hnr : ¬ g.Reach s t)
    (path : Int → Int) (pathLength : Int) :
    ∃ N, ∀ fuel, N ≤ fuel →
      shortestPath P g fuel s t path pathLength = some ⟨Cost.inf, path, pathLength⟩ := by
  obtain ⟨N, pq1, vis1, acc1, hinv, hemp, hrun⟩ := SearchInv.rule P keyD hwf hs
  refine ⟨N + acc1.length, ?_⟩
  intro fuel hf
  obtain ⟨dist, hd, h | h⟩ := shortestPath_final P hwf ht hinv hemp (hrun fuel (by omega))
    (by omega) path pathLength
  · exact h.2.2
  · exact absurd h.1 hnr

theorem getMst_eq_search (g : WeightedGraph W) (fuel : Nat) (s : Int) :
    getMst P g fuel s =
      (searchLoop P keyP g fuel (P.push P.empty (startElem s)) (fun _ => false) []).map
        (mstOf s) :=
  mstLoop_eq P g s fuel _ _ []

theorem SearchInv.mstOf_eq {key : QueueElem W → Int × W → W} {g : WeightedGraph W} {s : Int}
    {pq : P.Q} {vis : Int → Bool} {rest : List (QueueElem W)}
    (hinv : SearchInv P key g s pq vis (startElem s :: rest)) :
    mstOf s (startElem s :: rest) = rest.map (fun e => (e.parent, e.node)) := by
  have hnd := hinv.nodup
  simp only [List.map_cons, List.nodup_cons, List.mem_map, not_exists, not_and] at hnd
  have hfil : rest.filter (fun e => decide (e.node ≠ s)) = rest := by
    rw [List.filter_eq_self]
    intro e he
    have : e.node ≠ s := fun h => hnd.1 e he (by rw [h]; rfl)
    simpa using this
  simp only [mstOf, startElem, List.filter_cons, ne_eq, not_true_eq_false, decide_False,
    Bool.false_eq_true, if_false]
  rw [hfil]

end

theorem GrowthOrder.connected {s : Int} {mst : List (Int × Int)} (h : GrowthOrder s mst) :
    ∀ x ∈ mst, Relation.ReflTransGen (fun u v => (u, v) ∈ mst) s x.2 := by
  have main : ∀ n, ∀ a x b, a.length = n → mst = a ++ x :: b →
      Relation.ReflTransGen (fun u v => (u, v) ∈ mst) s x.2 := by
    intro n
    induction n using Nat.strong_induction_on with
    | _ n ih =>
      intro a x b hlen hm
      have hx : (x.1, x.2) ∈ mst := by rw [hm]; simp
      rcases (h a x b hm).1 with h1 | h1
      · have : Relation.ReflTransGen (fun u v => (u, v) ∈ mst) s x.1 := by
          rw [h1]
        exact Relation.ReflTransGen.tail this hx
      · obtain ⟨y, hy, hyx⟩ := List.mem_map.1 h1
        obtain ⟨a1, a2, ha⟩ := List.append_of_mem hy
        have hlt : a1.length < n := by rw [← hlen, ha]; simp
        have := ih _ hlt a1 y (a2 ++ x :: b) rfl (by rw [hm, ha]; simp)
        rw [hyx] at this
        exact Relation.ReflTransGen.tail this hx
  intro x hx
  obtain ⟨a, b, hab⟩ := List.append_of_mem hx
  exact main _ a x b rfl hab

theorem GrowthOrder.rank_lt {s : Int} {mst : List (Int × Int)} (h : GrowthOrder s mst)
    {u v : Int} (huv : (u, v) ∈ mst) :
    List.indexOf u (s :: mst.map Prod.snd) < List.indexOf v (s :: mst.map Prod.snd) := by
  obtain ⟨a, b, hab⟩ := List.append_of_mem huv
  obtain ⟨hpar, hvs, hva⟩ := h a (u, v) b hab
  simp only [] at hpar hvs hva
  have hv : List.indexOf v (s :: mst.map Prod.snd) = a.length + 1 := by
    rw [List.indexOf_cons_ne _ (Ne.symm hvs), hab, List.map_append,
      List.indexOf_append_of_not_mem hva]
    simp
  rw [hv]
  rcases hpar with hus | hua
  · rw [hus, List.indexOf_cons_self]
    omega
  · by_cases hus : s = u
    · rw [hus, List.indexOf_cons_self]
      omega
    · rw [List.indexOf_cons_ne _ hus, hab, List.map_append, List.indexOf_append_of_mem hua]
      have := List.indexOf_lt_length.2 hua
      rw [List.length_map] at this
      omega

theorem GrowthOrder.acyclic {s : Int} {mst : List (Int × Int)} (h : GrowthOrder s mst)
    (v : Int) : ¬ Relation.TransGen (fun u v => (u, v) ∈ mst) v v := by
  have main : ∀ u w, Relation.TransGen (fun u v => (u, v) ∈ mst) u w →
      List.indexOf u (s :: mst.map Prod.snd) < List.indexOf w (s :: mst.map Prod.snd) := by
    intro u w huw
    induction huw with
    | single hx => exact h.rank_lt hx
    | tail _ hx ih => exact lt_trans ih (h.rank_lt hx)
  intro hv
  exact lt_irrefl _ (main v v hv)

section

variable [LinearOrderedAddCommGroup W] (P : MinQueue W)

theorem getMst_final {g : WeightedGraph W} {s : Int} (hwf : g.WF)
    (hs : 0 ≤ s ∧ s < g.numNodes) :
    ∃ N pq1 vis1 rest, SearchInv P keyP g s pq1 vis1 (startElem s :: rest) ∧
      P.elems pq1 = [] ∧
      ∀ fuel, N ≤ fuel → getMst P g fuel s = some (rest.map (fun e => (e.parent, e.node))) := by
  obtain ⟨N, pq1, vis1, acc1, hinv, hemp, hrun⟩ := SearchInv.rule P keyP hwf hs
  obtain ⟨rest, hrest⟩ := hinv.source_visited P hemp
  subst hrest
  refine ⟨N, pq1, vis1, rest, hinv, hemp, ?_⟩
  intro fuel hf
  rw [getMst_eq_search, hrun fuel hf, Option.map_some', hinv.mstOf_eq]

theorem SearchInv.rest_step {key : QueueElem W → Int × W → W} {g : WeightedGraph W}
    {s : Int} {pq : P.Q} {vis : Int → Bool} {rest : List (QueueElem W)}
    (hinv : SearchInv P key g s pq vis (startElem s :: rest)) :
    ∀ ra e rb, rest = ra ++ e :: rb →
      (∃ u w, (u = startElem s ∨ u ∈ ra) ∧ (e.node, w) ∈ g.adj e.parent ∧
        e.parent = u.node ∧ e.cost = key u (e.node, w)) ∧
      (e.parent = s ∨ e.parent ∈ ra.map QueueElem.node) ∧ e.node ≠ s ∧
        e.node ∉ ra.map QueueElem.node := by
  have hs' : (startElem s : QueueElem W).node = s := rfl
  intro ra e rb hr
  obtain ⟨u, hu, w, hw, hpar, hcost⟩ := hinv.acc_src (startElem s :: ra) e rb
    (by rw [hr]; rfl) (by simp)
  have hnd := hinv.nodup
  rw [hr] at hnd
  simp only [List.map_cons, List.map_append, List.nodup_cons, List.nodup_append,
    List.mem_append, List.mem_cons, hs'] at hnd
  refine ⟨⟨u, w, List.mem_cons.1 hu, hpar ▸ hw, hpar, hcost⟩, ?_, ?_, ?_⟩
  · rcases List.mem_cons.1 hu with h | h
    · left; rw [hpar, h]; rfl
    · right; rw [hpar]; exact List.mem_map.2 ⟨u, h, rfl⟩
  · intro h
    exact hnd.1 (Or.inr (Or.inl h.symm))
  · intro h
    exact hnd.2.2.2 h (List.mem_cons_self _ _)

theorem SearchInv.rest_children {key : QueueElem W → Int × W → W} {g : WeightedGraph W}
    {s : Int} {pq : P.Q} {vis : Int → Bool} {rest : List (QueueElem W)}
    (hinv : SearchInv P key g s pq vis (startElem s :: rest)) (hemp : P.elems pq = []) :
    (rest.map QueueElem.node).Nodup ∧
      (∀ v, v ∈ rest.map QueueElem.node ↔ g.Reach s v ∧ v ≠ s) ∧
      rest.length + 1 = Set.ncard {v | g.Reach s v} := by
  have hnd := hinv.nodup
  have hs' : (startElem s : QueueElem W).node = s := rfl
  have hreach : ∀ v, g.Reach s v ↔ v ∈ (startElem s :: rest).map QueueElem.node := by
    intro v
    constructor
    · intro h
      obtain ⟨e, he, hev⟩ := hinv.mem_of_reach P hemp h
      exact List.mem_map.2 ⟨e, he, hev⟩
    · intro h
      obtain ⟨e, he, hev⟩ := List.mem_map.1 h
      exact hev ▸ hinv.reach_of_mem P e he
  refine ⟨(List.nodup_cons.1 hnd).2, ?_, ?_⟩
  · intro v
    rw [hreach]
    simp only [List.map_cons, List.mem_cons]
    rw [hs']
    constructor
    · intro h
      refine ⟨Or.inr h, ?_⟩
      intro hvs
      rw [List.map_cons, List.nodup_cons, hs'] at hnd
      exact hnd.1 (hvs ▸ h)
    · rintro ⟨h | h, hne⟩
      · exact absurd h hne
      · exact h
  · have hset : {v | g.Reach s v} = ↑((startElem s :: rest).map QueueElem.node).toFinset := by
      ext v
      simp only [Set.mem_setOf_eq, Finset.mem_coe, List.mem_toFinset]
      exact hreach v
    rw [hset, Set.ncard_coe_Finset, List.toFinset_card_of_nodup hnd]
    simp

end

theorem map_split {α β : Type} (f : α → β) (l : List α) (a : List β) (x : β) (b : List β)
    (h : l.map f = a ++ x :: b) :
    ∃ ra e rb, l = ra ++ e :: rb ∧ a = ra.map f ∧ x = f e ∧ b = rb.map f := by
  obtain ⟨ra, rb1, hr, ha, hb⟩ := List.map_eq_append_iff.1 h
  obtain ⟨e, rb, hrb, hx, hb2⟩ := List.map_eq_cons_iff.1 hb
  exact ⟨ra, e, rb, by rw [hr, hrb], ha.symm, hx.symm, hb2.symm⟩

section

variable [LinearOrderedAddCommGroup W] (P : MinQueue W)

theorem SearchInv.rest_growth {key : QueueElem W → Int × W → W} {g : WeightedGraph W}
    {s : Int} {pq : P.Q} {vis : Int → Bool} {rest : List (QueueElem W)}
    (hinv : SearchInv P key g s pq vis (startElem s :: rest)) :
    GrowthOrder s (rest.map (fun e => (e.parent, e.node))) ∧
      ∀ x ∈ rest.map (fun e : QueueElem W => (e.parent, e.node)), g.Edge x.1 x.2 := by
  constructor
  · intro a x b hab
    obtain ⟨ra, e, rb, hr, ha, hx, _⟩ := map_split _ rest a x b hab
    obtain ⟨_, h2, h3, h4⟩ := hinv.rest_step P ra e rb hr
    subst ha
    subst hx
    simp only [List.map_map, Function.comp_def]
    exact ⟨h2, h3, h4⟩
  · intro x hx
    obtain ⟨e, he, hex⟩ := List.mem_map.1 hx
    obtain ⟨ra, rb, hr⟩ := List.append_of_mem he
    rw [← hex]
    obtain ⟨⟨u, w, _, hw, _, _⟩, _⟩ := hinv.rest_step P ra e rb hr
    exact ⟨w, hw⟩

/-- C6: the children of the pairs returned by `getMst(s)` are exactly the nodes reachable
from `s` other than `s` itself, each occurring once; so the number of pairs is the number
of reachable nodes (counting `s`) minus one, and no unreachable node is a child. -/
theorem getMst_children_are_reachable (g : WeightedGraph W) (s : Int) (hwf : g.WF)
    (hs : 0 ≤ s ∧ s < g.numNodes) :
    ∃ N mst, (∀ fuel, N ≤ fuel → getMst P g fuel s = some mst) ∧
      (mst.map Prod.snd).Nodup ∧
      (∀ v, v ∈ mst.map Prod.snd ↔ g.Reach s v ∧ v ≠ s) ∧
      mst.length + 1 = Set.ncard {v | g.Reach s v} := by
  obtain ⟨N, pq1, vis1, rest, hinv, hemp, hrun⟩ := getMst_final P hwf hs
  have hmap : (rest.map (fun e => (e.parent, e.node))).map Prod.snd = rest.map QueueElem.node := by
    simp [List.map_map, Function.comp_def]
  obtain ⟨h1, h2, h3⟩ := hinv.rest_children P hemp
  refine ⟨N, _, hrun, ?_, ?_, ?_⟩
  · rw [hmap]; exact h1
  · rw [hmap]; exact h2
  · rw [List.length_map]; exact h3

/-- C7: every pair `(parent, child)` returned by `getMst(s)` is a stored directed edge,
and the pairs are listed in growth order (the parent is `s` or the child of an earlier
pair, the child is new); hence every listed child is connected to `s` by listed pairs and
the listed pairs contain no cycle. -/
theorem getMst_is_tree (g : WeightedGraph W) (s : Int) (hwf : g.WF)
    (hs : 0 ≤ s ∧ s < g.numNodes) :
    ∃ N mst, (∀ fuel, N ≤ fuel → getMst P g fuel s = some mst) ∧
      (∀ x ∈ mst, g.Edge x.1 x.2) ∧
      (∀ a x b, mst = a ++ x :: b →
        (x.1 = s ∨ x.1 ∈ a.map Prod.snd) ∧ x.2 ≠ s ∧ x.2 ∉ a.map Prod.snd) ∧
      (∀ x ∈ mst, Relation.ReflTransGen (fun u v => (u, v) ∈ mst) s x.2) ∧
      ∀ v, ¬ Relation.TransGen (fun u v => (u, v) ∈ mst) v v := by
  obtain ⟨N, pq1, vis1, rest, hinv, hemp, hrun⟩ := getMst_final P hwf hs
  obtain ⟨hgrow, hedge⟩ := hinv.rest_growth P
  exact ⟨N, _, hrun, hedge, hgrow, hgrow.connected, hgrow.acyclic⟩

end

theorem countNodes_true (recs : List (Record W)) :
    ∀ (k n : Int), countNodes recs k = (true, n) →
      n = k + recs.length ∧ ∀ (i : Nat) (r : Record W), recs[i]? = some r → r.1 = k + i := by
  induction recs with
  | nil =>
    intro k n h
    simp only [countNodes, Prod.mk.injEq, true_and] at h
    exact ⟨by simp [h], by intro i r hr; simp at hr⟩
  | cons r rest ih =>
    intro k n h
    simp only [countNodes] at h
    by_cases hr : r.1 = k
    · simp only [hr, ne_eq, not_true_eq_false, if_false] at h
      obtain ⟨hn, hi⟩ := ih (k + 1) n h
      refine ⟨by rw [hn]; simp; omega, ?_⟩
      intro i x hx
      cases i with
      | zero =>
        simp only [List.getElem?_cons_zero, Option.some.injEq] at hx
        rw [← hx, hr]; simp
      | succ j =>
        simp only [List.getElem?_cons_succ] at hx
        rw [hi j x hx]
        push_cast
        omega
    · simp [hr] at h

theorem storeRecord_eq (n node1 : Int) (hb : InBounds node1) (l : List (Int × W)) :
    ∀ adj : Int → List (Int × W),
      storeRecord n node1 l adj =
        some (Function.update adj node1 (adj node1 ++ l.filter (fun p => decide (p.1 < n)))) := by
  induction l with
  | nil => intro adj; simp [storeRecord]
  | cons p rest ih =>
    intro adj
    simp only [storeRecord]
    by_cases hp : p.1 ≥ n
    · have hlt : ¬ p.1 < n := not_lt.2 hp
      simp only [hp, if_true, ih, List.filter_cons, hlt, decide_False, Bool.false_eq_true,
        if_false]
    · have hlt : p.1 < n := not_le.1 hp
      simp only [hp, if_false, hb, if_true, ih, List.filter_cons, hlt, decide_True,
        Function.update_same, Function.update_idem, List.append_assoc, List.singleton_append]

theorem storeAll_eq (n : Int) (recs : List (Record W)) :
    ∀ (k : Int) (adj : Int → List (Int × W)), 0 ≤ k → k + recs.length ≤ MAX_SIZE →
      (∀ (i : Nat) (r : Record W), recs[i]? = some r → r.1 = k + i) →
      ∃ adj1, storeAll n recs adj = some adj1 ∧
        (∀ (i : Nat) (r : Record W), recs[i]? = some r →
          adj1 (k + i) = adj (k + i) ++ r.2.filter (fun p => decide (p.1 < n))) ∧
        ∀ j, j < k ∨ k + recs.length ≤ j → adj1 j = adj j := by
  induction recs with
  | nil =>
    intro k adj _ _ _
    exact ⟨adj, rfl, by intro i r hr; simp at hr, fun _ _ => rfl⟩
  | cons r rest ih =>
    intro k adj hk hlen hnum
    have hr : r.1 = k := by simpa using hnum 0 r (by simp)
    simp only [List.length_cons, Nat.cast_add, Nat.cast_one] at hlen
    have hb : InBounds r.1 := by
      rw [hr]
      exact ⟨hk, by have := Int.ofNat_nonneg rest.length; simp at this; omega⟩
    obtain ⟨adj1, hrun, hin, hout⟩ := ih (k + 1)
      (Function.update adj r.1 (adj r.1 ++ r.2.filter (fun p => decide (p.1 < n))))
      (by omega) (by omega)
      (by
        intro i x hx
        have := hnum (i + 1) x (by simpa using hx)
        rw [this]; push_cast; omega)
    refine ⟨adj1, ?_, ?_, ?_⟩
    · simp only [storeAll, storeRecord_eq n r.1 hb]
      exact hrun
    · intro i x hx
      cases i with
      | zero =>
        simp only [List.getElem?_cons_zero, Option.some.injEq] at hx
        subst hx
        simp only [Nat.cast_zero, add_zero]
        rw [hout k (Or.inl (by omega)), hr, Function.update_same]
      | succ j =>
        simp only [List.getElem?_cons_succ] at hx
        have := hin j x hx
        have hne : k + 1 + (j : Int) ≠ r.1 := by rw [hr]; omega
        rw [Function.update_noteq hne] at this
        rw [show k + ((j + 1 : Nat) : Int) = k + 1 + (j : Int) by push_cast; omega]
        exact this
    · intro j hj
      simp only [List.length_cons, Nat.cast_add, Nat.cast_one] at hj
      have hne : j ≠ r.1 := by rw [hr]; omega
      rw [hout j (by omega), Function.update_noteq hne]

/-- C9: when `loadGraph` accepts (returns `true` for) a sequence of records read into a
fresh graph, the records are numbered `0, 1, ..., n-1` with `n = getNumNodes()` the number
of records, and the adjacency list stored for node `i` is record `i`'s list of pairs, in
order, with exactly the pairs whose destination is `>= n` removed (so forward references,
parallel edges and self-loops are kept); no list outside `[0, n)` holds anything and no
stored destination is `>= n`. -/
theorem loadGraph_stores_filtered_records (recs : List (Record W))
    (hacc : (loadGraph (fresh : WeightedGraph W) (some recs)).map Prod.fst = some true) :
    ∃ g1 : WeightedGraph W, loadGraph fresh (some recs) = some (true, g1) ∧
      g1.getNumNodes = recs.length ∧
      (∀ (i : Nat) (r : Record W), recs[i]? = some r →
        r.1 = i ∧ g1.adj i = r.2.filter (fun p => decide (p.1 < (recs.length : Int)))) ∧
      (∀ j : Int, j < 0 ∨ (recs.length : Int) ≤ j → g1.adj j = []) ∧
      ∀ (j : Int) (p : Int × W), p ∈ g1.adj j → p.1 < (recs.length : Int) := by
  simp only [loadGraph, fresh] at hacc ⊢
  cases hc : countNodes recs 0 with
  | mk ok n =>
    rw [hc] at hacc
    cases ok with
    | false => simp at hacc
    | true =>
      obtain ⟨hn, hnum⟩ := countNodes_true recs 0 n hc
      rw [zero_add] at hn
      simp only [] at hacc ⊢
      by_cases hmax : n > MAX_SIZE
      · simp [hmax] at hacc
      · simp only [hmax, if_false]
        obtain ⟨adj1, hrun, hin, hout⟩ := storeAll_eq n recs 0 (fun _ => []) (le_refl _)
          (by rw [zero_add, ← hn]; exact not_lt.1 hmax) hnum
        rw [hrun]
        have hadj : ∀ (i : Nat) (r : Record W), recs[i]? = some r →
            adj1 i = r.2.filter (fun p => decide (p.1 < (recs.length : Int))) := by
          intro i r hr
          have := hin i r hr
          simpa [hn] using this
        refine ⟨⟨n, adj1⟩, rfl, hn, ?_, ?_, ?_⟩
        · intro i r hr
          refine ⟨by simpa using hnum i r hr, hadj i r hr⟩
        · intro j hj
          show adj1 j = []
          rw [hout j (by simpa using hj)]
        · intro j p hp
          change p ∈ adj1 j at hp
          by_cases hj : j < 0 ∨ (recs.length : Int) ≤ j
          · rw [hout j (by simpa using hj)] at hp
            simp at hp
          · have hj0 : 0 ≤ j := by omega
            have hj1 : j.toNat < recs.length := by omega
            have hr : recs[j.toNat]? = some (recs[j.toNat]) := List.getElem?_eq_getElem _
            have := hadj j.toNat _ hr
            rw [Int.toNat_of_nonneg hj0] at this
            rw [this, List.mem_filter] at hp
            simpa using hp.2

/-- C10 (fails on the code): `loadGraph` accepts the one-record file `0, -1 5;` and stores
the pair `(-1, 5)` in `adj[0]`, because only `node2 >= numNodes` is tested; the loaded
graph violates `0 <= destination`. -/
theorem loadGraph_keeps_negative_destination :
    ∃ g1 : WeightedGraph ℤ, loadGraph fresh (some negativeDestFile) = some (true, g1) ∧
      g1.numNodes = 1 ∧ g1.adj 0 = [(-1, 5)] ∧ ¬ g1.WF := by
  refine ⟨_, rfl, rfl, by decide, ?_⟩
  intro h
  have := h.2.2 0 (le_refl _) (by decide) (-1, 5) (by decide)
  exact absurd this.1 (by decide)

section

variable [LinearOrderedAddCommGroup W] (P : MinQueue W)

theorem PrimInv.prim_rule {g : WeightedGraph W} {s : Int} (hwf : g.WF)
    (hs : 0 ≤ s ∧ s < g.numNodes) :
    ∃ N pq1 vis1 acc1, PrimInv P g s pq1 vis1 acc1 ∧ P.elems pq1 = [] ∧
      ∀ fuel, N ≤ fuel →
        searchLoop P keyP g fuel (P.push P.empty (startElem s)) (fun _ => false) [] =
          some acc1 := by
  apply searchLoop_rule P keyP g (PrimInv P g s)
  · intro pq vis acc e pq1 hinv hpop
    have := hinv.1.pq_range e ((mem_elems_pop P hpop e).2 (Or.inl rfl))
    exact ⟨this.1, lt_of_lt_of_le this.2 hwf.2.1⟩
  · intro pq vis acc e pq1 hinv hpop hv
    exact ⟨hinv.1.skip P hpop hv, hinv.2⟩
  · intro pq vis acc e pq1 hinv hpop hv
    refine ⟨hinv.1.visit P hwf hpop hv, ?_⟩
    intro a x b hab u hu p hp hnot
    rcases List.eq_nil_or_concat b with hb | ⟨b1, y, hb⟩
    · subst hb
      obtain ⟨h1, h2⟩ := List.append_inj' hab rfl
      subst h1
      simp only [List.cons.injEq, and_true] at h2
      subst h2
      rcases hinv.1.closure u hu p hp with h | h
      · exfalso
        obtain ⟨z, hz, hzn⟩ := (hinv.1.vis_iff p.1).1 h
        exact hnot (List.mem_map.2 ⟨z, hz, hzn⟩)
      · exact (P.pop_some pq e pq1 hpop).2 _ h
    · subst hb
      have hab' : acc ++ [e] = (a ++ x :: b1) ++ [y] := by simpa using hab
      obtain ⟨h1, _⟩ := List.append_inj' hab' rfl
      exact hinv.2 a x b1 h1 u hu p hp hnot
  · exact ⟨SearchInv.init P keyP g s hs.1 hs.2, by intro a e b h; simp at h⟩

theorem searchLoop_mono (key : QueueElem W → Int × W → W) (g : WeightedGraph W)
    (fuel : Nat) :
    ∀ (pq : P.Q) (vis : Int → Bool) (acc r : List (QueueElem W)),
      searchLoop P key g fuel pq vis acc = some r →
      ∀ k, searchLoop P key g (fuel + k) pq vis acc = some r := by
  induction fuel with
  | zero => intro pq vis acc r h; simp [searchLoop] at h
  | succ n ih =>
    intro pq vis acc r h k
    rw [show n + 1 + k = (n + k) + 1 by omega]
    simp only [searchLoop] at h ⊢
    cases hpop : P.pop pq with
    | none => rw [hpop] at h; exact h
    | some ep =>
      obtain ⟨e, pq1⟩ := ep
      rw [hpop] at h
      simp only [] at h ⊢
      by_cases hb : InBounds e.node
      · by_cases hv : vis e.node = true
        · simp only [hb, hv, if_true] at h ⊢
          exact ih _ _ _ _ h k
        · have hv' : vis e.node = false := by simpa using hv
          simp only [hb, hv', if_true, Bool.false_eq_true, if_false] at h ⊢
          exact ih _ _ _ _ h k
      · simp [hb] at h

theorem getMst_mono (g : WeightedGraph W) (s : Int) (fuel : Nat) (r : List (Int × Int))
    (h : getMst P g fuel s = some r) : ∀ fuel1, fuel ≤ fuel1 → getMst P g fuel1 s = some r := by
  intro fuel1 hf
  rw [getMst_eq_search] at h ⊢
  obtain ⟨acc, hacc, hr⟩ := Option.map_eq_some'.1 h
  obtain ⟨k, rfl⟩ : ∃ k, fuel1 = fuel + k := ⟨fuel1 - fuel, by omega⟩
  rw [searchLoop_mono P keyP g fuel _ _ _ _ hacc k]
  simp [hr]

end

theorem directedCex_wf : directedCex.WF := by
  refine ⟨by decide, by decide, ?_⟩
  intro u h0 h3 p hp
  have h3' : u < 3 := h3
  interval_cases u <;> simp [directedCex] at hp
  · rcases hp with rfl | rfl <;> decide
  · subst hp; decide

theorem directedCex_nonneg : directedCex.NonNeg := by
  intro u h0 h3 p hp
  have h3' : u < 3 := h3
  interval_cases u <;> simp [directedCex] at hp
  · rcases hp with rfl | rfl <;> decide
  · subst hp; decide

theorem directedCex_reach (v : Int) : directedCex.Reach 0 v ↔ v = 0 ∨ v = 1 ∨ v = 2 := by
  have e01 : directedCex.Edge 0 1 := ⟨2, by simp [directedCex]⟩
  have e02 : directedCex.Edge 0 2 := ⟨3, by simp [directedCex]⟩
  constructor
  · intro h
    obtain ⟨l, c, hw⟩ := Reach.walk h
    have := hw.range directedCex_wf ⟨le_refl _, by decide⟩
    have h3 : v < 3 := this.2
    have h0 := this.1
    interval_cases v <;> simp
  · rintro (rfl | rfl | rfl)
    · exact Relation.ReflTransGen.refl
    · exact Relation.ReflTransGen.single e01
    · exact Relation.ReflTransGen.single e02

theorem directedCex_tree (T : List (Int × Int × ℤ))
    (hedge : ∀ x ∈ T, (x.2.1, x.2.2) ∈ directedCex.adj x.1)
    (hch : T.map (fun x => x.2.1) = [1, 2] ∨ T.map (fun x => x.2.1) = [2, 1])
    (hconn : ∀ x ∈ T, Relation.ReflTransGen (fun u v => ∃ w, (u, v, w) ∈ T) 0 x.2.1) :
    IsSpanningTreeFrom directedCex 0 T := by
  refine ⟨hedge, ?_, ?_, hconn⟩
  · rcases hch with h | h <;> rw [h] <;> decide
  · intro v
    rw [directedCex_reach]
    rcases hch with h | h <;> rw [h] <;> simp <;> omega

theorem UEdge.symm {T : List (Int × Int × W)} {a b : Int} (h : UEdge T a b) : UEdge T b a := by
  obtain ⟨w, h | h⟩ := h
  · exact ⟨w, Or.inr h⟩
  · exact ⟨w, Or.inl h⟩

theorem UEdge.mono {T T1 : List (Int × Int × W)} (hsub : ∀ t ∈ T, t ∈ T1) {a b : Int}
    (h : UEdge T a b) : UEdge T1 a b := by
  obtain ⟨w, h | h⟩ := h
  · exact ⟨w, Or.inl (hsub _ h)⟩
  · exact ⟨w, Or.inr (hsub _ h)⟩

theorem uconn_symm {T : List (Int × Int × W)} {a b : Int}
    (h : Relation.ReflTransGen (UEdge T) a b) : Relation.ReflTransGen (UEdge T) b a := by
  induction h with
  | refl => exact Relation.ReflTransGen.refl
  | tail _ hx ih => exact Relation.ReflTransGen.head hx.symm ih

theorem rtg_lift {α : Type} {r r1 : α → α → Prop}
    (h : ∀ x y, r x y → Relation.ReflTransGen r1 x y) {a b : α}
    (hab : Relation.ReflTransGen r a b) : Relation.ReflTransGen r1 a b := by
  induction hab with
  | refl => exact Relation.ReflTransGen.refl
  | tail _ hx ih => exact ih.trans (h _ _ hx)

theorem last_crossing {α : Type} {r : α → α → Prop} (S : α → Prop) {s z : α}
    (h : Relation.ReflTransGen r s z) (hs : S s) (hz : ¬ S z) :
    ∃ a b, S a ∧ ¬ S b ∧ r a b ∧
      Relation.ReflTransGen (fun x y => r x y ∧ ¬ S x ∧ ¬ S y) b z := by
  induction h with
  | refl => exact absurd hs hz
  | @tail u z _ hx ih =>
    by_cases hu : S u
    · exact ⟨u, z, hu, hz, hx, Relation.ReflTransGen.refl⟩
    · obtain ⟨a, b, ha, hb, hab, hrest⟩ := ih hu
      exact ⟨a, b, ha, hb, hab, Relation.ReflTransGen.tail hrest ⟨hx, hu, hz⟩⟩

section

variable [LinearOrderedAddCommGroup W] (P : MinQueue W)

theorem SearchInv.initial_nodes {key : QueueElem W → Int × W → W} {g : WeightedGraph W}
    {s : Int} {pq : P.Q} {vis : Int → Bool} {rest : List (QueueElem W)}
    (hinv : SearchInv P key g s pq vis (startElem s :: rest)) (ra rb : List (QueueElem W))
    (hr : rest = ra ++ rb) :
    ∀ e ∈ ra, (e.parent = s ∨ e.parent ∈ ra.map QueueElem.node) ∧
      Relation.ReflTransGen (UEdge (ra.map tri)) s e.node := by
  have main : ∀ n, ∀ a e b, a.length = n → ra = a ++ e :: b →
      (e.parent = s ∨ e.parent ∈ a.map QueueElem.node) ∧
        Relation.ReflTransGen (UEdge (ra.map tri)) s e.node := by
    intro n
    induction n using Nat.strong_induction_on with
    | _ n ih =>
      intro a e b hlen hab
      obtain ⟨_, hpar, _, _⟩ := hinv.rest_step P a e (b ++ rb) (by rw [hr, hab]; simp)
      refine ⟨hpar, ?_⟩
      have hedge : UEdge (ra.map tri) e.parent e.node :=
        ⟨e.cost, Or.inl (List.mem_map.2 ⟨e, by rw [hab]; simp, rfl⟩)⟩
      rcases hpar with h | h
      · rw [h] at hedge
        exact Relation.ReflTransGen.single hedge
      · obtain ⟨u, hu, hun⟩ := List.mem_map.1 h
        obtain ⟨a1, a2, ha⟩ := List.append_of_mem hu
        have hlt : a1.length < n := by rw [← hlen, ha]; simp
        have := (ih _ hlt a1 u (a2 ++ e :: b) rfl (by rw [hab, ha]; simp)).2
        rw [hun] at this
        exact Relation.ReflTransGen.tail this hedge
  intro e he
  obtain ⟨a, b, hab⟩ := List.append_of_mem he
  obtain ⟨h1, h2⟩ := main _ a e b rfl hab
  refine ⟨?_, h2⟩
  rcases h1 with h | h
  · exact Or.inl h
  · right
    rw [hab, List.map_append]
    exact List.mem_append_left _ h

theorem PrimInv.exchange {g : WeightedGraph W} {s : Int} {pq : P.Q} {vis : Int → Bool}
    {rest : List (QueueElem W)} (hsym : g.Undirected)
    (hinv : PrimInv P g s pq vis (startElem s :: rest)) (ra rb : List (QueueElem W))
    (e : QueueElem W) (hr : rest = ra ++ e :: rb) (R : List (Int × Int × W))
    (hstored : ∀ x ∈ R, (x.2.1, x.2.2) ∈ g.adj x.1 ∨ (x.1, x.2.2) ∈ g.adj x.2.1)
    (hconn : Relation.ReflTransGen (UEdge (ra.map tri ++ R)) s e.node) :
    ∃ f ∈ R, e.cost ≤ f.2.2 ∧
      ∀ x y, UEdge (ra.map tri ++ R) x y →
        Relation.ReflTransGen (UEdge ((ra ++ [e]).map tri ++ R.erase f)) x y := by
  have hs' : (startElem s : QueueElem W).node = s := rfl
  obtain ⟨_, hepar, hes, hera⟩ := hinv.1.rest_step P ra e rb hr
  have hpre := hinv.1.initial_nodes P ra (e :: rb) hr
  -- the set of nodes finalized before `e`
  have hS : ¬ (e.node = s ∨ e.node ∈ ra.map QueueElem.node) := by
    intro h
    rcases h with h | h
    · exact hes h
    · exact hera h
  obtain ⟨a, b, ha, hb, hab, hwalk⟩ :=
    last_crossing (fun u => u = s ∨ u ∈ ra.map QueueElem.node) hconn (Or.inl rfl) hS
  -- the triple realising the crossing edge
  obtain ⟨w, hf⟩ := hab
  obtain ⟨f, hfT, hfa⟩ : ∃ f : Int × Int × W, f ∈ ra.map tri ++ R ∧
      (f = (a, b, w) ∨ f = (b, a, w)) := by
    rcases hf with h | h
    · exact ⟨_, h, Or.inl rfl⟩
    · exact ⟨_, h, Or.inr rfl⟩
  have hinside : ∀ t ∈ ra.map tri, (t.1 = s ∨ t.1 ∈ ra.map QueueElem.node) ∧
      (t.2.1 = s ∨ t.2.1 ∈ ra.map QueueElem.node) := by
    intro t ht
    obtain ⟨e1, he1, rfl⟩ := List.mem_map.1 ht
    exact ⟨(hpre e1 he1).1, Or.inr (List.mem_map.2 ⟨e1, he1, rfl⟩)⟩
  have hfR : f ∈ R := by
    rcases List.mem_append.1 hfT with h | h
    · exfalso
      obtain ⟨h1, h2⟩ := hinside f h
      rcases hfa with rfl | rfl
      · exact hb h2
      · exact hb h1
    · exact h
  have hfw : f.2.2 = w := by rcases hfa with rfl | rfl <;> rfl
  have hstab : (b, w) ∈ g.adj a := by
    rcases hfa with rfl | rfl
    · rcases hstored _ hfR with h | h
      · exact h
      · exact hsym b (a, w) h
    · rcases hstored _ hfR with h | h
      · exact hsym b (a, w) h
      · exact h
  have hcut : e.cost ≤ w := by
    obtain ⟨u, hu, hun⟩ : ∃ u ∈ startElem s :: ra, u.node = a := by
      rcases ha with h | h
      · exact ⟨startElem s, List.mem_cons_self _ _, by rw [h]; rfl⟩
      · obtain ⟨u, hu, hun⟩ := List.mem_map.1 h
        exact ⟨u, List.mem_cons_of_mem _ hu, hun⟩
    have := hinv.2 (startElem s :: ra) e rb (by rw [hr]; rfl) u hu (b, w) (by rw [hun]; exact hstab)
      (by
        simp only [List.map_cons, List.mem_cons, hs']
        exact hb)
    exact this
  refine ⟨f, hfR, by rw [hfw]; exact hcut, ?_⟩
  -- connectivity of the exchanged edge set
  have hsubA : ∀ t ∈ ra.map tri, t ∈ (ra ++ [e]).map tri ++ R.erase f := by
    intro t ht
    rw [List.map_append]
    exact List.mem_append_left _ (List.mem_append_left _ ht)
  have hkeep : ∀ t ∈ ra.map tri ++ R, t ≠ f → t ∈ (ra ++ [e]).map tri ++ R.erase f := by
    intro t ht hne
    rcases List.mem_append.1 ht with h | h
    · exact hsubA t h
    · exact List.mem_append_right _ ((List.mem_erase_of_ne hne).2 h)
  have hSconn : ∀ u, (u = s ∨ u ∈ ra.map QueueElem.node) →
      Relation.ReflTransGen (UEdge ((ra ++ [e]).map tri ++ R.erase f)) s u := by
    intro u hu
    rcases hu with h | h
    · rw [h]
    · obtain ⟨e1, he1, rfl⟩ := List.mem_map.1 h
      exact rtg_lift (fun x y hxy => Relation.ReflTransGen.single (hxy.mono hsubA))
        (hpre e1 he1).2
  have hnew : UEdge ((ra ++ [e]).map tri ++ R.erase f) e.parent e.node :=
    ⟨e.cost, Or.inl (List.mem_append_left _ (List.mem_map.2 ⟨e, by simp, rfl⟩))⟩
  have hbz : Relation.ReflTransGen (UEdge ((ra ++ [e]).map tri ++ R.erase f)) b e.node := by
    refine rtg_lift ?_ hwalk
    intro x y hxy
    obtain ⟨⟨w1, h1⟩, hx, hy⟩ := hxy
    apply Relation.ReflTransGen.single
    rcases h1 with h1 | h1
    · refine ⟨w1, Or.inl (hkeep _ h1 ?_)⟩
      intro hcon
      rw [← hcon] at hfa
      rcases hfa with h | h
      · exact hx (by rw [(Prod.mk.inj h).1]; exact ha)
      · exact hy (by rw [(Prod.mk.inj (Prod.mk.inj h).2).1]; exact ha)
    · refine ⟨w1, Or.inr (hkeep _ h1 ?_)⟩
      intro hcon
      rw [← hcon] at hfa
      rcases hfa with h | h
      · exact hy (by rw [(Prod.mk.inj h).1]; exact ha)
      · exact hx (by rw [(Prod.mk.inj (Prod.mk.inj h).2).1]; exact ha)
  have hab' : Relation.ReflTransGen (UEdge ((ra ++ [e]).map tri ++ R.erase f)) a b :=
    (uconn_symm (hSconn a ha)).trans
      (((hSconn e.parent hepar).tail hnew).trans (uconn_symm hbz))
  intro x y hxy
  obtain ⟨w1, h1⟩ := hxy
  by_cases hx1 : ((x, y, w1) : Int × Int × W) = f ∨ ((y, x, w1) : Int × Int × W) = f
  · have hxy' : (x = a ∧ y = b) ∨ (x = b ∧ y = a) := by
      rcases hx1 with h | h <;> rw [← h] at hfa <;> rcases hfa with h2 | h2
      · exact Or.inl ⟨(Prod.mk.inj h2).1, (Prod.mk.inj (Prod.mk.inj h2).2).1⟩
      · exact Or.inr ⟨(Prod.mk.inj h2).1, (Prod.mk.inj (Prod.mk.inj h2).2).1⟩
      · exact Or.inr ⟨(Prod.mk.inj (Prod.mk.inj h2).2).1, (Prod.mk.inj h2).1⟩
      · exact Or.inl ⟨(Prod.mk.inj (Prod.mk.inj h2).2).1, (Prod.mk.inj h2).1⟩
    rcases hxy' with ⟨rfl, rfl⟩ | ⟨rfl, rfl⟩
    · exact hab'
    · exact uconn_symm hab'
  · push_neg at hx1
    apply Relation.ReflTransGen.single
    rcases h1 with h1 | h1
    · exact ⟨w1, Or.inl (hkeep _ h1 hx1.1)⟩
    · exact ⟨w1, Or.inr (hkeep _ h1 hx1.2)⟩

theorem treeWeight_append (A B : List (Int × Int × W)) :
    treeWeight (A ++ B) = treeWeight A + treeWeight B := by
  simp [treeWeight]

theorem treeWeight_erase (R : List (Int × Int × W)) (f : Int × Int × W) (hf : f ∈ R) :
    treeWeight R = f.2.2 + treeWeight (R.erase f) := by
  induction R with
  | nil => simp at hf
  | cons x xs ih =>
    by_cases hx : x = f
    · subst hx
      simp [treeWeight]
    · have hf' : f ∈ xs := by
        rcases List.mem_cons.1 hf with h | h
        · exact absurd h.symm hx
        · exact h
      have hbeq : (x == f) = false := by simpa using hx
      rw [List.erase_cons, hbeq]
      simp only [Bool.false_eq_true, if_false]
      have := ih hf'
      simp only [treeWeight, List.map_cons, List.sum_cons] at this ⊢
      rw [this]
      abel

theorem PrimInv.initial_exchange {g : WeightedGraph W} {s : Int} {pq : P.Q} {vis : Int → Bool}
    {rest : List (QueueElem W)} (hsym : g.Undirected)
    (hinv : PrimInv P g s pq vis (startElem s :: rest)) (T : List (Int × Int × W))
    (hstored : ∀ x ∈ T, (x.2.1, x.2.2) ∈ g.adj x.1 ∨ (x.1, x.2.2) ∈ g.adj x.2.1)
    (hconn : ∀ v, g.Reach s v → Relation.ReflTransGen (UEdge T) s v) :
    ∀ ra rb, rest = ra ++ rb →
      ∃ R : List (Int × Int × W), R.length + ra.length = T.length ∧
        (∀ x ∈ R, (x.2.1, x.2.2) ∈ g.adj x.1 ∨ (x.1, x.2.2) ∈ g.adj x.2.1) ∧
        (∀ v, g.Reach s v → Relation.ReflTransGen (UEdge (ra.map tri ++ R)) s v) ∧
        treeWeight (ra.map tri ++ R) ≤ treeWeight T := by
  intro ra
  induction ra using List.reverseRecOn with
  | nil =>
    intro rb _
    exact ⟨T, by simp, hstored, by simpa using hconn, by simp⟩
  | append_singleton ra e ih =>
    intro rb hr
    have hr' : rest = ra ++ e :: rb := by rw [hr]; simp
    obtain ⟨R, hlen, hst, hcn, hwt⟩ := ih (e :: rb) hr'
    have hereach : g.Reach s e.node :=
      hinv.1.reach_of_mem P e (by rw [hr']; simp)
    obtain ⟨f, hfR, hcost, hex⟩ := hinv.exchange P hsym ra rb e hr' R hst (hcn _ hereach)
    refine ⟨R.erase f, ?_, ?_, ?_, ?_⟩
    · rw [List.length_erase_of_mem hfR, List.length_append, List.length_singleton]
      have : 0 < R.length := List.length_pos_of_mem hfR
      omega
    · intro x hx
      exact hst x (List.mem_of_mem_erase hx)
    · intro v hv
      exact rtg_lift hex (hcn v hv)
    · refine le_trans ?_ hwt
      rw [treeWeight_append, treeWeight_append, List.map_append, treeWeight_append,
        treeWeight_erase R f hfR]
      have h1 : treeWeight ([e].map tri) = e.cost := by simp [treeWeight, tri]
      rw [h1, add_assoc]
      exact add_le_add_left (add_le_add_right hcost _) _

theorem PrimInv.minimal {g : WeightedGraph W} {s : Int} {pq : P.Q} {vis : Int → Bool}
    {rest : List (QueueElem W)} (hsym : g.Undirected)
    (hinv : PrimInv P g s pq vis (startElem s :: rest)) (hemp : P.elems pq = [])
    (T : List (Int × Int × W)) (hT : IsUndirectedSpanningTree g s T) :
    treeWeight (rest.map tri) ≤ treeWeight T := by
  obtain ⟨R, hlen, _, _, hwt⟩ := hinv.initial_exchange P hsym T hT.1 hT.2.1 rest [] (by simp)
  have hcard := (hinv.1.rest_children P hemp).2.2
  have hRnil : R = [] := by
    apply List.eq_nil_of_length_eq_zero
    have := hT.2.2
    omega
  rw [hRnil, List.append_nil] at hwt
  exact hwt

end

theorem IsSpanningTreeFrom.undirected {g : WeightedGraph W} {s : Int}
    {T : List (Int × Int × W)} (h : IsSpanningTreeFrom g s T) :
    IsUndirectedSpanningTree g s T := by
  obtain ⟨hst, hnd, hch, hcn⟩ := h
  refine ⟨fun x hx => Or.inl (hst x hx), ?_, ?_⟩
  · intro v hv
    by_cases hvs : v = s
    · rw [hvs]
    · obtain ⟨x, hx, hxv⟩ := List.mem_map.1 ((hch v).2 ⟨hv, hvs⟩)
      have := hcn x hx
      rw [hxv] at this
      exact rtg_lift (fun a b hab => Relation.ReflTransGen.single
        (by obtain ⟨w, hw⟩ := hab; exact ⟨w, Or.inl hw⟩)) this
  · have hset : {v | g.Reach s v} = ↑(insert s (T.map (fun x => x.2.1)).toFinset) := by
      ext v
      simp only [Set.mem_setOf_eq, Finset.coe_insert, List.coe_toFinset, Set.mem_insert_iff]
      constructor
      · intro hv
        by_cases hvs : v = s
        · exact Or.inl hvs
        · exact Or.inr ((hch v).2 ⟨hv, hvs⟩)
      · rintro (hv | hv)
        · rw [hv]; exact Relation.ReflTransGen.refl
        · exact ((hch v).1 hv).1
    have hs : s ∉ (T.map (fun x => x.2.1)).toFinset := by
      rw [List.mem_toFinset]
      intro hmem
      exact ((hch s).1 hmem).2 rfl
    rw [hset, Set.ncard_coe_Finset, Finset.card_insert_of_not_mem hs,
      List.toFinset_card_of_nodup hnd, List.length_map]

section

variable [LinearOrderedAddCommGroup W] (P : MinQueue W)

theorem getMst_weighted_final {g : WeightedGraph W} {s : Int} (hwf : g.WF)
    (hs : 0 ≤ s ∧ s < g.numNodes) :
    ∃ N pq1 vis1 rest, PrimInv P g s pq1 vis1 (startElem s :: rest) ∧ P.elems pq1 = [] ∧
      (∀ fuel, N ≤ fuel →
        getMst P g fuel s = some ((rest.map tri).map (fun x => (x.1, x.2.1)))) ∧
      IsSpanningTreeFrom g s (rest.map tri) ∧
      (∀ x ∈ rest.map tri, ∀ w, (x.2.1, w) ∈ g.adj x.1 → x.2.2 ≤ w) ∧
      ∀ a x b, rest.map tri = a ++ x :: b →
        (x.1 = s ∨ x.1 ∈ a.map (fun y => y.2.1)) ∧
        ∀ u v w, (u = s ∨ u ∈ a.map (fun y => y.2.1)) → (v, w) ∈ g.adj u → v ≠ s →
          v ∉ a.map (fun y => y.2.1) → x.2.2 ≤ w := by
  obtain ⟨N, pq1, vis1, acc1, hinv, hemp, hrun⟩ := PrimInv.prim_rule P hwf hs
  obtain ⟨rest, hrest⟩ := hinv.1.source_visited P hemp
  subst hrest
  have hs' : (startElem s : QueueElem W).node = s := rfl
  have hpairs : (rest.map tri).map (fun x => (x.1, x.2.1)) =
      rest.map (fun e => (e.parent, e.node)) := by
    simp [List.map_map, Function.comp_def, tri]
  have hchild : (rest.map tri).map (fun x => x.2.1) = rest.map QueueElem.node := by
    simp [List.map_map, Function.comp_def, tri]
  obtain ⟨hnd, hreach, _⟩ := hinv.1.rest_children P hemp
  obtain ⟨hgrow, _⟩ := hinv.1.rest_growth P
  refine ⟨N, pq1, vis1, rest, hinv, hemp, ?_, ⟨?_, ?_, ?_, ?_⟩, ?_, ?_⟩
  · intro fuel hf
    rw [getMst_eq_search, hrun fuel hf, Option.map_some', hinv.1.mstOf_eq, hpairs]
  · intro x hx
    obtain ⟨e, he, rfl⟩ := List.mem_map.1 hx
    obtain ⟨ra, rb, hr⟩ := List.append_of_mem he
    obtain ⟨⟨u, w, _, hw, _, hc⟩, _⟩ := hinv.1.rest_step P ra e rb hr
    have : e.cost = w := hc
    simp only [tri]
    rw [this]
    exact hw
  · rw [hchild]; exact hnd
  · rw [hchild]; exact hreach
  · intro x hx
    obtain ⟨e, he, rfl⟩ := List.mem_map.1 hx
    have := hgrow.connected (e.parent, e.node) (List.mem_map.2 ⟨e, he, rfl⟩)
    refine rtg_lift ?_ this
    intro a b hab
    obtain ⟨e1, he1, h1⟩ := List.mem_map.1 hab
    obtain ⟨rfl, rfl⟩ := Prod.mk.inj h1
    exact Relation.ReflTransGen.single ⟨e1.cost, List.mem_map.2 ⟨e1, he1, rfl⟩⟩
  · intro x hx w hw
    obtain ⟨e, he, rfl⟩ := List.mem_map.1 hx
    obtain ⟨ra, rb, hr⟩ := List.append_of_mem he
    obtain ⟨⟨u, _, hu, _, hpar, _⟩, _, hes, hera⟩ := hinv.1.rest_step P ra e rb hr
    have hu' : u ∈ startElem s :: ra := List.mem_cons.2 hu
    simp only [tri] at hw ⊢
    rw [hpar] at hw
    exact hinv.2 (startElem s :: ra) e rb (by rw [hr]; rfl) u hu' (e.node, w) hw
      (by
        simp only [List.map_cons, List.mem_cons, hs']
        rintro (h | h)
        · exact hes h
        · exact hera h)
  · intro a x b hab
    obtain ⟨ra, e, rb, hr, ha, hx, _⟩ := map_split tri rest a x b hab
    obtain ⟨_, hpar, _, _⟩ := hinv.1.rest_step P ra e rb hr
    have hmap : a.map (fun y => y.2.1) = ra.map QueueElem.node := by
      rw [ha]; simp [List.map_map, Function.comp_def, tri]
    rw [hmap, hx]
    refine ⟨hpar, ?_⟩
    intro u v w hu hvw hvs hva
    obtain ⟨z, hz, hzn⟩ : ∃ z ∈ startElem s :: ra, z.node = u := by
      rcases hu with h | h
      · exact ⟨startElem s, List.mem_cons_self _ _, by rw [h]; rfl⟩
      · obtain ⟨z, hz, hzn⟩ := List.mem_map.1 h
        exact ⟨z, List.mem_cons_of_mem _ hz, hzn⟩
    exact hinv.2 (startElem s :: ra) e rb (by rw [hr]; rfl) z hz (v, w) (by rw [hzn]; exact hvw)
      (by
        simp only [List.map_cons, List.mem_cons, hs']
        rintro (h | h)
        · exact hvs h
        · exact hva h)

/-- C8 (as amended): on a graph in which every stored edge has a stored reverse edge of
the same weight, the tree returned by `getMst(s)`, each edge taken at the weight with
which it was selected (the least stored weight of that edge), is a tree of stored edges
rooted at `s` spanning exactly the reachable nodes, and its total weight is at most that
of every such tree. -/
theorem getMst_minimum_on_undirected_graph (g : WeightedGraph W) (s : Int) (hwf : g.WF)
    (hsym : g.Undirected) (hs : 0 ≤ s ∧ s < g.numNodes) :
    ∃ N Tp, (∀ fuel, N ≤ fuel → getMst P g fuel s = some (Tp.map (fun x => (x.1, x.2.1)))) ∧
      IsSpanningTreeFrom g s Tp ∧
      (∀ x ∈ Tp, ∀ w, (x.2.1, w) ∈ g.adj x.1 → x.2.2 ≤ w) ∧
      ∀ T, IsSpanningTreeFrom g s T → treeWeight Tp ≤ treeWeight T := by
  obtain ⟨N, pq1, vis1, rest, hinv, hemp, hrun, htree, hmin, _⟩ := getMst_weighted_final P hwf hs
  refine ⟨N, rest.map tri, hrun, htree, hmin, ?_⟩
  intro T hT
  exact hinv.minimal P hsym hemp T hT.undirected

end

theorem nodup_one_two (l : List Int) (hnd : l.Nodup) (h : ∀ v, v ∈ l ↔ v = 1 ∨ v = 2) :
    l = [1, 2] ∨ l = [2, 1] := by
  match l, hnd, h with
  | [], _, h => exact absurd ((h 1).2 (Or.inl rfl)) (by simp)
  | [a], _, h =>
    have h1 := (h 1).2 (Or.inl rfl)
    have h2 := (h 2).2 (Or.inr rfl)
    simp only [List.mem_singleton] at h1 h2
    omega
  | [a, b], hnd, h =>
    have ha := (h a).1 (by simp)
    have hb := (h b).1 (by simp)
    have hab : a ≠ b := by
      intro hab
      rw [hab] at hnd
      simp at hnd
    rcases ha with rfl | rfl <;> rcases hb with rfl | rfl
    · exact absurd rfl hab
    · exact Or.inl rfl
    · exact Or.inr rfl
    · exact absurd rfl hab
  | a :: b :: c :: t, hnd, h =>
    have ha := (h a).1 (by simp)
    have hb := (h b).1 (by simp)
    have hc := (h c).1 (by simp)
    simp only [List.nodup_cons, List.mem_cons, not_or] at hnd
    obtain ⟨⟨hab, hac, _⟩, ⟨hbc, _⟩, _⟩ := hnd
    omega

theorem directedCex_getMst (P : MinQueue ℤ) :
    ∃ N, ∀ fuel, N ≤ fuel → getMst P directedCex fuel 0 = some [(0, 1), (0, 2)] := by
  obtain ⟨N, pq1, vis1, rest, _, _, hrun, htree, _, hgreedy⟩ :=
    getMst_weighted_final P directedCex_wf (s := 0) ⟨le_refl _, by decide⟩
  obtain ⟨hst, hnd, hch, _⟩ := htree
  have hmem : ∀ v, v ∈ (rest.map tri).map (fun x => x.2.1) ↔ v = 1 ∨ v = 2 := by
    intro v
    rw [hch v, directedCex_reach]
    omega
  have hadj0 : directedCex.adj 0 = [(1, 2), (2, 3)] := rfl
  have hadj1 : directedCex.adj 1 = [] := rfl
  have hshape : ∃ x y, rest.map tri = [x, y] ∧
      ((x.2.1 = 1 ∧ y.2.1 = 2) ∨ (x.2.1 = 2 ∧ y.2.1 = 1)) := by
    rcases nodup_one_two _ hnd hmem with h | h
    · obtain ⟨x, t, ht, hx, ht2⟩ := List.map_eq_cons_iff.1 h
      obtain ⟨y, t2, ht3, hy, ht4⟩ := List.map_eq_cons_iff.1 ht2
      have : t2 = [] := List.map_eq_nil_iff.1 ht4
      exact ⟨x, y, by rw [ht, ht3, this], Or.inl ⟨hx, hy⟩⟩
    · obtain ⟨x, t, ht, hx, ht2⟩ := List.map_eq_cons_iff.1 h
      obtain ⟨y, t2, ht3, hy, ht4⟩ := List.map_eq_cons_iff.1 ht2
      have : t2 = [] := List.map_eq_nil_iff.1 ht4
      exact ⟨x, y, by rw [ht, ht3, this], Or.inr ⟨hx, hy⟩⟩
  obtain ⟨x, y, hxy, hcases⟩ := hshape
  have hx := hgreedy [] x [y] (by rw [hxy]; rfl)
  have hy := hgreedy [x] y [] (by rw [hxy]; rfl)
  have hxst := hst x (by rw [hxy]; simp)
  have hyst := hst y (by rw [hxy]; simp)
  have hx0 : x.1 = 0 := by
    rcases hx.1 with h | h
    · exact h
    · simp at h
  have hxle : x.2.2 ≤ 2 :=
    hx.2 0 1 2 (Or.inl rfl) (by rw [hadj0]; simp) (by decide) (by simp)
  rw [hx0, hadj0] at hxst
  simp only [List.mem_cons, Prod.mk.injEq, List.mem_singleton, List.not_mem_nil,
    or_false] at hxst
  have hfinal : rest.map tri = [(0, 1, 2), (0, 2, 3)] := by
    rcases hcases with ⟨hx1, hy2⟩ | ⟨hx2, _⟩
    · have hxw : x.2.2 = 2 := by
        rcases hxst with ⟨_, h⟩ | ⟨h, _⟩
        · exact h
        · omega
      have hy0 : y.1 = 0 := by
        rcases hy.1 with h | h
        · exact h
        · simp only [List.map_cons, List.map_nil, List.mem_singleton] at h
          rw [h, hx1, hadj1] at hyst
          simp at hyst
      rw [hy0, hadj0] at hyst
      simp only [List.mem_cons, Prod.mk.injEq, List.mem_singleton, List.not_mem_nil,
        or_false] at hyst
      have hyw : y.2.2 = 3 := by
        rcases hyst with ⟨h, _⟩ | ⟨_, h⟩
        · omega
        · exact h
      rw [hxy]
      obtain ⟨x1, x2, x3⟩ := x
      obtain ⟨y1, y2, y3⟩ := y
      simp only [] at hx0 hx1 hxw hy0 hy2 hyw
      subst hx0 hx1 hxw hy0 hy2 hyw
      rfl
    · exfalso
      rcases hxst with ⟨h, _⟩ | ⟨_, h⟩
      · omega
      · omega
  refine ⟨N, ?_⟩
  intro fuel hf
  rw [hrun fuel hf, hfinal]
  rfl

/-- C8 (fails on the code): on the directed graph `0→1` (2), `0→2` (3), `2→1` (1),
`getMst(0)` returns `[(0,1), (0,2)]` whatever the priority queue does with ties (there
are none), a tree of total weight 5, although the stored edges `0→2`, `2→1` form a tree
rooted at 0 spanning the same nodes with total weight 4. -/
theorem getMst_not_minimum_on_directed_graph :
    directedCex.WF ∧ directedCex.NonNeg ∧
      (∀ P : MinQueue ℤ, ∃ N, ∀ fuel, N ≤ fuel →
        getMst P directedCex fuel 0 = some [(0, 1), (0, 2)]) ∧
      (∀ fuel, 5 ≤ fuel → getMst (listQueue ℤ) directedCex fuel 0 = some [(0, 1), (0, 2)]) ∧
      IsSpanningTreeFrom directedCex 0 [(0, 1, 2), (0, 2, 3)] ∧
      IsSpanningTreeFrom directedCex 0 [(0, 2, 3), (2, 1, 1)] ∧
      treeWeight [((0 : Int), (2 : Int), (3 : ℤ)), (2, 1, 1)] <
        treeWeight [((0 : Int), (1 : Int), (2 : ℤ)), (0, 2, 3)] := by
  refine ⟨directedCex_wf, directedCex_nonneg, directedCex_getMst,
    getMst_mono (listQueue ℤ) directedCex 0 5 _ (by decide), ?_, ?_, by decide⟩
  · apply directedCex_tree
    · decide
    · left; rfl
    · intro x hx
      simp only [List.mem_cons, List.mem_singleton, List.not_mem_nil, or_false] at hx
      rcases hx with rfl | rfl
      · exact Relation.ReflTransGen.single ⟨2, by simp⟩
      · exact Relation.ReflTransGen.single ⟨3, by simp⟩
  · apply directedCex_tree
    · decide
    · right; rfl
    · intro x hx
      simp only [List.mem_cons, List.mem_singleton, List.not_mem_nil, or_false] at hx
      have h02 : Relation.ReflTransGen
          (fun u v => ∃ w, (u, v, w) ∈ [((0 : Int), (2 : Int), (3 : ℤ)), (2, 1, 1)]) 0 2 :=
        Relation.ReflTransGen.single ⟨3, by simp⟩
      rcases hx with rfl | rfl
      · exact h02
      · exact Relation.ReflTransGen.tail h02 ⟨1, by simp⟩

theorem fixture_wf : fixture.WF := by
  unfold WF; decide

theorem fixture_nonneg : fixture.NonNeg := by
  unfold NonNeg; decide

theorem fixture_reach_1_0 : fixture.Reach 1 0 :=
  Relation.ReflTransGen.single ⟨5, by decide⟩

theorem fixture_unreach_0_1 : ¬ fixture.Reach 0 1 := by
  intro h
  rcases Relation.ReflTransGen.cases_head h with h | ⟨c, ⟨w, hw⟩, _⟩
  · exact absurd h (by decide)
  · simp [fixture] at hw

theorem selfLoopGraph_wf : selfLoopGraph.WF := by
  unfold WF; decide

theorem triangle_wf : triangle.WF := by
  unfold WF; decide

theorem triangle_undirected : triangle.Undirected := by
  intro u p hp
  by_cases h0 : u = 0
  · subst h0
    simp [triangle] at hp
    rcases hp with rfl | rfl <;> simp [triangle]
  · by_cases h1 : u = 1
    · subst h1
      simp [triangle] at hp
      rcases hp with rfl | rfl <;> simp [triangle]
    · by_cases h2 : u = 2
      · subst h2
        simp [triangle] at hp
        rcases hp with rfl | rfl <;> simp [triangle]
      · simp [triangle, h0, h1, h2] at hp

section

variable [LinearOrderedAddCommGroup W] (P : MinQueue W)

/-- Witness for C2 on the specification's fixture (`1→0` weight 5, `1→2` weight 3, `2→0`
weight 1): the theorem applies to `shortestPath(1, 0)`, and the returned cost is 4. -/
theorem shortestPath_cost_is_minimum_witness :
    fixture.WF ∧ fixture.NonNeg ∧
      (∃ N, ∀ fuel, N ≤ fuel → ∃ r dist,
        shortestPath (listQueue ℤ) fixture fuel 1 0 (fun _ => 0) 0 = some r ∧
        dijkstra (listQueue ℤ) fixture fuel 1 (fun _ => (0, Cost.fin 0)) = some dist ∧
        r.cost = (dist 0).2 ∧
        (fixture.Reach 1 0 → ∃ d, r.cost = Cost.fin d ∧
          (∃ l, Walk fixture 1 0 l d ∧ l.Nodup) ∧ ∀ l c, Walk fixture 1 0 l c → d ≤ c) ∧
        (¬ fixture.Reach 1 0 → r.cost = Cost.inf)) ∧
      (shortestPath (listQueue ℤ) fixture 10 1 0 (fun _ => 0) 0).map PathResult.cost =
        some (Cost.fin 4) :=
  ⟨fixture_wf, fixture_nonneg,
    shortestPath_cost_is_minimum (listQueue ℤ) fixture 1 0 fixture_wf fixture_nonneg
      ⟨by decide, by decide⟩ ⟨by decide, by decide⟩ (fun _ => 0) 0,
    by decide⟩

/-- Witness for C3 on the specification's fixture: the theorem applies to
`shortestPath(1, 0)`, which leaves `pathLength = 2` and `path = [1, 2, 0]`. -/
theorem shortestPath_path_is_walk_witness :
    fixture.Reach 1 0 ∧
      (∃ N, ∀ fuel, N ≤ fuel → ∃ r d,
        shortestPath (listQueue ℤ) fixture fuel 1 0 (fun _ => 0) 0 = some r ∧
        r.cost = Cost.fin d ∧ 0 ≤ r.pathLength ∧ r.path 0 = 1 ∧ r.path r.pathLength = 0 ∧
        (∃ l, Walk fixture 1 0 l d ∧ (l.length : Int) = r.pathLength + 1 ∧
          ∀ (j : Nat) (x : Int), l[j]? = some x → r.path j = x) ∧
        ∃ ws : List ℤ, (ws.length : Int) = r.pathLength ∧ ws.sum = d ∧
          ∀ (i : Nat) (w : ℤ), ws[i]? = some w →
            (r.path (i + 1), w) ∈ fixture.adj (r.path i)) ∧
      (shortestPath (listQueue ℤ) fixture 10 1 0 (fun _ => 0) 0).map
          (fun r => (r.pathLength, [r.path 0, r.path 1, r.path 2])) =
        some (2, [1, 2, 0]) :=
  ⟨fixture_reach_1_0,
    shortestPath_path_is_walk (listQueue ℤ) fixture 1 0 fixture_wf ⟨by decide, by decide⟩
      ⟨by decide, by decide⟩ fixture_reach_1_0 (fun _ => 0) 0,
    by decide⟩

/-- Witness for C4 on the graph with the single edge `0→0` of weight 2: `shortestPath(0, 0)`
has cost 0, `pathLength = 0` and `path[0] = 0`. -/
theorem shortestPath_self_witness :
    selfLoopGraph.WF ∧
      (∃ N, ∀ fuel, N ≤ fuel → ∃ r,
        shortestPath (listQueue ℤ) selfLoopGraph fuel 0 0 (fun _ => 7) 7 = some r ∧
        r.cost = Cost.fin 0 ∧ r.pathLength = 0 ∧ r.path 0 = 0) ∧
      (shortestPath (listQueue ℤ) selfLoopGraph 10 0 0 (fun _ => 7) 7).map
          (fun r => (r.cost, [r.pathLength, r.path 0])) =
        some (Cost.fin 0, [0, 0]) :=
  ⟨selfLoopGraph_wf,
    shortestPath_self (listQueue ℤ) selfLoopGraph 0 selfLoopGraph_wf ⟨by decide, by decide⟩
      (fun _ => 7) 7,
    by decide⟩

/-- Witness for C5 on the specification's fixture: node 1 is not reachable from node 0,
and `shortestPath(0, 1)` returns infinity leaving `path` and `pathLength` as they were. -/
theorem shortestPath_unreachable_witness :
    ¬ fixture.Reach 0 1 ∧
      ∃ N, ∀ fuel, N ≤ fuel →
        shortestPath (listQueue ℤ) fixture fuel 0 1 (fun _ => 7) 7 =
          some ⟨Cost.inf, fun _ => 7, 7⟩ :=
  ⟨fixture_unreach_0_1,
    shortestPath_unreachable (listQueue ℤ) fixture 0 1 fixture_wf ⟨by decide, by decide⟩
      ⟨by decide, by decide⟩ fixture_unreach_0_1 (fun _ => 7) 7⟩

/-- Witness for C6 on the specification's fixture with source 1. -/
theorem getMst_children_are_reachable_witness :
    fixture.WF ∧
      ∃ N mst, (∀ fuel, N ≤ fuel → getMst (listQueue ℤ) fixture fuel 1 = some mst) ∧
        (mst.map Prod.snd).Nodup ∧
        (∀ v, v ∈ mst.map Prod.snd ↔ fixture.Reach 1 v ∧ v ≠ 1) ∧
        mst.length + 1 = Set.ncard {v | fixture.Reach 1 v} :=
  ⟨fixture_wf,
    getMst_children_are_reachable (listQueue ℤ) fixture 1 fixture_wf ⟨by decide, by decide⟩⟩

/-- Witness for C7 on the specification's fixture: `getMst(1)` is `[(1,2), (2,0)]`. -/
theorem getMst_is_tree_witness :
    (∃ N mst, (∀ fuel, N ≤ fuel → getMst (listQueue ℤ) fixture fuel 1 = some mst) ∧
        (∀ x ∈ mst, fixture.Edge x.1 x.2) ∧
        (∀ a x b, mst = a ++ x :: b →
          (x.1 = 1 ∨ x.1 ∈ a.map Prod.snd) ∧ x.2 ≠ 1 ∧ x.2 ∉ a.map Prod.snd) ∧
        (∀ x ∈ mst, Relation.ReflTransGen (fun u v => (u, v) ∈ mst) 1 x.2) ∧
        ∀ v, ¬ Relation.TransGen (fun u v => (u, v) ∈ mst) v v) ∧
      getMst (listQueue ℤ) fixture 10 1 = some [(1, 2), (2, 0)] :=
  ⟨getMst_is_tree (listQueue ℤ) fixture 1 fixture_wf ⟨by decide, by decide⟩, by decide⟩

/-- Witness for C8 (as amended) on the undirected triangle `0–1` (2), `0–2` (3),
`1–2` (1): `getMst(0)` is `[(0,1), (1,2)]`. -/
theorem getMst_minimum_on_undirected_graph_witness :
    triangle.WF ∧ triangle.Undirected ∧
      (∃ N Tp, (∀ fuel, N ≤ fuel →
          getMst (listQueue ℤ) triangle fuel 0 = some (Tp.map (fun x => (x.1, x.2.1)))) ∧
        IsSpanningTreeFrom triangle 0 Tp ∧
        (∀ x ∈ Tp, ∀ w, (x.2.1, w) ∈ triangle.adj x.1 → x.2.2 ≤ w) ∧
        ∀ T, IsSpanningTreeFrom triangle 0 T → treeWeight Tp ≤ treeWeight T) ∧
      getMst (listQueue ℤ) triangle 10 0 = some [(0, 1), (1, 2)] :=
  ⟨triangle_wf, triangle_undirected,
    getMst_minimum_on_undirected_graph (listQueue ℤ) triangle 0 triangle_wf
      triangle_undirected ⟨by decide, by decide⟩,
    by decide⟩

/-- Witness for C9 on a three-record file: `loadGraph` accepts it, keeps the forward
edges, the parallel edges and the self-loop of node 0 and drops the destinations 3
and 7. -/
theorem loadGraph_stores_filtered_records_witness :
    (loadGraph (fresh : WeightedGraph ℤ) (some sampleFile)).map Prod.fst = some true ∧
      (∃ g1 : WeightedGraph ℤ, loadGraph fresh (some sampleFile) = some (true, g1) ∧
        g1.getNumNodes = sampleFile.length ∧
        (∀ (i : Nat) (r : Record ℤ), sampleFile[i]? = some r →
          r.1 = i ∧
            g1.adj i = r.2.filter (fun p => decide (p.1 < (sampleFile.length : Int)))) ∧
        (∀ j : Int, j < 0 ∨ (sampleFile.length : Int) ≤ j → g1.adj j = []) ∧
        ∀ (j : Int) (p : Int × ℤ), p ∈ g1.adj j → p.1 < (sampleFile.length : Int)) ∧
      (loadGraph (fresh : WeightedGraph ℤ) (some sampleFile)).map
          (fun r => (r.2.numNodes, [r.2.adj 0, r.2.adj 1, r.2.adj 2])) =
        some (3, [[(1, 5), (1, 7), (0, 2), (2, 4)], [], []]) :=
  ⟨by decide, loadGraph_stores_filtered_records sampleFile (by decide), by decide⟩

end

/-! ## Loading: rejection; cycle detection: termination, soundness, first edges;
symmetrisation -/

theorem countNodes_sequential (recs : List (Record W)) :
    ∀ k : Int, (∀ (i : Nat) (r : Record W), recs[i]? = some r → r.1 = k + i) →
      countNodes recs k = (true, k + recs.length) := by
  induction recs with
  | nil => intro k _; simp [countNodes]
  | cons r rest ih =>
    intro k h
    have hr : r.1 = k := by simpa using h 0 r (by simp)
    have hrest := ih (k + 1) (by
      intro i x hx
      have := h (i + 1) x (by simpa using hx)
      rw [this]; push_cast; omega)
    simp only [countNodes, hr, ne_eq, not_true_eq_false, if_false, hrest, List.length_cons,
      Prod.mk.injEq, true_and]
    push_cast
    omega

theorem countNodes_fst_iff (recs : List (Record W)) (k : Int) :
    (countNodes recs k).1 = true ↔
      ∀ (i : Nat) (r : Record W), recs[i]? = some r → r.1 = k + i := by
  constructor
  · intro h
    exact (countNodes_true recs k (countNodes recs k).2 (by rw [← h])).2
  · intro h
    rw [countNodes_sequential recs k h]

/-- C11: for every sequence of records read into a fresh graph, `loadGraph` returns a
boolean, and it returns `false` exactly when the record node numbers are not `0, 1, 2,
...` in order or there are more than `MAX_SIZE` records; when it returns `false` every
adjacency list is still empty, and when it returns `true` then `numNodes` is the number
of records and is at most `MAX_SIZE`. -/
theorem loadGraph_rejects_iff (recs : List (Record W)) :
    ∃ (b : Bool) (g1 : WeightedGraph W), loadGraph fresh (some recs) = some (b, g1) ∧
      (b = false ↔
        (¬ (∀ (i : Nat) (r : Record W), recs[i]? = some r → r.1 = i) ∨
          MAX_SIZE < (recs.length : Int))) ∧
      (b = false → ∀ j, g1.adj j = []) ∧
      (b = true → g1.numNodes = recs.length ∧ g1.numNodes ≤ MAX_SIZE) := by
  have hiff := countNodes_fst_iff recs 0
  simp only [zero_add] at hiff
  simp only [loadGraph, fresh]
  cases hc : countNodes recs 0 with
  | mk ok n =>
    rw [hc] at hiff
    cases ok with
    | false =>
      refine ⟨false, ⟨n, fun _ => []⟩, rfl, ?_, fun _ _ => rfl, fun h => absurd h (by simp)⟩
      constructor
      · intro _
        left
        intro hseq
        have := hiff.2 hseq
        simp at this
      · intro _; rfl
    | true =>
      have hseq := hiff.1 rfl
      obtain ⟨hn, hnum⟩ := countNodes_true recs 0 n hc
      rw [zero_add] at hn
      simp only []
      by_cases hmax : n > MAX_SIZE
      · simp only [hmax, if_true]
        refine ⟨false, ⟨n, fun _ => []⟩, rfl, ?_, fun _ _ => rfl, fun h => absurd h (by simp)⟩
        constructor
        · intro _
          right
          rw [← hn]; exact hmax
        · intro _; rfl
      · simp only [hmax, if_false]
        obtain ⟨adj1, hrun, _, _⟩ := storeAll_eq n recs 0 (fun _ => []) (le_refl _)
          (by rw [zero_add, ← hn]; exact not_lt.1 hmax) hnum
        rw [hrun]
        refine ⟨true, ⟨n, adj1⟩, rfl, ?_, fun h => absurd h (by simp),
          fun _ => ⟨hn, not_lt.1 hmax⟩⟩
        constructor
        · intro h; exact absurd h (by simp)
        · rintro (h | h)
          · exact absurd hseq h
          · rw [← hn] at h
            exact absurd h hmax

theorem cycleForT_proj
    (call : Int → (Int → Int) → Option (Bool × (Int → Int)))
    (callT : Int → (Int → Int) →
      Option (Bool × (Int → Int) × List (Int × (Int → Int)) × List Int))
    (hcall : ∀ v c, call v c = (callT v c).map (fun r => (r.1, r.2.1))) (s : Int)
    (l : List (Int × W)) :
    ∀ colour, cycleFor call s l colour =
      (cycleForT callT s l colour).map (fun r => (r.1, r.2.1)) := by
  induction l with
  | nil => intro colour; rfl
  | cons p rest ih =>
    intro colour
    simp only [cycleFor, cycleForT]
    by_cases hb : InBounds p.1
    · by_cases hw : colour p.1 = WHITE
      · simp only [hb, hw, if_true, hcall, Option.map_map]
        rfl
      · by_cases hg : colour p.1 = GREY
        · have hgw : ¬ (GREY = WHITE) := by decide
          simp [hb, hg, hgw]
        · simp only [hb, hw, hg, if_true, if_false, ih, Option.map_map]
          rfl
    · simp [hb]

theorem cycleDfsT_proj (g : WeightedGraph W) (fuel : Nat) :
    ∀ s colour, cycleDfs g fuel s colour =
      (cycleDfsT g fuel s colour).map (fun r => (r.1, r.2.1)) := by
  induction fuel with
  | zero => intro s colour; rfl
  | succ n ih =>
    intro s colour
    simp only [cycleDfs, cycleDfsT]
    by_cases hb : InBounds s
    · simp only [hb, if_true, Option.map_map]
      rw [cycleForT_proj (cycleDfs g n) (cycleDfsT g n) ih]
      rfl
    · simp [hb]

theorem whiteCount_update (g : WeightedGraph W) (colour : Int → Int) (s : Int)
    (hs : 0 ≤ s ∧ s < g.numNodes) (hw : colour s = WHITE) :
    whiteCount g (Function.update colour s GREY) < whiteCount g colour := by
  unfold whiteCount
  apply Finset.card_lt_card
  rw [Finset.ssubset_iff_of_subset]
  · refine ⟨s, ?_, ?_⟩
    · simp only [Finset.mem_filter, Finset.mem_Ico]
      exact ⟨hs, hw⟩
    · simp [GREY, WHITE]
  · intro i hi
    simp only [Finset.mem_filter, Finset.mem_Ico] at hi ⊢
    refine ⟨hi.1, ?_⟩
    by_cases h : i = s
    · subst h; simp [GREY, WHITE] at hi
    · simpa [Function.update_noteq h] using hi.2

theorem whiteCount_all (g : WeightedGraph W) :
    whiteCount g (fun _ => WHITE) = g.numNodes.toNat := by
  simp [whiteCount]

theorem CallChain.nodup {g : WeightedGraph W} :
    ∀ (calls : List (Int × (Int → Int))) (colour : Int → Int), CallChain g colour calls →
      (calls.map Prod.fst).Nodup ∧ ∀ v ∈ calls.map Prod.fst, colour v = WHITE := by
  intro calls
  induction calls with
  | nil => intro colour _; simp
  | cons c rest ih =>
    intro colour h
    obtain ⟨_, hw, _, _, hrest⟩ := h
    obtain ⟨hnd, hwh⟩ := ih _ hrest
    have hne : ∀ v ∈ rest.map Prod.fst, v ≠ c.1 := by
      intro v hv hvc
      have := hwh v hv
      rw [hvc, Function.update_same] at this
      exact absurd this (by decide)
    refine ⟨?_, ?_⟩
    · rw [List.map_cons, List.nodup_cons]
      exact ⟨fun hmem => hne _ hmem rfl, hnd⟩
    · intro v hv
      rw [List.map_cons, List.mem_cons] at hv
      rcases hv with rfl | hv
      · exact hw
      · have := hwh v hv
        rwa [Function.update_noteq (hne v hv)] at this

theorem cycleDfsT_run (g : WeightedGraph W) (hwf : g.WF) :
    ∀ (n : Nat) (s : Int) (colour : Int → Int), 0 ≤ s ∧ s < g.numNodes → colour s = WHITE →
      (∀ v, colour v = WHITE ∨ colour v = GREY) → whiteCount g colour ≤ n →
      ∃ b col calls reads, (∀ fuel, n ≤ fuel →
          cycleDfsT g fuel s colour = some (b, col, calls, reads)) ∧
        calls.length ≤ n ∧ CallChain g colour calls ∧ (∀ c ∈ reads, c ≠ BLACK) ∧
        ∀ v, col v = WHITE → colour v = WHITE ∧ v ∉ calls.map Prod.fst := by
  intro n
  induction n with
  | zero =>
    intro s colour hs hw _ hcount
    exfalso
    have hpos : 0 < whiteCount g colour := by
      unfold whiteCount
      apply Finset.card_pos.2
      exact ⟨s, by simp only [Finset.mem_filter, Finset.mem_Ico]; exact ⟨hs, hw⟩⟩
    omega
  | succ n ih =>
    intro s colour hs hw hcol hcount
    have hsb : InBounds s := ⟨hs.1, lt_of_lt_of_le hs.2 hwf.2.1⟩
    have hcol1 : ∀ v, Function.update colour s GREY v = WHITE ∨
        Function.update colour s GREY v = GREY := by
      intro v
      by_cases hv : v = s
      · subst hv; right; simp
      · rw [Function.update_noteq hv]; exact hcol v
    have hcount1 : whiteCount g (Function.update colour s GREY) ≤ n := by
      have := whiteCount_update g colour s hs hw
      omega
    cases hadj : g.adj s with
    | nil =>
      refine ⟨false, Function.update (Function.update colour s GREY) s BLACK, [(s, colour)], [],
        ?_, by simp, ⟨rfl, hw, hs.1, hs.2, trivial⟩, by simp, ?_⟩
      · intro fuel hf
        obtain ⟨k, rfl⟩ : ∃ k, fuel = k + 1 := ⟨fuel - 1, by omega⟩
        simp [cycleDfsT, hsb, hadj, cycleForT]
      · intro v hv
        by_cases hvs : v = s
        · subst hvs
          rw [Function.update_same] at hv
          exact absurd hv (by decide)
        · rw [Function.update_noteq hvs, Function.update_noteq hvs] at hv
          exact ⟨hv, by simpa using hvs⟩
    | cons p rest =>
      have hp := hwf.2.2 s hs.1 hs.2 p (by rw [hadj]; exact List.mem_cons_self _ _)
      have hpb : InBounds p.1 := ⟨hp.1, lt_of_lt_of_le hp.2 hwf.2.1⟩
      rcases hcol1 p.1 with hpw | hpg
      · obtain ⟨b, col, calls, reads, hrun, hlen, hchain, hreads, hfin⟩ :=
          ih p.1 (Function.update colour s GREY) hp hpw hcol1 hcount1
        refine ⟨b, col, (s, colour) :: calls, WHITE :: reads, ?_, by simp; omega,
          ⟨rfl, hw, hs.1, hs.2, hchain⟩, ?_, ?_⟩
        · intro fuel hf
          obtain ⟨k, rfl⟩ : ∃ k, fuel = k + 1 := ⟨fuel - 1, by omega⟩
          simp only [cycleDfsT, hsb, if_true, hadj, cycleForT, hpb, hpw,
            hrun k (by omega), Option.map_some']
        · intro c hc
          rcases List.mem_cons.1 hc with rfl | hc
          · decide
          · exact hreads c hc
        · intro v hv
          obtain ⟨h1, h2⟩ := hfin v hv
          have hvs : v ≠ s := by
            intro hvs
            rw [hvs, Function.update_same] at h1
            exact absurd h1 (by decide)
          rw [Function.update_noteq hvs] at h1
          refine ⟨h1, ?_⟩
          rw [List.map_cons, List.mem_cons]
          rintro (h | h)
          · exact hvs h
          · exact h2 h
      · have hnw : ¬ Function.update colour s GREY p.1 = WHITE := by
          rw [hpg]; decide
        refine ⟨true, Function.update colour s GREY, [(s, colour)], [GREY], ?_, by simp,
          ⟨rfl, hw, hs.1, hs.2, trivial⟩, ?_, ?_⟩
        · intro fuel hf
          obtain ⟨k, rfl⟩ : ∃ k, fuel = k + 1 := ⟨fuel - 1, by omega⟩
          have hgw : ¬ (GREY = WHITE) := by decide
          simp only [cycleDfsT, hsb, if_true, hadj, cycleForT, hpb, hpg, hgw, if_false,
            Option.map_some']
        · intro c hc
          rw [List.mem_singleton] at hc
          rw [hc]; decide
        · intro v hv
          by_cases hvs : v = s
          · subst hvs
            rw [Function.update_same] at hv
            exact absurd hv (by decide)
          · rw [Function.update_noteq hvs] at hv
            exact ⟨hv, by simpa using hvs⟩

theorem hasCycle_eq_trace (g : WeightedGraph W) (fuel : Nat) (s : Int) :
    hasCycle g fuel s = (cycleDfsT g fuel s (fun _ => WHITE)).map (fun r => r.1) := by
  simp only [hasCycle, cycleDfsT_proj, Option.map_map]
  rfl

/-- C12: `hasCycle(s)` terminates with recursion depth at most `numNodes`: with `fuel`
(the depth allowed) at least `numNodes` the call returns a boolean.  The calls of
`cycleDfs` made are at most `numNodes`, they are on pairwise distinct nodes, each on a
node that is WHITE in the array it receives and that the next call receives coloured
GREY, and no node that was called is WHITE in the final array. -/
theorem hasCycle_terminates (g : WeightedGraph W) (s : Int) (hwf : g.WF)
    (hs : 0 ≤ s ∧ s < g.numNodes) :
    ∃ b col calls reads,
      (∀ fuel, g.numNodes.toNat ≤ fuel →
        cycleDfsT g fuel s (fun _ => WHITE) = some (b, col, calls, reads) ∧
          hasCycle g fuel s = some b) ∧
      (calls.length : Int) ≤ g.numNodes ∧ CallChain g (fun _ => WHITE) calls ∧
      (calls.map Prod.fst).Nodup ∧ ∀ v ∈ calls.map Prod.fst, col v ≠ WHITE := by
  obtain ⟨b, col, calls, reads, hrun, hlen, hchain, _, hfin⟩ :=
    cycleDfsT_run g hwf g.numNodes.toNat s (fun _ => WHITE) hs rfl (fun _ => Or.inl rfl)
      (le_of_eq (whiteCount_all g))
  refine ⟨b, col, calls, reads, ?_, by omega, hchain, (hchain.nodup calls _).1, ?_⟩
  · intro fuel hf
    refine ⟨hrun fuel hf, ?_⟩
    rw [hasCycle_eq_trace, hrun fuel hf]
    rfl
  · intro v hv hw
    exact (hfin v hw).2 hv

theorem cycleFor_sound (g : WeightedGraph W) (s0 s : Int)
    (call : Int → (Int → Int) → Option (Bool × (Int → Int)))
    (hcall : ∀ v c col, call v c = some (true, col) → g.Reach s0 v →
      (∀ x, c x = GREY → g.Reach s0 x ∧ Relation.TransGen g.Edge x v) → g.CycleReachable s0)
    (hs : g.Reach s0 s) (l : List (Int × W)) (hl : ∀ p ∈ l, p ∈ g.adj s) :
    ∀ colour col, cycleFor call s l colour = some (true, col) →
      (∀ x, colour x = GREY → g.Reach s0 x ∧ Relation.ReflTransGen g.Edge x s) →
      g.CycleReachable s0 := by
  induction l with
  | nil =>
    intro colour col h _
    simp [cycleFor] at h
  | cons p rest ih =>
    intro colour col h hgrey
    have hedge : g.Edge s p.1 := ⟨p.2, hl p (List.mem_cons_self _ _)⟩
    simp only [cycleFor] at h
    by_cases hb : InBounds p.1
    · simp only [hb, if_true] at h
      by_cases hw : colour p.1 = WHITE
      · simp only [hw, if_true] at h
        refine hcall p.1 colour col h (Relation.ReflTransGen.tail hs hedge) ?_
        intro x hx
        obtain ⟨h1, h2⟩ := hgrey x hx
        exact ⟨h1, Relation.TransGen.tail' h2 hedge⟩
      · simp only [hw, if_false] at h
        by_cases hg : colour p.1 = GREY
        · obtain ⟨h1, h2⟩ := hgrey p.1 hg
          exact ⟨p.1, h1, Relation.TransGen.tail' h2 hedge⟩
        · simp only [hg, if_false] at h
          exact ih (fun q hq => hl q (List.mem_cons_of_mem _ hq)) colour col h hgrey
    · simp [hb] at h

theorem cycleDfs_sound (g : WeightedGraph W) (s0 : Int) (fuel : Nat) :
    ∀ s colour col, cycleDfs g fuel s colour = some (true, col) → g.Reach s0 s →
      (∀ x, colour x = GREY → g.Reach s0 x ∧ Relation.TransGen g.Edge x s) →
      g.CycleReachable s0 := by
  induction fuel with
  | zero => intro s colour col h; simp [cycleDfs] at h
  | succ n ih =>
    intro s colour col h hs hgrey
    simp only [cycleDfs] at h
    by_cases hb : InBounds s
    · simp only [hb, if_true] at h
      refine cycleFor_sound g s0 s (cycleDfs g n) ih hs (g.adj s) (fun _ hp => hp) _ col h ?_
      intro x hx
      by_cases hxs : x = s
      · subst hxs
        exact ⟨hs, Relation.ReflTransGen.refl⟩
      · rw [Function.update_noteq hxs] at hx
        obtain ⟨h1, h2⟩ := hgrey x hx
        exact ⟨h1, h2.to_reflTransGen⟩
    · simp [hb] at h

/-- C18: `hasCycle` has no false positives: when `hasCycle(s)` returns `true`, some
directed cycle is reachable from `s` (the GREY node met again lies on the current
exploration path and is entered by a stored edge). -/
theorem hasCycle_true_sound (g : WeightedGraph W) (s : Int) (fuel : Nat)
    (h : hasCycle g fuel s = some true) : g.CycleReachable s := by
  simp only [hasCycle] at h
  obtain ⟨r, hr, hr1⟩ := Option.map_eq_some'.1 h
  obtain ⟨b, col⟩ := r
  simp only [] at hr1
  subst hr1
  refine cycleDfs_sound g s fuel s (fun _ => WHITE) col hr Relation.ReflTransGen.refl ?_
  intro x hx
  exact absurd hx (show ¬ (WHITE = GREY) by decide)

theorem cycleDfs_eq_firstEdgeWalk (g : WeightedGraph W) (hwf : g.WF) (fuel : Nat) :
    ∀ (s : Int) (colour : Int → Int) (seen : List Int), 0 ≤ s ∧ s < g.numNodes →
      (∀ v, colour v = WHITE ∨ colour v = GREY) → (∀ v, colour v = GREY ↔ v ∈ seen) →
      (cycleDfs g fuel s colour).map Prod.fst = firstEdgeWalk g fuel s (s :: seen) := by
  induction fuel with
  | zero => intro s colour seen _ _ _; rfl
  | succ n ih =>
    intro s colour seen hs hcol hseen
    have hsb : InBounds s := ⟨hs.1, lt_of_lt_of_le hs.2 hwf.2.1⟩
    have hcol1 : ∀ v, Function.update colour s GREY v = WHITE ∨
        Function.update colour s GREY v = GREY := by
      intro v
      by_cases hv : v = s
      · subst hv; right; simp
      · rw [Function.update_noteq hv]; exact hcol v
    have hseen1 : ∀ v, Function.update colour s GREY v = GREY ↔ v ∈ s :: seen := by
      intro v
      by_cases hv : v = s
      · subst hv; simp
      · rw [Function.update_noteq hv, hseen v]; simp [hv]
    simp only [cycleDfs, hsb, if_true, firstEdgeWalk]
    cases hadj : g.adj s with
    | nil => simp [cycleFor]
    | cons p rest =>
      have hp := hwf.2.2 s hs.1 hs.2 p (by rw [hadj]; exact List.mem_cons_self _ _)
      have hpb : InBounds p.1 := ⟨hp.1, lt_of_lt_of_le hp.2 hwf.2.1⟩
      simp only [cycleFor, hpb, if_true]
      rcases hcol1 p.1 with hpw | hpg
      · have hnot : p.1 ∉ s :: seen := by
          intro hmem
          have := (hseen1 p.1).2 hmem
          rw [hpw] at this
          exact absurd this (by decide)
        simp only [hpw, if_true, hnot, if_false]
        exact ih p.1 _ (s :: seen) hp hcol1 hseen1
      · have hmem : p.1 ∈ s :: seen := (hseen1 p.1).1 hpg
        have hgw : ¬ (GREY = WHITE) := by decide
        simp [hpg, hgw, hmem]

theorem firstEdgeWalk_congr (g1 g2 : WeightedGraph W)
    (h : ∀ u, (g1.adj u).head?.map Prod.fst = (g2.adj u).head?.map Prod.fst) (fuel : Nat) :
    ∀ n seen, firstEdgeWalk g1 fuel n seen = firstEdgeWalk g2 fuel n seen := by
  induction fuel with
  | zero => intro n seen; rfl
  | succ k ih =>
    intro n seen
    have hn := h n
    simp only [firstEdgeWalk]
    cases h1 : g1.adj n with
    | nil =>
      cases h2 : g2.adj n with
      | nil => rfl
      | cons q r2 => rw [h1, h2] at hn; simp at hn
    | cons p r1 =>
      cases h2 : g2.adj n with
      | nil => rw [h1, h2] at hn; simp at hn
      | cons q r2 =>
        rw [h1, h2] at hn
        simp only [List.head?_cons, Option.map_some', Option.some.injEq] at hn
        simp only [hn, ih]

theorem hasCycle_eq_walk (g : WeightedGraph W) (hwf : g.WF) (s : Int)
    (hs : 0 ≤ s ∧ s < g.numNodes) (fuel : Nat) :
    hasCycle g fuel s = firstEdgeWalk g fuel s [s] := by
  simp only [hasCycle]
  exact cycleDfs_eq_firstEdgeWalk g hwf fuel s (fun _ => WHITE) [] hs (fun _ => Or.inl rfl)
    (fun v => by simp [WHITE, GREY])

/-- C19: `hasCycle(s)` is the walk along first edges: it equals `firstEdgeWalk` started at
`s`, so a graph that has the same first destination at every node gives the same result;
and every colour read from `colour[p.first]` during the call is WHITE or GREY, never
BLACK. -/
theorem hasCycle_first_edge_only (g : WeightedGraph W) (s : Int) (hwf : g.WF)
    (hs : 0 ≤ s ∧ s < g.numNodes) :
    (∀ fuel, hasCycle g fuel s = firstEdgeWalk g fuel s [s]) ∧
      (∀ g2 : WeightedGraph W, g2.WF → s < g2.numNodes →
        (∀ u, (g.adj u).head?.map Prod.fst = (g2.adj u).head?.map Prod.fst) →
        ∀ fuel, hasCycle g fuel s = hasCycle g2 fuel s) ∧
      ∃ b col calls reads,
        (∀ fuel, g.numNodes.toNat ≤ fuel →
          cycleDfsT g fuel s (fun _ => WHITE) = some (b, col, calls, reads)) ∧
        ∀ c ∈ reads, c ≠ BLACK := by
  refine ⟨hasCycle_eq_walk g hwf s hs, ?_, ?_⟩
  · intro g2 hwf2 hs2 hsame fuel
    rw [hasCycle_eq_walk g hwf s hs, hasCycle_eq_walk g2 hwf2 s ⟨hs.1, hs2⟩,
      firstEdgeWalk_congr g g2 hsame]
  · obtain ⟨b, col, calls, reads, hrun, _, _, hreads, _⟩ :=
      cycleDfsT_run g hwf g.numNodes.toNat s (fun _ => WHITE) hs rfl (fun _ => Or.inl rfl)
        (le_of_eq (whiteCount_all g))
    exact ⟨b, col, calls, reads, hrun, hreads⟩

theorem length_le_of_nodup_range (l : List Int) (n : Int) (hnd : l.Nodup)
    (h : ∀ x ∈ l, 0 ≤ x ∧ x < n) : (l.length : Int) ≤ max n 0 := by
  have hsub : l.toFinset ⊆ Finset.Ico (0 : Int) n := by
    intro x hx
    rw [List.mem_toFinset] at hx
    rw [Finset.mem_Ico]
    exact h x hx
  have hcard := Finset.card_le_card hsub
  rw [List.toFinset_card_of_nodup hnd, Int.card_Ico] at hcard
  have : ((n - 0).toNat : Int) = max n 0 := by
    rw [sub_zero, Int.toNat_eq_max]
  omega

theorem undirectRow_spec (node1 : Int) :
    ∀ (row : List (Int × W)) (adj : Int → List (Int × W)),
      (∀ p ∈ row, InBounds p.1) →
      ∃ adj1, undirectRow node1 row adj = some adj1 ∧
        (∀ u, ∃ app, adj1 u = adj u ++ app ∧ app.length ≤ 1 ∧
          ∀ q ∈ app, q.1 = node1 ∧ (u, q.2) ∈ row ∧ ∀ p ∈ adj u, p.1 ≠ node1) ∧
        ∀ p ∈ row, ∃ p2 ∈ adj1 p.1, p2.1 = node1 := by
  intro row
  induction row with
  | nil =>
    intro adj _
    exact ⟨adj, rfl, fun u => ⟨[], by simp⟩, by simp⟩
  | cons p rest ih =>
    intro adj hb
    have hp : InBounds p.1 := hb p (List.mem_cons_self _ _)
    have hrest : ∀ x ∈ rest, InBounds x.1 := fun x hx => hb x (List.mem_cons_of_mem _ hx)
    by_cases hfound : (adj p.1).any (fun p2 => decide (p2.1 = node1)) = true
    · obtain ⟨adj1, hrun, h1, h2⟩ := ih adj hrest
      refine ⟨adj1, ?_, ?_, ?_⟩
      · simp only [undirectRow, hp, hfound, if_true]
        exact hrun
      · intro u
        obtain ⟨app, ha, hl, hq⟩ := h1 u
        refine ⟨app, ha, hl, ?_⟩
        intro q hqm
        obtain ⟨hq1, hq2, hq3⟩ := hq q hqm
        exact ⟨hq1, List.mem_cons_of_mem _ hq2, hq3⟩
      · intro x hx
        rcases List.mem_cons.1 hx with hxp | hxr
        · subst hxp
          rw [List.any_eq_true] at hfound
          obtain ⟨p2, hp2, hp2e⟩ := hfound
          obtain ⟨app, ha, _, _⟩ := h1 x.1
          refine ⟨p2, ?_, of_decide_eq_true hp2e⟩
          rw [ha]
          exact List.mem_append_left _ hp2
        · exact h2 x hxr
    · obtain ⟨adj1, hrun, h1, h2⟩ :=
        ih (Function.update adj p.1 (adj p.1 ++ [(node1, p.2)])) hrest
      have hnf : ∀ x ∈ adj p.1, x.1 ≠ node1 := by
        intro x hx hxe
        apply hfound
        rw [List.any_eq_true]
        exact ⟨x, hx, decide_eq_true hxe⟩
      refine ⟨adj1, ?_, ?_, ?_⟩
      · simp only [undirectRow, hp, hfound, if_true]
        exact hrun
      · intro u
        obtain ⟨app, ha, hl, hq⟩ := h1 u
        by_cases hu : u = p.1
        · subst hu
          have happ : app = [] := by
            cases app with
            | nil => rfl
            | cons q t =>
              exfalso
              obtain ⟨_, _, hq3⟩ := hq q (List.mem_cons_self _ _)
              refine hq3 (node1, p.2) ?_ rfl
              rw [Function.update_same]
              simp
          subst happ
          rw [Function.update_same] at ha
          refine ⟨[(node1, p.2)], by simpa using ha, by simp, ?_⟩
          intro q hqm
          rw [List.mem_singleton] at hqm
          subst hqm
          exact ⟨rfl, List.mem_cons_self _ _, hnf⟩
        · rw [Function.update_noteq hu] at ha
          refine ⟨app, ha, hl, ?_⟩
          intro q hqm
          obtain ⟨hq1, hq2, hq3⟩ := hq q hqm
          refine ⟨hq1, List.mem_cons_of_mem _ hq2, ?_⟩
          intro x hx
          refine hq3 x ?_
          rw [Function.update_noteq hu]
          exact hx
      · intro x hx
        rcases List.mem_cons.1 hx with hxp | hxr
        · subst hxp
          obtain ⟨app, ha, _, _⟩ := h1 x.1
          refine ⟨(node1, x.2), ?_, rfl⟩
          rw [ha, Function.update_same]
          simp
        · exact h2 x hxr

theorem UndirectInv.row {g : WeightedGraph W} {node1 : Int} {adj : Int → List (Int × W)}
    (hwf : g.WF) (h0 : 0 ≤ node1) (h1 : node1 < g.numNodes) (hinv : UndirectInv g node1 adj) :
    ∃ adj1, undirectRow node1 (adj node1) adj = some adj1 ∧ UndirectInv g (node1 + 1) adj1 := by
  have hrow : ∀ p ∈ adj node1, InBounds p.1 := by
    intro p hp
    obtain ⟨app, ha, _, hq⟩ := hinv.grown node1
    rw [ha] at hp
    rcases List.mem_append.1 hp with ho | hap
    · have := hwf.2.2 node1 h0 h1 p ho
      exact ⟨this.1, lt_of_lt_of_le this.2 hwf.2.1⟩
    · obtain ⟨_, _, hq0, hq1⟩ := hq p hap
      exact ⟨hq0, lt_trans hq1 (lt_of_lt_of_le h1 hwf.2.1)⟩
  obtain ⟨adj1, hrun, hg, hb⟩ := undirectRow_spec node1 (adj node1) adj hrow
  refine ⟨adj1, hrun, ?_, ?_⟩
  · intro u
    obtain ⟨app, ha, hnd, hq⟩ := hinv.grown u
    obtain ⟨app1, ha1, hl1, hq1⟩ := hg u
    refine ⟨app ++ app1, by rw [ha1, ha, List.append_assoc], ?_, ?_⟩
    · rw [List.map_append, List.nodup_append]
      refine ⟨hnd, ?_, ?_⟩
      · match app1, hl1 with
        | [], _ => simp
        | [_], _ => simp
      · intro x hx hx1
        obtain ⟨q, hqm, hqx⟩ := List.mem_map.1 hx
        obtain ⟨q1, hq1m, hq1x⟩ := List.mem_map.1 hx1
        obtain ⟨hq1n, _, hq1f⟩ := hq1 q1 hq1m
        refine hq1f q ?_ ?_
        · rw [ha]
          exact List.mem_append_right _ hqm
        · rw [hqx, ← hq1x, hq1n]
    · intro q hqm
      rcases List.mem_append.1 hqm with hqa | hqb
      · obtain ⟨hq2, hq3, hq4, hq5⟩ := hq q hqa
        exact ⟨hq2, hq3, hq4, by omega⟩
      · obtain ⟨hqn, hqr, hqf⟩ := hq1 q hqb
        have hnot : ∀ p ∈ g.adj u, p.1 ≠ node1 := by
          intro p hp
          refine hqf p ?_
          rw [ha]
          exact List.mem_append_left _ hp
        refine ⟨by rw [hqn]; exact hnot, ?_, by rw [hqn]; exact h0, by rw [hqn]; omega⟩
        obtain ⟨appn, han, _, hqn2⟩ := hinv.grown node1
        rw [han] at hqr
        rw [hqn]
        rcases List.mem_append.1 hqr with ho | hap
        · exact ho
        · exfalso
          obtain ⟨_, hrev, _, _⟩ := hqn2 _ hap
          exact hnot _ hrev rfl
  · intro u hu0 hu1 p hp
    by_cases hun : u = node1
    · subst hun
      obtain ⟨app, ha, _, _⟩ := hinv.grown u
      refine hb p ?_
      rw [ha]
      exact List.mem_append_left _ hp
    · obtain ⟨p2, hp2, hp2e⟩ := hinv.back u hu0 (by omega) p hp
      obtain ⟨app1, ha1, _, _⟩ := hg p.1
      refine ⟨p2, ?_, hp2e⟩
      rw [ha1]
      exact List.mem_append_left _ hp2

theorem UndirectInv.loop {g : WeightedGraph W} (hwf : g.WF) :
    ∀ (k : Nat) (node1 : Int) (adj : Int → List (Int × W)),
      0 ≤ node1 → node1 + k = g.numNodes → UndirectInv g node1 adj →
      ∃ adj1, undirectFrom k node1 adj = some adj1 ∧ UndirectInv g g.numNodes adj1 := by
  intro k
  induction k with
  | zero =>
    intro node1 adj _ hk hinv
    simp only [Nat.cast_zero, add_zero] at hk
    subst hk
    exact ⟨adj, rfl, hinv⟩
  | succ k ih =>
    intro node1 adj h0 hk hinv
    have h1 : node1 < g.numNodes := by
      have : (0 : Int) ≤ (k : Int) := Int.natCast_nonneg k
      push_cast at hk
      omega
    have hbnd : InBounds node1 := ⟨h0, lt_of_lt_of_le h1 hwf.2.1⟩
    obtain ⟨adj1, hrun, hinv1⟩ := hinv.row hwf h0 h1
    obtain ⟨adj2, hrun2, hinv2⟩ :=
      ih (node1 + 1) adj1 (by omega) (by push_cast at hk; omega) hinv1
    refine ⟨adj2, ?_, hinv2⟩
    simp only [undirectFrom, hbnd, if_true, hrun]
    exact hrun2

theorem UndirectInv.start (g : WeightedGraph W) : UndirectInv g 0 g.adj :=
  ⟨fun u => ⟨[], by simp⟩, fun u h0 h1 => absurd h1 (not_lt.2 h0)⟩

/-- C15: for a graph whose stored destinations are nodes, `makeUndirected()` returns a
state with the same `numNodes` whose edge relation is symmetric on the nodes; every new
adjacency list is the original list followed by appended pairs, the appended pairs of
a list have pairwise distinct destinations, none of which the original list led to, and
each appended `u→v` carries the weight of an original edge `v→u`. -/
theorem makeUndirected_symmetric (g : WeightedGraph W) (hwf : g.WF) :
    ∃ g1, makeUndirected g = some g1 ∧ g1.numNodes = g.numNodes ∧
      (∀ u v, 0 ≤ u → u < g.numNodes → 0 ≤ v → v < g.numNodes →
        (g1.Edge u v ↔ g1.Edge v u)) ∧
      ∀ u, ∃ app, g1.adj u = g.adj u ++ app ∧ (app.map Prod.fst).Nodup ∧
        ∀ q ∈ app, (∀ p ∈ g.adj u, p.1 ≠ q.1) ∧ (u, q.2) ∈ g.adj q.1 := by
  obtain ⟨adj1, hrun, hinv⟩ := UndirectInv.loop hwf g.numNodes.toNat 0 g.adj le_rfl
    (by rw [Int.toNat_of_nonneg hwf.1]; simp) (UndirectInv.start g)
  have hhalf : ∀ u v, 0 ≤ u → u < g.numNodes →
      (∃ w, (v, w) ∈ adj1 u) → ∃ w, (u, w) ∈ adj1 v := by
    intro u v hu0 hu1 ⟨w, hw⟩
    obtain ⟨app, ha, _, hq⟩ := hinv.grown u
    rw [ha] at hw
    rcases List.mem_append.1 hw with ho | hap
    · obtain ⟨p2, hp2, hp2e⟩ := hinv.back u hu0 hu1 _ ho
      refine ⟨p2.2, ?_⟩
      rw [← hp2e]
      exact hp2
    · obtain ⟨_, hrev, _, _⟩ := hq _ hap
      obtain ⟨appv, hav, _, _⟩ := hinv.grown v
      refine ⟨w, ?_⟩
      rw [hav]
      exact List.mem_append_left _ hrev
  refine ⟨⟨g.numNodes, adj1⟩, by simp [makeUndirected, hrun], rfl, ?_, ?_⟩
  · intro u v hu0 hu1 hv0 hv1
    exact ⟨hhalf u v hu0 hu1, hhalf v u hv0 hv1⟩
  · intro u
    obtain ⟨app, ha, hnd, hq⟩ := hinv.grown u
    exact ⟨app, ha, hnd, fun q hqm => ⟨(hq q hqm).1, (hq q hqm).2.1⟩⟩

theorem oneWayGraph_wf : oneWayGraph.WF := by
  unfold WF; decide

section

variable [LinearOrderedAddCommGroup W] (P : MinQueue W)

theorem countedLoop_proj (key : QueueElem W → Int × W → W) (g : WeightedGraph W)
    (fuel : Nat) :
    ∀ (pq : P.Q) (vis : Int → Bool) (acc : List (QueueElem W)) (n : Nat),
      searchLoop P key g fuel pq vis acc =
        (countedLoop P key g fuel pq vis acc n).map (fun r => r.2.2.1) := by
  induction fuel with
  | zero => intro pq vis acc n; rfl
  | succ k ih =>
    intro pq vis acc n
    simp only [searchLoop, countedLoop]
    cases hpop : P.pop pq with
    | none => rfl
    | some ep =>
      obtain ⟨e, pq1⟩ := ep
      simp only []
      by_cases hb : InBounds e.node
      · by_cases hv : vis e.node = true
        · simp only [hb, hv, if_true]
          exact ih _ _ _ _
        · have hv' : vis e.node = false := by simpa using hv
          simp only [hb, hv', if_true, Bool.false_eq_true, if_false]
          exact ih _ _ _ _
      · simp [hb]

theorem countedLoop_result (key : QueueElem W → Int × W → W) (g : WeightedGraph W)
    (fuel : Nat) :
    ∀ (pq : P.Q) (vis : Int → Bool) (acc : List (QueueElem W)) (n : Nat)
      (r : P.Q × (Int → Bool) × List (QueueElem W) × Nat),
      countedLoop P key g fuel pq vis acc n = some r →
      P.elems r.1 = [] ∧ ∃ ext, r.2.2.1 = acc ++ ext ∧
        r.2.2.2 = n + (ext.map (fun e => (g.adj e.node).length)).sum := by
  induction fuel with
  | zero => intro pq vis acc n r h; simp [countedLoop] at h
  | succ k ih =>
    intro pq vis acc n r h
    simp only [countedLoop] at h
    cases hpop : P.pop pq with
    | none =>
      rw [hpop] at h
      simp only [Option.some.injEq] at h
      subst h
      exact ⟨(P.pop_none pq).1 hpop, [], by simp, by simp⟩
    | some ep =>
      obtain ⟨e, pq1⟩ := ep
      rw [hpop] at h
      simp only [] at h
      by_cases hb : InBounds e.node
      · by_cases hv : vis e.node = true
        · simp only [hb, hv, if_true] at h
          exact ih _ _ _ _ r h
        · have hv' : vis e.node = false := by simpa using hv
          simp only [hb, hv', if_true, Bool.false_eq_true, if_false] at h
          obtain ⟨h1, ext, h2, h3⟩ := ih _ _ _ _ r h
          refine ⟨h1, e :: ext, by rw [h2]; simp, ?_⟩
          rw [h3]
          simp only [List.map_cons, List.sum_cons]
          omega
      · simp [hb] at h

theorem countedLoop_mono (key : QueueElem W → Int × W → W) (g : WeightedGraph W)
    (fuel : Nat) :
    ∀ (pq : P.Q) (vis : Int → Bool) (acc : List (QueueElem W)) (n : Nat)
      (r : P.Q × (Int → Bool) × List (QueueElem W) × Nat),
      countedLoop P key g fuel pq vis acc n = some r →
      ∀ k, countedLoop P key g (fuel + k) pq vis acc n = some r := by
  induction fuel with
  | zero => intro pq vis acc n r h; simp [countedLoop] at h
  | succ m ih =>
    intro pq vis acc n r h k
    rw [show m + 1 + k = (m + k) + 1 by omega]
    simp only [countedLoop] at h ⊢
    cases hpop : P.pop pq with
    | none => rw [hpop] at h; exact h
    | some ep =>
      obtain ⟨e, pq1⟩ := ep
      rw [hpop] at h
      simp only [] at h ⊢
      by_cases hb : InBounds e.node
      · by_cases hv : vis e.node = true
        · simp only [hb, hv, if_true] at h ⊢
          exact ih _ _ _ _ _ h k
        · have hv' : vis e.node = false := by simpa using hv
          simp only [hb, hv', if_true, Bool.false_eq_true, if_false] at h ⊢
          exact ih _ _ _ _ _ h k
      · simp [hb] at h

theorem countedLoop_final (key : QueueElem W → Int × W → W) {g : WeightedGraph W} {s : Int}
    (hwf : g.WF) (hs : 0 ≤ s ∧ s < g.numNodes) :
    ∃ N pq1 vis1 acc n,
      (∀ fuel, N ≤ fuel →
        countedLoop P key g fuel (P.push P.empty (startElem s)) (fun _ => false) [] 1 =
            some (pq1, vis1, acc, n) ∧
          searchLoop P key g fuel (P.push P.empty (startElem s)) (fun _ => false) [] =
            some acc) ∧
      P.elems pq1 = [] ∧ (acc.map QueueElem.node).Nodup ∧
      (∀ v, v ∈ (acc.map QueueElem.node).toFinset ↔ g.Reach s v) ∧
      n = 1 + ∑ v in (acc.map QueueElem.node).toFinset, (g.adj v).length := by
  obtain ⟨N, pq0, vis0, acc, hinv, hemp, hrun⟩ := SearchInv.rule P key hwf hs
  have hN := hrun N (le_refl _)
  rw [countedLoop_proj P key g N _ _ _ 1] at hN
  obtain ⟨r, hr, hracc⟩ := Option.map_eq_some'.1 hN
  obtain ⟨pq1, vis1, acc1, n⟩ := r
  simp only [] at hracc
  subst hracc
  obtain ⟨hempty, ext, hext, hn⟩ := countedLoop_result P key g N _ _ _ _ _ hr
  simp only [List.nil_append] at hext hn
  refine ⟨N, pq1, vis1, acc1, n, ?_, hempty, hinv.nodup, ?_, ?_⟩
  · intro fuel hf
    obtain ⟨k, rfl⟩ : ∃ k, fuel = N + k := ⟨fuel - N, by omega⟩
    exact ⟨countedLoop_mono P key g N _ _ _ _ _ hr k, hrun _ hf⟩
  · intro v
    rw [List.mem_toFinset]
    constructor
    · intro h
      obtain ⟨e, he, hev⟩ := List.mem_map.1 h
      exact hev ▸ hinv.reach_of_mem P e he
    · intro h
      obtain ⟨e, he, hev⟩ := hinv.mem_of_reach P hemp h
      exact List.mem_map.2 ⟨e, he, hev⟩
  · rw [hn, ← hext, List.sum_toFinset _ hinv.nodup, List.map_map]
    rfl

/-- C13: the frontier loops of `dijkstra(s)` and `getMst(s)` terminate, with an empty
queue.  Each node is finalized at most once (the finalized nodes are pairwise distinct
and are the nodes reachable from `s`), and the number of `pq.push` calls, the initial one
included, is `1 +` the number of stored edges leaving the nodes reachable from `s`. -/
theorem frontier_loops_terminate (g : WeightedGraph W) (s : Int) (hwf : g.WF)
    (hs : 0 ≤ s ∧ s < g.numNodes) (d : Int → Int × Cost W) :
    (∃ N pq1 vis1 acc n,
      (∀ fuel, N ≤ fuel →
        countedLoop P keyD g fuel (P.push P.empty (startElem s)) (fun _ => false) [] 1 =
            some (pq1, vis1, acc, n) ∧
          dijkstra P g fuel s d = some (distOf acc (initDist d))) ∧
      P.elems pq1 = [] ∧ (acc.map QueueElem.node).Nodup ∧
      (∀ v, v ∈ (acc.map QueueElem.node).toFinset ↔ g.Reach s v) ∧
      n = 1 + ∑ v in (acc.map QueueElem.node).toFinset, (g.adj v).length) ∧
    (∃ N pq1 vis1 acc n,
      (∀ fuel, N ≤ fuel →
        countedLoop P keyP g fuel (P.push P.empty (startElem s)) (fun _ => false) [] 1 =
            some (pq1, vis1, acc, n) ∧
          getMst P g fuel s = some (mstOf s acc)) ∧
      P.elems pq1 = [] ∧ (acc.map QueueElem.node).Nodup ∧
      (∀ v, v ∈ (acc.map QueueElem.node).toFinset ↔ g.Reach s v) ∧
      n = 1 + ∑ v in (acc.map QueueElem.node).toFinset, (g.adj v).length) := by
  constructor
  · obtain ⟨N, pq1, vis1, acc, n, hrun, h1, h2, h3, h4⟩ := countedLoop_final P keyD hwf hs
    refine ⟨N, pq1, vis1, acc, n, ?_, h1, h2, h3, h4⟩
    intro fuel hf
    refine ⟨(hrun fuel hf).1, ?_⟩
    rw [dijkstra_eq_search, (hrun fuel hf).2]
    rfl
  · obtain ⟨N, pq1, vis1, acc, n, hrun, h1, h2, h3, h4⟩ := countedLoop_final P keyP hwf hs
    refine ⟨N, pq1, vis1, acc, n, ?_, h1, h2, h3, h4⟩
    intro fuel hf
    refine ⟨(hrun fuel hf).1, ?_⟩
    rw [getMst_eq_search, (hrun fuel hf).2]
    rfl

theorem PredWalk.chain {g : WeightedGraph W} {dist : Int → Int × Cost W} {s v : Int}
    {l : List Int} (h : PredWalk g dist s v l) : Chain dist s v l := by
  induction h with
  | base _ => exact Chain.base
  | step hvs hb _ _ _ hd _ ih =>
    refine Chain.step hvs hb ?_
    rw [hd]
    exact ih

theorem PredWalk.source {g : WeightedGraph W} {dist : Int → Int × Cost W} {s v : Int}
    {l : List Int} (h : PredWalk g dist s v l) : dist s = (-1, Cost.fin 0) := by
  induction h with
  | base h0 => exact h0
  | step _ _ _ _ _ _ _ ih => exact ih

theorem PredWalk.steps {g : WeightedGraph W} {dist : Int → Int × Cost W} {s v : Int}
    {l : List Int} (h : PredWalk g dist s v l) :
    ∀ (i : Nat) (x y : Int), l[i]? = some x → l[i + 1]? = some y →
      ∃ c w, (dist x).2 = Cost.fin c ∧ (y, w) ∈ g.adj x ∧ dist y = (x, Cost.fin (c + w)) ∧
        (0 ≤ x ∧ x < g.numNodes) ∧ y ≠ s := by
  induction h with
  | base _ =>
    intro i x y _ hy
    simp at hy
  | @step v p l c w hvs hb hp hc hw hd hpr ih =>
    intro i x y hx hy
    have hlen := hp.chain.length_pos
    have hlast := hp.chain.chain_last
    by_cases hi : i + 1 < l.length
    · rw [List.getElem?_append_left (by omega)] at hx
      rw [List.getElem?_append_left hi] at hy
      exact ih i x y hx hy
    · have hlt : i + 1 < (l ++ [v]).length := by
        by_contra hcon
        rw [List.getElem?_eq_none (by omega)] at hy
        exact Option.noConfusion hy
      simp only [List.length_append, List.length_singleton] at hlt
      have hie : i = l.length - 1 := by omega
      rw [List.getElem?_append_left (by omega), hie, hlast] at hx
      rw [List.getElem?_append_right (by omega)] at hy
      have h0 : i + 1 - l.length = 0 := by omega
      rw [h0] at hy
      simp only [List.getElem?_cons_zero, Option.some.injEq] at hx hy
      subst hx hy
      exact ⟨c, w, hc, hw, hd, hpr, hvs⟩

theorem SearchInv.predWalk {g : WeightedGraph W} {s : Int} {pq : P.Q} {vis : Int → Bool}
    {acc : List (QueueElem W)} (hwf : g.WF) (hinv : SearchInv P keyD g s pq vis acc)
    (d0 : Int → Int × Cost W) :
    ∀ a e b, acc = a ++ e :: b →
      ∃ l, PredWalk g (distOf acc d0) s e.node l ∧
        l.Sublist ((a ++ [e]).map QueueElem.node) := by
  have main : ∀ n, ∀ a e b, a.length = n → acc = a ++ e :: b →
      ∃ l, PredWalk g (distOf acc d0) s e.node l ∧
        l.Sublist ((a ++ [e]).map QueueElem.node) := by
    intro n
    induction n using Nat.strong_induction_on with
    | _ n ih =>
      intro a e b hlen hacc
      have hemem : e ∈ acc := by rw [hacc]; simp
      have hde := distOf_of_mem acc d0 hinv.nodup e hemem
      by_cases ha : a = []
      · have he := hinv.head_node P a b e hacc ha
        subst ha
        subst he
        exact ⟨[s], PredWalk.base hde, by simp [startElem]⟩
      · obtain ⟨u, hu, w, hw, hpar, hcost⟩ := hinv.acc_src a e b hacc ha
        obtain ⟨a1, a2, ha12⟩ := List.append_of_mem hu
        have hlt : a1.length < n := by
          rw [← hlen, ha12]; simp
        have hacc1 : acc = a1 ++ u :: (a2 ++ e :: b) := by
          rw [hacc, ha12]; simp
        obtain ⟨l, hpw, hsub⟩ := ih _ hlt a1 u _ rfl hacc1
        have humem : u ∈ acc := by rw [hacc1]; simp
        have hdu := distOf_of_mem acc d0 hinv.nodup u humem
        have hes : e.node ≠ s := by
          obtain ⟨x, a0, hxa⟩ := List.exists_cons_of_ne_nil ha
          have hx : x = startElem s :=
            hinv.head_node P [] (a0 ++ e :: b) x (by rw [hacc, hxa]; simp) rfl
          have hnd := hinv.nodup
          rw [hacc, hxa, hx] at hnd
          simp only [List.cons_append, List.map_cons, List.map_append, List.nodup_cons,
            List.mem_append, List.mem_cons, List.mem_map] at hnd
          intro hes
          exact hnd.1 (Or.inr (Or.inl (by rw [hes]; rfl)))
        have her := hinv.acc_range e hemem
        have hur := hinv.acc_range u humem
        refine ⟨l ++ [e.node], PredWalk.step (c := u.cost) (w := w) hes
          ⟨her.1, lt_of_lt_of_le her.2 hwf.2.1⟩ hpw (by rw [hdu]) hw ?_ hur, ?_⟩
        · rw [hde, hpar, hcost]
          rfl
        · rw [ha12]
          simp only [List.map_append, List.map_cons, List.map_nil, List.append_assoc,
            List.cons_append, List.nil_append] at hsub ⊢
          have h1 : (l ++ [e.node]).Sublist
              ((a1.map QueueElem.node ++ [u.node]) ++ [e.node]) :=
            List.Sublist.append hsub (List.Sublist.refl _)
          have h2 : ((a1.map QueueElem.node ++ [u.node]) ++ [e.node]).Sublist
              (a1.map QueueElem.node ++ u.node :: (a2.map QueueElem.node ++ [e.node])) := by
            simp only [List.append_assoc, List.cons_append, List.nil_append]
            refine List.Sublist.append (List.Sublist.refl _) ?_
            refine List.Sublist.cons₂ _ ?_
            exact List.sublist_append_right _ _
          exact h1.trans h2
  intro a e b hacc
  exact main _ a e b rfl hacc

theorem shortestPath_pred_final {g : WeightedGraph W} {s t : Int} (hwf : g.WF)
    (hs : 0 ≤ s ∧ s < g.numNodes) (ht : 0 ≤ t ∧ t < g.numNodes) (hreach : g.Reach s t)
    (path : Int → Int) (pathLength : Int) :
    ∃ N, ∀ fuel, N ≤ fuel → ∃ r dist l,
      shortestPath P g fuel s t path pathLength = some r ∧
      dijkstra P g fuel s (fun _ => (0, Cost.fin 0)) = some dist ∧
      PredWalk g dist s t l ∧ l.Nodup ∧ (l.length : Int) ≤ g.numNodes ∧
      r.pathLength + 1 = l.length ∧
      (∀ (j : Nat) (x : Int), l[j]? = some x → r.path j = x) ∧
      countLoop dist s fuel t 0 = some r.pathLength ∧ r.path (-1) = s := by
  obtain ⟨N, pq1, vis1, acc1, hinv, hemp, hrun⟩ := SearchInv.rule P keyD hwf hs
  refine ⟨N + acc1.length, ?_⟩
  intro fuel hf
  have htb : InBounds t := ⟨ht.1, lt_of_lt_of_le ht.2 hwf.2.1⟩
  have hd : dijkstra P g fuel s (fun _ => (0, Cost.fin 0)) =
      some (distOf acc1 (initDist (fun _ => (0, Cost.fin 0)))) := by
    rw [dijkstra_eq_search, hrun fuel (by omega)]; rfl
  obtain ⟨e, he, het⟩ := hinv.mem_of_reach P hemp hreach
  obtain ⟨a, b, hab⟩ := List.append_of_mem he
  obtain ⟨l, hpw, hsub⟩ :=
    hinv.predWalk P hwf (initDist (fun _ => (0, Cost.fin 0))) a e b hab
  have hde := distOf_of_mem acc1 (initDist (fun _ => (0, Cost.fin 0))) hinv.nodup e he
  rw [het] at hde hpw
  have hsub2 : l.Sublist (acc1.map QueueElem.node) := by
    refine hsub.trans ?_
    rw [hab]
    simp only [List.map_append, List.map_cons, List.map_nil]
    exact List.Sublist.append (List.Sublist.refl _)
      (List.Sublist.cons₂ _ (List.nil_sublist _))
  have hll : l.length ≤ fuel := by
    have := hsub2.length_le
    rw [List.length_map] at this
    omega
  have hnd : l.Nodup := hsub2.nodup hinv.nodup
  have hrange : ∀ x ∈ l, 0 ≤ x ∧ x < g.numNodes := by
    intro x hx
    obtain ⟨z, hz, hzx⟩ := List.mem_map.1 (hsub2.subset hx)
    exact hzx ▸ hinv.acc_range z hz
  have hlen := length_le_of_nodup_range l g.numNodes hnd hrange
  rw [max_eq_left hwf.1] at hlen
  have hfin : ((distOf acc1 (initDist (fun _ => (0, Cost.fin 0)))) t).2 = Cost.fin e.cost := by
    rw [hde]
  obtain ⟨r, hsp, _, hpl, hpath, hm1, _⟩ :=
    shortestPath_of_chain P path pathLength hd htb hfin hpw.chain hll
  have hcount := countLoop_chain hpw.chain 0 fuel hll
  refine ⟨r, _, l, hsp, hd, hpw, hnd, hlen, hpl, hpath, ?_, hm1⟩
  rw [hcount]
  congr 1
  have := hpw.chain.length_pos
  omega

/-- C14: with non-negative weights and `t` reachable from `s`, the costs recorded by
`dijkstra(s)` along the path `path[0..pathLength]` left by `shortestPath(s, t)` are
prefix sums: `dist[path[0]]` has cost 0, and for each `i < pathLength` the cost of
`dist[path[i+1]]` is the cost of `dist[path[i]]` plus the weight of a stored edge
`path[i] → path[i+1]`, hence not smaller. -/
theorem dijkstra_costs_monotone_on_path (g : WeightedGraph W) (s t : Int) (hwf : g.WF)
    (hnn : g.NonNeg) (hs : 0 ≤ s ∧ s < g.numNodes) (ht : 0 ≤ t ∧ t < g.numNodes)
    (hreach : g.Reach s t) (path : Int → Int) (pathLength : Int) :
    ∃ N, ∀ fuel, N ≤ fuel → ∃ r dist,
      shortestPath P g fuel s t path pathLength = some r ∧
      dijkstra P g fuel s (fun _ => (0, Cost.fin 0)) = some dist ∧
      (dist (r.path 0)).2 = Cost.fin 0 ∧
      ∀ i : Nat, (i : Int) < r.pathLength →
        ∃ c w, (dist (r.path i)).2 = Cost.fin c ∧ (r.path (i + 1), w) ∈ g.adj (r.path i) ∧
          (dist (r.path (i + 1))).2 = Cost.fin (c + w) ∧ c ≤ c + w := by
  obtain ⟨N, hN⟩ := shortestPath_pred_final P hwf hs ht hreach path pathLength
  refine ⟨N, ?_⟩
  intro fuel hf
  obtain ⟨r, dist, l, hsp, hd, hpw, _, _, hpl, hpath, _, _⟩ := hN fuel hf
  refine ⟨r, dist, hsp, hd, ?_, ?_⟩
  · have h0 := hpath 0 s hpw.chain.chain_first
    simp only [Nat.cast_zero] at h0
    rw [h0, hpw.source]
  · intro i hi
    have hi1 : i < l.length := by omega
    have hi2 : i + 1 < l.length := by omega
    have h1 : l[i]? = some l[i] := List.getElem?_eq_getElem hi1
    have h2 : l[i + 1]? = some l[i + 1] := List.getElem?_eq_getElem hi2
    obtain ⟨c, w, hc, hw, hdy, hx, _⟩ := hpw.steps i _ _ h1 h2
    have hp1 := hpath i _ h1
    have hp2 := hpath (i + 1) _ h2
    simp only [Nat.cast_add, Nat.cast_one] at hp2
    rw [hp1, hp2]
    refine ⟨c, w, hc, hw, by rw [hdy], ?_⟩
    exact le_add_of_nonneg_right (hnn _ hx.1 hx.2 _ hw)

/-- C17: whatever the sign of the weights, when `t` is reachable from `s` the predecessor
walk of `shortestPath(s, t)` terminates: the counting loop reaches `s` after `pathLength`
steps, `pathLength <= numNodes - 1`, the nodes `path[0..pathLength]` are pairwise
distinct, and every `dist[n]` that is read belongs to a finalized node (finite cost)
other than `s` whose parent is the previous node of the path, not the sentinel `-1`. -/
theorem shortestPath_walk_terminates (g : WeightedGraph W) (s t : Int) (hwf : g.WF)
    (hs : 0 ≤ s ∧ s < g.numNodes) (ht : 0 ≤ t ∧ t < g.numNodes) (hreach : g.Reach s t)
    (path : Int → Int) (pathLength : Int) :
    ∃ N, ∀ fuel, N ≤ fuel → ∃ r dist,
      shortestPath P g fuel s t path pathLength = some r ∧
      dijkstra P g fuel s (fun _ => (0, Cost.fin 0)) = some dist ∧
      countLoop dist s fuel t 0 = some r.pathLength ∧
      0 ≤ r.pathLength ∧ r.pathLength ≤ g.numNodes - 1 ∧
      r.path 0 = s ∧ r.path r.pathLength = t ∧
      (∀ i : Nat, (i : Int) < r.pathLength →
        r.path (i + 1) ≠ s ∧ (dist (r.path (i + 1))).1 = r.path i ∧
          (dist (r.path (i + 1))).1 ≠ -1 ∧ (dist (r.path (i + 1))).2 ≠ Cost.inf) ∧
      ∀ i j : Nat, (i : Int) ≤ r.pathLength → (j : Int) ≤ r.pathLength →
        r.path i = r.path j → i = j := by
  obtain ⟨N, hN⟩ := shortestPath_pred_final P hwf hs ht hreach path pathLength
  refine ⟨N, ?_⟩
  intro fuel hf
  obtain ⟨r, dist, l, hsp, hd, hpw, hnd, hlen, hpl, hpath, hcount, _⟩ := hN fuel hf
  have hpos := hpw.chain.length_pos
  refine ⟨r, dist, hsp, hd, hcount, by omega, by omega, ?_, ?_, ?_, ?_⟩
  · simpa using hpath 0 s hpw.chain.chain_first
  · have := hpath (l.length - 1) t hpw.chain.chain_last
    rw [← this]
    congr 1
    omega
  · intro i hi
    have hi1 : i < l.length := by omega
    have hi2 : i + 1 < l.length := by omega
    have h1 : l[i]? = some l[i] := List.getElem?_eq_getElem hi1
    have h2 : l[i + 1]? = some l[i + 1] := List.getElem?_eq_getElem hi2
    obtain ⟨c, w, _, _, hdy, hx, hys⟩ := hpw.steps i _ _ h1 h2
    have hp1 := hpath i _ h1
    have hp2 := hpath (i + 1) _ h2
    simp only [Nat.cast_add, Nat.cast_one] at hp2
    rw [hp1, hp2, hdy]
    refine ⟨hys, rfl, ?_, ?_⟩
    · simp only []
      omega
    · simp
  · intro i j hi hj hij
    have hi1 : i < l.length := by omega
    have hj1 : j < l.length := by omega
    have h1 : l[i]? = some l[i] := List.getElem?_eq_getElem hi1
    have h2 : l[j]? = some l[j] := List.getElem?_eq_getElem hj1
    rw [hpath i _ h1, hpath j _ h2] at hij
    exact (hnd.getElem_inj_iff).1 hij

/-- C20: on a graph in which every stored edge has a stored reverse edge of the same
weight, the edges returned by `getMst(s)`, each at the weight with which it was selected,
form a spanning tree of the connected component of `s` whose total weight is at most
that of every spanning tree of that component in the underlying undirected graph. -/
theorem getMst_is_minimum_spanning_tree (g : WeightedGraph W) (s : Int) (hwf : g.WF)
    (hsym : g.Undirected) (hs : 0 ≤ s ∧ s < g.numNodes) :
    ∃ N Tp, (∀ fuel, N ≤ fuel → getMst P g fuel s = some (Tp.map (fun x => (x.1, x.2.1)))) ∧
      (∀ x ∈ Tp, ∀ w, (x.2.1, w) ∈ g.adj x.1 → x.2.2 ≤ w) ∧
      IsUndirectedSpanningTree g s Tp ∧
      ∀ T, IsUndirectedSpanningTree g s T → treeWeight Tp ≤ treeWeight T := by
  obtain ⟨N, pq1, vis1, rest, hinv, hemp, hrun, htree, hmin, _⟩ := getMst_weighted_final P hwf hs
  exact ⟨N, rest.map tri, hrun, hmin, htree.undirected,
    fun T hT => hinv.minimal P hsym hemp T hT⟩

/-- C16 (fails on the code): when `t` is reachable from `s`, `shortestPath(s, t, path,
pathLength)` stores `s` into the cell `path[-1]`, which lies outside the range
`0..pathLength`: after the second loop `index` is 0 and the statement
`path[index-1] = n` is executed.  A caller's cell before the buffer that held another
value is overwritten. -/
theorem shortestPath_stores_before_buffer (g : WeightedGraph W) (s t : Int) (hwf : g.WF)
    (hs : 0 ≤ s ∧ s < g.numNodes) (ht : 0 ≤ t ∧ t < g.numNodes) (hreach : g.Reach s t)
    (path : Int → Int) (pathLength : Int) (hcell : path (-1) ≠ s) :
    ∃ N, ∀ fuel, N ≤ fuel → ∃ r,
      shortestPath P g fuel s t path pathLength = some r ∧ 0 ≤ r.pathLength ∧
      r.path (-1) = s ∧ r.path (-1) ≠ path (-1) ∧
      ¬ ((0 : Int) ≤ -1 ∧ (-1 : Int) ≤ r.pathLength) := by
  obtain ⟨N, hN⟩ := shortestPath_pred_final P hwf hs ht hreach path pathLength
  refine ⟨N, ?_⟩
  intro fuel hf
  obtain ⟨r, dist, l, hsp, _, hpw, _, _, hpl, _, _, hm1⟩ := hN fuel hf
  have hpos := hpw.chain.length_pos
  refine ⟨r, hsp, by omega, hm1, ?_, by omega⟩
  rw [hm1]
  exact fun h => hcell h.symm

end

/-! ## Further concrete evaluations -/

/-- Witness for C15 on the graph `0→1` (2), `0→1` (9), `1→0` (4), `2→0` (3), `2→2` (1):
only the reverse edge `0→2` is appended. -/
theorem makeUndirected_symmetric_witness :
    oneWayGraph.WF ∧
      (∃ g1, makeUndirected oneWayGraph = some g1 ∧ g1.numNodes = oneWayGraph.numNodes ∧
        (∀ u v, 0 ≤ u → u < oneWayGraph.numNodes → 0 ≤ v → v < oneWayGraph.numNodes →
          (g1.Edge u v ↔ g1.Edge v u)) ∧
        ∀ u, ∃ app, g1.adj u = oneWayGraph.adj u ++ app ∧ (app.map Prod.fst).Nodup ∧
          ∀ q ∈ app, (∀ p ∈ oneWayGraph.adj u, p.1 ≠ q.1) ∧
            (u, q.2) ∈ oneWayGraph.adj q.1) ∧
      (makeUndirected oneWayGraph).map (fun g1 => (g1.numNodes, [g1.adj 0, g1.adj 1, g1.adj 2])) =
        some (3, [[(1, 2), (1, 9), (2, 3)], [(0, 4)], [(0, 3), (2, 1)]]) :=
  ⟨oneWayGraph_wf, makeUndirected_symmetric oneWayGraph oneWayGraph_wf, by decide⟩

/-- Witness for C12 on the specification's fixture with source 1. -/
theorem hasCycle_terminates_witness :
    fixture.WF ∧
      (∃ b col calls reads,
        (∀ fuel, fixture.numNodes.toNat ≤ fuel →
          cycleDfsT fixture fuel 1 (fun _ => WHITE) = some (b, col, calls, reads) ∧
            hasCycle fixture fuel 1 = some b) ∧
        (calls.length : Int) ≤ fixture.numNodes ∧ CallChain fixture (fun _ => WHITE) calls ∧
        (calls.map Prod.fst).Nodup ∧ ∀ v ∈ calls.map Prod.fst, col v ≠ WHITE) ∧
      hasCycle fixture 3 1 = some false :=
  ⟨fixture_wf, hasCycle_terminates fixture 1 fixture_wf ⟨by decide, by decide⟩, by decide⟩

/-- Witness for C13 on the specification's fixture with source 1: all three nodes are
reachable, three edges leave them, and four pushes are made. -/
theorem frontier_loops_terminate_witness :
    fixture.WF ∧
    ((∃ N pq1 vis1 acc n,
      (∀ fuel, N ≤ fuel →
        countedLoop (listQueue ℤ) keyD fixture fuel
            ((listQueue ℤ).push (listQueue ℤ).empty (startElem 1)) (fun _ => false) [] 1 =
            some (pq1, vis1, acc, n) ∧
          dijkstra (listQueue ℤ) fixture fuel 1 (fun _ => (0, Cost.fin 0)) =
            some (distOf acc (initDist (fun _ => (0, Cost.fin 0))))) ∧
      (listQueue ℤ).elems pq1 = [] ∧ (acc.map QueueElem.node).Nodup ∧
      (∀ v, v ∈ (acc.map QueueElem.node).toFinset ↔ fixture.Reach 1 v) ∧
      n = 1 + ∑ v in (acc.map QueueElem.node).toFinset, (fixture.adj v).length) ∧
    (∃ N pq1 vis1 acc n,
      (∀ fuel, N ≤ fuel →
        countedLoop (listQueue ℤ) keyP fixture fuel
            ((listQueue ℤ).push (listQueue ℤ).empty (startElem 1)) (fun _ => false) [] 1 =
            some (pq1, vis1, acc, n) ∧
          getMst (listQueue ℤ) fixture fuel 1 = some (mstOf 1 acc)) ∧
      (listQueue ℤ).elems pq1 = [] ∧ (acc.map QueueElem.node).Nodup ∧
      (∀ v, v ∈ (acc.map QueueElem.node).toFinset ↔ fixture.Reach 1 v) ∧
      n = 1 + ∑ v in (acc.map QueueElem.node).toFinset, (fixture.adj v).length)) ∧
    (countedLoop (listQueue ℤ) keyD fixture 10
        ((listQueue ℤ).push (listQueue ℤ).empty (startElem 1)) (fun _ => false) [] 1).map
      (fun r => (r.2.2.1.map QueueElem.node, r.2.2.2)) = some ([1, 2, 0], 4) :=
  ⟨fixture_wf,
    frontier_loops_terminate (listQueue ℤ) fixture 1 fixture_wf ⟨by decide, by decide⟩
      (fun _ => (0, Cost.fin 0)),
    by decide⟩

/-- Witness for C14 on the specification's fixture: along the path `1, 2, 0` of
`shortestPath(1, 0)` the recorded costs are 0, 3, 4. -/
theorem dijkstra_costs_monotone_on_path_witness :
    fixture.WF ∧ fixture.NonNeg ∧ fixture.Reach 1 0 ∧
      (∃ N, ∀ fuel, N ≤ fuel → ∃ r dist,
        shortestPath (listQueue ℤ) fixture fuel 1 0 (fun _ => 0) 0 = some r ∧
        dijkstra (listQueue ℤ) fixture fuel 1 (fun _ => (0, Cost.fin 0)) = some dist ∧
        (dist (r.path 0)).2 = Cost.fin 0 ∧
        ∀ i : Nat, (i : Int) < r.pathLength →
          ∃ c w, (dist (r.path i)).2 = Cost.fin c ∧
            (r.path (i + 1), w) ∈ fixture.adj (r.path i) ∧
            (dist (r.path (i + 1))).2 = Cost.fin (c + w) ∧ c ≤ c + w) ∧
      (dijkstra (listQueue ℤ) fixture 10 1 (fun _ => (0, Cost.fin 0))).map
          (fun dist => [(dist 1).2, (dist 2).2, (dist 0).2]) =
        some [Cost.fin 0, Cost.fin 3, Cost.fin 4] :=
  ⟨fixture_wf, fixture_nonneg, fixture_reach_1_0,
    dijkstra_costs_monotone_on_path (listQueue ℤ) fixture 1 0 fixture_wf fixture_nonneg
      ⟨by decide, by decide⟩ ⟨by decide, by decide⟩ fixture_reach_1_0 (fun _ => 0) 0,
    by decide⟩

/-- Witness for C16 on the specification's fixture: with every cell of the caller's
memory holding 7, `shortestPath(1, 0)` leaves `pathLength = 2`, `path[0..2] = 1, 2, 0`
and the value 1 in the cell `path[-1]`. -/
theorem shortestPath_stores_before_buffer_witness :
    fixture.WF ∧ fixture.Reach 1 0 ∧
      (∃ N, ∀ fuel, N ≤ fuel → ∃ r,
        shortestPath (listQueue ℤ) fixture fuel 1 0 (fun _ => 7) 0 = some r ∧
        0 ≤ r.pathLength ∧ r.path (-1) = 1 ∧ r.path (-1) ≠ (fun _ => (7 : Int)) (-1) ∧
        ¬ ((0 : Int) ≤ -1 ∧ (-1 : Int) ≤ r.pathLength)) ∧
      (shortestPath (listQueue ℤ) fixture 10 1 0 (fun _ => 7) 0).map
          (fun r => (r.pathLength, [r.path (-2), r.path (-1), r.path 0, r.path 1, r.path 2,
            r.path 3])) =
        some (2, [7, 1, 1, 2, 0, 7]) :=
  ⟨fixture_wf, fixture_reach_1_0,
    shortestPath_stores_before_buffer (listQueue ℤ) fixture 1 0 fixture_wf
      ⟨by decide, by decide⟩ ⟨by decide, by decide⟩ fixture_reach_1_0 (fun _ => 7) 0
      (by decide),
    by decide⟩

theorem negWeightGraph_wf : negWeightGraph.WF := by
  unfold WF; decide

/-- Witness for C17 on a graph with negative weights (`0→1` weight -2, `0→2` weight 1,
`1→2` weight -5): `shortestPath(0, 2)` walks back `2, 1, 0` in two steps. -/
theorem shortestPath_walk_terminates_witness :
    negWeightGraph.WF ∧ negWeightGraph.Reach 0 2 ∧
      (∃ N, ∀ fuel, N ≤ fuel → ∃ r dist,
        shortestPath (listQueue ℤ) negWeightGraph fuel 0 2 (fun _ => 0) 0 = some r ∧
        dijkstra (listQueue ℤ) negWeightGraph fuel 0 (fun _ => (0, Cost.fin 0)) = some dist ∧
        countLoop dist 0 fuel 2 0 = some r.pathLength ∧
        0 ≤ r.pathLength ∧ r.pathLength ≤ negWeightGraph.numNodes - 1 ∧
        r.path 0 = 0 ∧ r.path r.pathLength = 2 ∧
        (∀ i : Nat, (i : Int) < r.pathLength →
          r.path (i + 1) ≠ 0 ∧ (dist (r.path (i + 1))).1 = r.path i ∧
            (dist (r.path (i + 1))).1 ≠ -1 ∧ (dist (r.path (i + 1))).2 ≠ Cost.inf) ∧
        ∀ i j : Nat, (i : Int) ≤ r.pathLength → (j : Int) ≤ r.pathLength →
          r.path i = r.path j → i = j) ∧
      (shortestPath (listQueue ℤ) negWeightGraph 10 0 2 (fun _ => 0) 0).map
          (fun r => (r.cost, r.pathLength, [r.path 0, r.path 1, r.path 2])) =
        some (Cost.fin (-7), 2, [0, 1, 2]) :=
  ⟨negWeightGraph_wf, Relation.ReflTransGen.single ⟨1, by decide⟩,
    shortestPath_walk_terminates (listQueue ℤ) negWeightGraph 0 2 negWeightGraph_wf
      ⟨by decide, by decide⟩ ⟨by decide, by decide⟩
      (Relation.ReflTransGen.single ⟨1, by decide⟩) (fun _ => 0) 0,
    by decide⟩

/-- Witness for C18 on the graph with the single edge `0→0`: `hasCycle(0)` returns `true`
and the self-loop is a cycle reachable from 0. -/
theorem hasCycle_true_sound_witness :
    hasCycle selfLoopGraph 5 0 = some true ∧ selfLoopGraph.CycleReachable 0 :=
  ⟨by decide, hasCycle_true_sound selfLoopGraph 0 5 (by decide)⟩

/-- Witness for C19 on the fixture with the back edge `2→1` adjoined: from node 1 the walk
along first edges goes to node 0 and stops there. -/
theorem hasCycle_first_edge_only_witness :
    backEdgeGraph.WF ∧
      ((∀ fuel, hasCycle backEdgeGraph fuel 1 = firstEdgeWalk backEdgeGraph fuel 1 [1]) ∧
        (∀ g2 : WeightedGraph ℤ, g2.WF → 1 < g2.numNodes →
          (∀ u, (backEdgeGraph.adj u).head?.map Prod.fst = (g2.adj u).head?.map Prod.fst) →
          ∀ fuel, hasCycle backEdgeGraph fuel 1 = hasCycle g2 fuel 1) ∧
        ∃ b col calls reads,
          (∀ fuel, backEdgeGraph.numNodes.toNat ≤ fuel →
            cycleDfsT backEdgeGraph fuel 1 (fun _ => WHITE) = some (b, col, calls, reads)) ∧
          ∀ c ∈ reads, c ≠ BLACK) ∧
      firstEdgeWalk backEdgeGraph 3 1 [1] = some false :=
  ⟨backEdgeGraph_wf, hasCycle_first_edge_only backEdgeGraph 1 backEdgeGraph_wf
    ⟨by decide, by decide⟩, by decide⟩

/-- Witness for C20 on the undirected triangle `0–1` (2), `0–2` (3), `1–2` (1):
`getMst(1)` is `[(1,2), (1,0)]`, of total weight 3. -/
theorem getMst_is_minimum_spanning_tree_witness :
    triangle.WF ∧ triangle.Undirected ∧
      (∃ N Tp, (∀ fuel, N ≤ fuel →
          getMst (listQueue ℤ) triangle fuel 1 = some (Tp.map (fun x => (x.1, x.2.1)))) ∧
        (∀ x ∈ Tp, ∀ w, (x.2.1, w) ∈ triangle.adj x.1 → x.2.2 ≤ w) ∧
        IsUndirectedSpanningTree triangle 1 Tp ∧
        ∀ T, IsUndirectedSpanningTree triangle 1 T → treeWeight Tp ≤ treeWeight T) ∧
      getMst (listQueue ℤ) triangle 10 1 = some [(1, 2), (1, 0)] :=
  ⟨triangle_wf, triangle_undirected,
    getMst_is_minimum_spanning_tree (listQueue ℤ) triangle 1 triangle_wf
      triangle_undirected ⟨by decide, by decide⟩,
    by decide⟩

end WeightedGraph
